import Mathlib

/-!
Verification of the instruction-to-SVG renderer
(`knittingpattern/convert/InstructionToSVG.py`).

The module renders an instruction (a type name plus an optional color)
to SVG text: it looks the type up in a store of loaded template texts,
recolors the template's color layer, and falls back to a "default"
template with placeholder substitution.  The recoloring step parses the
SVG text with xmltodict into nested loosely typed mappings, rewrites
fill segments of style attributes inside groups labeled color/layer,
and serializes the result back to text.

The embedding below mirrors that code:
  - `XVal` is xmltodict's document representation: an element is `null`
    (empty element), a plain string (text-only element), or a mapping
    whose keys carry markers (attributes prefixed with a commercial at,
    text under the hash-text key); a repeated child tag collapses into a
    `list`.
  - Python `str.split` / `str.startswith` / `join` / `str.replace` are
    modelled by executable character-list functions.
  - Exceptions are modelled with `Except PyErr`; Python mutation of the
    nested dictionaries is modelled by rebuilding the structure.
  - `parseDoc` / `xmlUnparse` model `xmltodict.parse` / `unparse` on the
    XML fragment the templates use (declaration, elements, attributes,
    text, the five standard entities).
-/

/-! ## Python string primitives on character lists -/

/-- Model of Python `str.startswith`: `listStartsWith pre l` is true when
`pre` is an initial segment of `l`. -/
def listStartsWith : List Char → List Char → Bool
  | [], _ => true
  | _ :: _, [] => false
  | a :: as, b :: bs => a == b && listStartsWith as bs

/-- Model of Python `s.startswith(pre)` on strings. -/
def startsWithStr (s pre : String) : Bool :=
  listStartsWith pre.data s.data

/-- Model of Python `str.split(sep)` for a one-character separator, on
character lists.  `splitChar sep "" = [""]`, and every separator occurrence
opens a new (possibly empty) part, exactly as in Python. -/
def splitChar (sep : Char) : List Char → List (List Char)
  | [] => [[]]
  | c :: rest =>
    match splitChar sep rest with
    | [] => [[c]]
    | h :: t => if c == sep then [] :: h :: t else (c :: h) :: t

/-- Model of Python `sep.join(parts)` for a one-character separator, on
character lists. -/
def joinChar (sep : Char) : List (List Char) → List Char
  | [] => []
  | [x] => x
  | x :: y :: t => x ++ sep :: joinChar sep (y :: t)

/-- Python `s.split(sep)` on strings. -/
def pySplit (s : String) (sep : Char) : List String :=
  (splitChar sep s.data).map (fun l => String.mk l)

/-- Python `sep.join(parts)` on strings. -/
def pyJoin (sep : Char) (parts : List String) : String :=
  String.mk (joinChar sep (parts.map String.data))

/-- Auxiliary loop for `pyReplace`; the fuel is the length of the scanned
text, and every step consumes at least one character of it. -/
def pyReplaceAux (pat rep : List Char) : Nat → List Char → List Char
  | 0, s => s
  | fuel + 1, s =>
    match s with
    | [] => []
    | c :: rest =>
      if !pat.isEmpty && listStartsWith pat s then
        rep ++ pyReplaceAux pat rep fuel (s.drop pat.length)
      else
        c :: pyReplaceAux pat rep fuel rest

/-- Model of Python `s.replace(pat, rep)` for a non-empty pattern:
left-to-right, non-overlapping replacement of every occurrence. -/
def pyReplace (s pat rep : String) : String :=
  String.mk (pyReplaceAux pat.data rep.data s.data.length s.data)

/-- Characters Python `str.strip()` removes. -/
def charIsWs (c : Char) : Bool :=
  c == ' ' || c == '\n' || c == '\t' || c == '\r'

/-- Model of Python `str.strip()` on character lists. -/
def stripChars (l : List Char) : List Char :=
  ((l.dropWhile charIsWs).reverse.dropWhile charIsWs).reverse

/-! ## The xmltodict document representation -/

/-- A value in xmltodict's parse result: `null` for an empty element,
`str` for a text-only element or an attribute value, `dict` for an
element with attributes or children (keys in insertion order, attribute
keys prefixed with a commercial at, text under the hash-text key), and
`list` for a repeated child tag. -/
inductive XVal where
  | null : XVal
  | str (s : String) : XVal
  | dict (entries : List (String × XVal)) : XVal
  | list (vals : List XVal) : XVal

/-- First-match association lookup: Python `dict.get` / `dict[k]` on the
(insertion-ordered, duplicate-free) parse dictionaries. -/
def dictGet? {α : Type} : List (String × α) → String → Option α
  | [], _ => none
  | (k, v) :: rest, key => if k = key then some v else dictGet? rest key

/-- Python `d[key] = val`: replace the value at `key` in place, or append
the binding when `key` is absent. -/
def dictSet {α : Type} : List (String × α) → String → α → List (String × α)
  | [], key, val => [(key, val)]
  | (k, v) :: rest, key, val =>
    if k = key then (k, val) :: rest else (k, v) :: dictSet rest key val

/-- Python truthiness of a parse value (`if style:`). -/
def truthy : XVal → Bool
  | .null => false
  | .str s => !(s == "")
  | .dict entries => !entries.isEmpty
  | .list vals => !vals.isEmpty

/-- Errors the Python code can raise on this path. -/
inductive PyErr where
  | expatError : PyErr
  | keyError (key : String) : PyErr
  | typeError : PyErr
  | attributeError : PyErr

/-- Sequential effectful map: runs the body on each element in order and
propagates the first raised error, as a Python `for` loop does. -/
def mapE {α β : Type} (g : α → Except PyErr β) : List α → Except PyErr (List β)
  | [] => .ok []
  | x :: xs =>
    match g x with
    | .error e => .error e
    | .ok y =>
      match mapE g xs with
      | .error e => .error e
      | .ok ys => .ok (y :: ys)

/-! ## The color-layer rewriter (`_set_fills_in_color_layer`), structure level -/

/-- The inner loop of `_set_fills_in_color_layer` on one style value:
split on the semicolon, replace every segment that starts with the fill
key by the fill key followed by the color, rejoin with the semicolon. -/
def processStyle (s c : String) : String :=
  pyJoin ';' ((pySplit s ';').map
    (fun e => if startsWithStr e "fill:" then "fill:" ++ c else e))

/-- One nested element of a matching layer: read the style attribute with
`element.get`, skip falsy values, rewrite string values, and raise
AttributeError exactly where Python would (non-mapping element, or a
truthy non-string style value). -/
def processElement (c : String) (el : XVal) : Except PyErr XVal :=
  match el with
  | .dict entries =>
    let style := (dictGet? entries "@style").getD XVal.null
    if truthy style then
      match style with
      | .str s => .ok (.dict (dictSet entries "@style" (.str (processStyle s c))))
      | _ => .error .attributeError
    else .ok el
  | _ => .error .attributeError

/-- One `layer.items()` entry: attribute and text keys (marker-prefixed)
are skipped; any other value is normalized to a list of elements, each
processed by `processElement`, keeping the single/list shape. -/
def processEntry (c : String) (e : String × XVal) : Except PyErr (String × XVal) :=
  if startsWithStr e.1 "@" || startsWithStr e.1 "#" then .ok e
  else
    match e.2 with
    | .list items =>
      match mapE (processElement c) items with
      | .error err => .error err
      | .ok items2 => .ok (e.1, .list items2)
    | x =>
      match processElement c x with
      | .error err => .error err
      | .ok x2 => .ok (e.1, x2)

/-- The test selecting a color layer: the label attribute equals "color"
and the group-mode attribute equals "layer". -/
def isColorLayer (entries : List (String × XVal)) : Bool :=
  (match dictGet? entries "@inkscape:label" with
   | some (.str t) => t == "color"
   | _ => false) &&
  (match dictGet? entries "@inkscape:groupmode" with
   | some (.str t) => t == "layer"
   | _ => false)

/-- One direct child group of the root: non-mapping layers are skipped
(`continue`), non-matching mappings are left untouched, matching layers
have every entry processed by `processEntry`. -/
def processLayer (c : String) (layer : XVal) : Except PyErr XVal :=
  match layer with
  | .dict entries =>
    if isColorLayer entries then
      match mapE (processEntry c) entries with
      | .error err => .error err
      | .ok entries2 => .ok (.dict entries2)
    else .ok layer
  | x => .ok x

/-- The structure phase of `_set_fills_in_color_layer`: index the parse
result with `structure["svg"]["g"]` (KeyError on a missing key, TypeError
on subscripting a non-mapping), normalize a single group into a
one-element list, process every layer, and write the rewritten groups
back, as the Python in-place mutation does. -/
def setFillsStructure (c : String) (st : XVal) : Except PyErr XVal :=
  match st with
  | .dict se =>
    match dictGet? se "svg" with
    | none => .error (.keyError "svg")
    | some svgv =>
      match svgv with
      | .dict ge =>
        match dictGet? ge "g" with
        | none => .error (.keyError "g")
        | some g0 =>
          match g0 with
          | .list ls =>
            match mapE (processLayer c) ls with
            | .error err => .error err
            | .ok ls2 =>
              .ok (.dict (dictSet se "svg" (.dict (dictSet ge "g" (.list ls2)))))
          | x =>
            match processLayer c x with
            | .error err => .error err
            | .ok x2 =>
              .ok (.dict (dictSet se "svg" (.dict (dictSet ge "g" x2))))
      | _ => .error .typeError
  | _ => .error .typeError

/-! ## Parsing (`xmltodict.parse`) on the XML fragment templates use -/

/-- Characters expat accepts in (non-namespace-processed) names, enough
for the SVG templates: letters, digits, colon, hyphen, underscore, dot. -/
def isNameChar (c : Char) : Bool :=
  c.isAlphanum || c == ':' || c == '-' || c == '_' || c == '.'

/-- Read a name token; fails on an empty name. -/
def parseName (l : List Char) : Option (String × List Char) :=
  let n := l.takeWhile isNameChar
  if n.isEmpty then none else some (String.mk n, l.dropWhile isNameChar)

/-- Decode the five standard XML entities; a bare ampersand or an unknown
entity is a parse error (as in expat). -/
def unescapeChars : Nat → List Char → Option (List Char)
  | 0, l => if l.isEmpty then some [] else none
  | fuel + 1, l =>
    match l with
    | [] => some []
    | '&' :: rest =>
      if listStartsWith "amp;".data rest then
        (unescapeChars fuel (rest.drop 4)).map (fun r => '&' :: r)
      else if listStartsWith "lt;".data rest then
        (unescapeChars fuel (rest.drop 3)).map (fun r => '<' :: r)
      else if listStartsWith "gt;".data rest then
        (unescapeChars fuel (rest.drop 3)).map (fun r => '>' :: r)
      else if listStartsWith "quot;".data rest then
        (unescapeChars fuel (rest.drop 5)).map (fun r => '"' :: r)
      else if listStartsWith "apos;".data rest then
        (unescapeChars fuel (rest.drop 5)).map (fun r => '\'' :: r)
      else none
    | c :: rest => (unescapeChars fuel rest).map (fun r => c :: r)

/-- Parse the attribute list of a start tag, up to the closing slash or
angle bracket: whitespace-separated `name="value"` pairs with
double-quoted, entity-decoded values. -/
def parseAttrsAux : Nat → List Char → Option (List (String × String) × List Char)
  | 0, _ => none
  | fuel + 1, l =>
    let l1 := l.dropWhile charIsWs
    match l1 with
    | '/' :: _ => some ([], l1)
    | '>' :: _ => some ([], l1)
    | _ =>
      match parseName l1 with
      | none => none
      | some (name, r1) =>
        match (r1.dropWhile charIsWs) with
        | '=' :: r2 =>
          match (r2.dropWhile charIsWs) with
          | '"' :: r3 =>
            let raw := r3.takeWhile (fun c => c != '"')
            if raw.any (fun c => c == '<') then none
            else
              match r3.dropWhile (fun c => c != '"') with
              | '"' :: r4 =>
                match unescapeChars raw.length raw with
                | none => none
                | some value =>
                  match parseAttrsAux fuel r4 with
                  | none => none
                  | some (attrs, rest) => some ((name, String.mk value) :: attrs, rest)
              | _ => none
          | _ => none
        | _ => none

/-- A parsed content item: a child element (already folded to an `XVal`)
or a raw text run. -/
inductive PItem where
  | elem (tag : String) (v : XVal) : PItem
  | txt (s : String) : PItem

/-- xmltodict's push of one child under its tag: a first occurrence is
stored plainly, a repeated tag collapses the binding into a list. -/
def addChild (acc : List (String × XVal)) (k : String) (v : XVal) : List (String × XVal) :=
  match dictGet? acc k with
  | none => acc ++ [(k, v)]
  | some (.list l) => dictSet acc k (.list (l ++ [v]))
  | some old => dictSet acc k (.list [old, v])

/-- Fold a finished element into its `XVal`, the way xmltodict does:
attributes (marker-prefixed) in order, then children in document order,
then the stripped text under the hash-text key; an element with no
attributes and no children collapses to its text, or to `null` when the
text is empty. -/
def foldElem (attrs : List (String × String)) (items : List PItem) : XVal :=
  let attrEntries := attrs.map (fun a => ("@" ++ a.1, XVal.str a.2))
  let childEntries := items.foldl
    (fun acc it =>
      match it with
      | PItem.elem k v => addChild acc k v
      | PItem.txt _ => acc) []
  let text := stripChars (items.foldl
    (fun acc it =>
      match it with
      | PItem.txt s => acc ++ s.data
      | PItem.elem _ _ => acc) [])
  if attrEntries.isEmpty && childEntries.isEmpty then
    (if text.isEmpty then XVal.null else XVal.str (String.mk text))
  else
    XVal.dict (attrEntries ++ childEntries ++
      (if text.isEmpty then [] else [("#text", XVal.str (String.mk text))]))

/-- Match a closing tag for `name` and return the rest of the input. -/
def expectClose (name : String) (l : List Char) : Option (List Char) :=
  match l with
  | '<' :: '/' :: r =>
    match parseName r with
    | some (n, r2) =>
      if n == name then
        match r2.dropWhile charIsWs with
        | '>' :: r3 => some r3
        | _ => none
      else none
    | none => none
  | _ => none

/-- Parse a sequence of content items, stopping at the end of input or in
front of a closing tag; every recursive call is preceded by the
consumption of at least one character, so fuel one past the input length
never runs out on accepted input. -/
def parseItems : Nat → List Char → Option (List PItem × List Char)
  | 0, _ => none
  | fuel + 1, input =>
    match input with
    | [] => some ([], [])
    | '<' :: '/' :: _ => some ([], input)
    | '<' :: rest =>
      match parseName rest with
      | none => none
      | some (name, r1) =>
        match parseAttrsAux (r1.length + 1) r1 with
        | none => none
        | some (attrs, r2) =>
          match r2 with
          | '/' :: '>' :: r3 =>
            match parseItems fuel r3 with
            | none => none
            | some (items, restOut) =>
              some (PItem.elem name (foldElem attrs []) :: items, restOut)
          | '>' :: r3 =>
            match parseItems fuel r3 with
            | none => none
            | some (inner, r4) =>
              match expectClose name r4 with
              | none => none
              | some r5 =>
                match parseItems fuel r5 with
                | none => none
                | some (items, restOut) =>
                  some (PItem.elem name (foldElem attrs inner) :: items, restOut)
          | _ => none
    | _ =>
      let t := input.takeWhile (fun c => c != '<')
      match unescapeChars t.length t with
      | none => none
      | some tu =>
        match parseItems fuel (input.dropWhile (fun c => c != '<')) with
        | none => none
        | some (items, restOut) => some (PItem.txt (String.mk tu) :: items, restOut)

/-- Skip an XML declaration at the front of the input. -/
def dropDecl : Nat → List Char → Option (List Char)
  | 0, _ => none
  | _ + 1, [] => none
  | fuel + 1, l =>
    match l with
    | '?' :: '>' :: r => some r
    | _ :: r => dropDecl fuel r
    | [] => none

/-- Model of `xmltodict.parse`: optional declaration, exactly one root
element, only whitespace text outside it; the result is a one-key
mapping from the root tag to the folded root element. -/
def parseDoc (s : String) : Option XVal :=
  let l0 := s.data.dropWhile charIsWs
  match
    (match l0 with
     | '<' :: '?' :: r => dropDecl (r.length + 1) r
     | _ => some l0) with
  | none => none
  | some l1 =>
    let l2 := l1.dropWhile charIsWs
    match parseItems (l2.length + 1) l2 with
    | none => none
    | some (items, rest) =>
      if !rest.isEmpty then none
      else
        match items.filterMap
          (fun it => match it with | PItem.elem k v => some (k, v) | PItem.txt _ => none) with
        | [(tag, v)] =>
          if items.all
            (fun it => match it with
              | PItem.txt t => (stripChars t.data).isEmpty
              | PItem.elem _ _ => true) then
            some (XVal.dict [(tag, v)])
          else none
        | _ => none

/-! ## Serializing (`xmltodict.unparse`) -/

/-- Escape text content the way `xml.sax.saxutils.escape` does. -/
def escapeText (s : String) : String :=
  String.mk (s.data.foldr
    (fun c acc =>
      if c == '&' then "&amp;".data ++ acc
      else if c == '<' then "&lt;".data ++ acc
      else if c == '>' then "&gt;".data ++ acc
      else c :: acc) [])

/-- Escape a double-quoted attribute value (`quoteattr`). -/
def escapeAttr (s : String) : String :=
  String.mk (s.data.foldr
    (fun c acc =>
      if c == '&' then "&amp;".data ++ acc
      else if c == '<' then "&lt;".data ++ acc
      else if c == '>' then "&gt;".data ++ acc
      else if c == '"' then "&quot;".data ++ acc
      else c :: acc) [])

/-- The string an attribute value serializes to (parse results only ever
hold strings there). -/
def attrValStr : XVal → String
  | .str s => s
  | _ => ""

/-- Drop a key's one-character marker. -/
def dropMarker (s : String) : String :=
  String.mk (s.data.drop 1)

/-- Serialize one element (or, for a `list` value, the run of sibling
elements sharing a tag): attributes in order, children in order, text
last, with a separate closing tag as `unparse` emits. The fuel bounds
the nesting depth. -/
def serVal : Nat → String → XVal → String
  | 0, _, _ => ""
  | fuel + 1, tag, v =>
    match v with
    | .list vs => String.join (vs.map (fun x => serVal fuel tag x))
    | .null => "<" ++ tag ++ "></" ++ tag ++ ">"
    | .str s => "<" ++ tag ++ ">" ++ escapeText s ++ "</" ++ tag ++ ">"
    | .dict entries =>
      let attrs := entries.filter (fun e => startsWithStr e.1 "@")
      let attrStr := String.join (attrs.map
        (fun e => " " ++ dropMarker e.1 ++ "=\"" ++ escapeAttr (attrValStr e.2) ++ "\""))
      let children := entries.filter
        (fun e => !startsWithStr e.1 "@" && !(e.1 == "#text"))
      let text :=
        match dictGet? entries "#text" with
        | some (.str s) => s
        | _ => ""
      "<" ++ tag ++ attrStr ++ ">" ++
        String.join (children.map (fun e => serVal fuel e.1 e.2)) ++
        escapeText text ++ "</" ++ tag ++ ">"

/-- Model of `xmltodict.unparse`: the declaration line, then the root
element(s) of the mapping. -/
def xmlUnparse (fuel : Nat) (st : XVal) : String :=
  "<?xml version=\"1.0\" encoding=\"utf-8\"?>\n" ++
  (match st with
   | .dict entries => String.join (entries.map (fun e => serVal fuel e.1 e.2))
   | _ => "")

/-! ## The renderer API -/

/-- `xmltodict.parse` as the rewriter calls it: a failed parse is the
ExpatError (the spec's MalformedDocument). -/
def xmlParse (s : String) : Except PyErr XVal :=
  match parseDoc s with
  | some v => .ok v
  | none => .error .expatError

/-- `_set_fills_in_color_layer(svg_string, color)`: a missing color
short-circuits to the input text; otherwise parse, rewrite the color
layers, and serialize back. -/
def set_fills_in_color_layer (svg_string : String) (color : Option String) :
    Except PyErr String :=
  match color with
  | none => .ok svg_string
  | some c =>
    match xmlParse svg_string with
    | .error e => .error e
    | .ok st =>
      match setFillsStructure c st with
      | .error e => .error e
      | .ok st2 => .ok (xmlUnparse (svg_string.data.length + 1) st2)

/-- The template store `_instruction_type_to_file_content`: a mapping
from instruction-type name to loaded template text. -/
def Store : Type := List (String × String)

/-- An instruction as the renderer reads it: a type name and an optional
color. -/
structure Instruction where
  type : String
  color : Option String

/-- The placeholder `default_instruction_to_svg` substitutes
  (its local `rep_str`). -/
def rep_str : String := "\x7binstruction.type\x7d"

/-- `default_instruction_to_svg(instruction)`: an empty string when no
"default" template is loaded; otherwise the "default" text with every
placeholder occurrence replaced by the instruction type, then recolored
with the instruction color. -/
def default_instruction_to_svg (store : Store) (instruction : Instruction) :
    Except PyErr String :=
  match dictGet? store "default" with
  | none => .ok ""
  | some default_svg =>
    set_fills_in_color_layer (pyReplace default_svg rep_str instruction.type)
      instruction.color

/-- `instruction_to_svg(instruction)`: on a store hit, recolor the
dedicated template; on a miss, delegate to the default path. -/
def instruction_to_svg (store : Store) (instruction : Instruction) :
    Except PyErr String :=
  match dictGet? store instruction.type with
  | some svg_content => set_fills_in_color_layer svg_content instruction.color
  | none => default_instruction_to_svg store instruction

/-- `has_svg_for_instruction(instruction)`: membership of the type in the
store. -/
def has_svg_for_instruction (store : Store) (instruction : Instruction) : Bool :=
  (dictGet? store instruction.type).isSome

/-- `_process_loaded_object`'s store write: register content under a type
name, silently overwriting. -/
def process_loaded_object (store : Store) (name content : String) : Store :=
  dictSet store name content

/-- The operations a caller can issue against one renderer instance. -/
inductive RenderOp where
  | loadObject (name content : String) : RenderOp
  | toSvg (i : Instruction) : RenderOp
  | defaultToSvg (i : Instruction) : RenderOp
  | hasSvgFor (i : Instruction) : RenderOp

/-- An operation's observable result. -/
inductive RenderOut where
  | text (r : Except PyErr String) : RenderOut
  | flag (b : Bool) : RenderOut
  | unitOut : RenderOut

/-- One call against the renderer: the store it leaves behind and the
value it returns. -/
def runRenderOp (store : Store) : RenderOp → Store × RenderOut
  | .loadObject name content => (process_loaded_object store name content, .unitOut)
  | .toSvg i => (store, .text (instruction_to_svg store i))
  | .defaultToSvg i => (store, .text (default_instruction_to_svg store i))
  | .hasSvgFor i => (store, .flag (has_svg_for_instruction store i))

/-! ## Accessors used to state the claims -/

/-- The normalization `if not isinstance(layers, list): layers = [layers]`. -/
def layerListOf : XVal → List XVal
  | .list ls => ls
  | x => [x]

/-- The normalization `if not isinstance(elements, list): elements = [elements]`. -/
def childListOf : XVal → List XVal
  | .list vs => vs
  | x => [x]

/-- Whether a direct child group passes the color-layer test (a
non-mapping never does). -/
def isLayerMatch : XVal → Bool
  | .dict entries => isColorLayer entries
  | _ => false

/-- The entry list of the `j`-th direct child group of the document root,
when the document has the `svg`-root/`g`-child shape the rewriter
indexes. -/
def layerEntriesAt (st : XVal) (j : Nat) : Option (List (String × XVal)) :=
  match st with
  | .dict se =>
    match dictGet? se "svg" with
    | some (.dict ge) =>
      match dictGet? ge "g" with
      | some g0 =>
        match (layerListOf g0).get? j with
        | some (.dict le) => some le
        | _ => none
      | none => none
    | _ => none
  | _ => none

/-- The fill segments of one style value: the semicolon segments that
start with the fill key. -/
def fillSegments (s : String) : List String :=
  (pySplit s ';').filter (fun e => startsWithStr e "fill:")

/-- All style attribute values in a parse structure, in document order;
the fuel bounds the nesting depth. -/
def stylesInVal : Nat → XVal → List String
  | 0, _ => []
  | fuel + 1, v =>
    match v with
    | .dict entries =>
      (match dictGet? entries "@style" with
       | some (.str s) => [s]
       | _ => []) ++
      (entries.map
        (fun e =>
          if startsWithStr e.1 "@" || e.1 == "#text" then []
          else stylesInVal fuel e.2)).flatten
    | .list vs => (vs.map (fun x => stylesInVal fuel x)).flatten
    | _ => []

/-- The fill segments of every style attribute of a document text, in
document order; `none` when the text does not parse. -/
def docFillValues (doc : String) : Option (List String) :=
  match parseDoc doc with
  | some st => some ((stylesInVal (doc.data.length + 1) st).map fillSegments).flatten
  | none => none

/-! ## Helper lemmas -/

set_option maxRecDepth 10000

theorem listStartsWith_append (p r : List Char) : listStartsWith p (p ++ r) = true := by
  induction p with
  | nil => rfl
  | cons a as ih => simp [listStartsWith, ih]

theorem splitChar_ne_nil (sep : Char) (l : List Char) : splitChar sep l ≠ [] := by
  induction l with
  | nil => simp [splitChar]
  | cons c rest ih =>
    simp only [splitChar]
    rcases h : splitChar sep rest with _ | ⟨hd, tl⟩
    · simp
    · by_cases hc : c = sep <;> simp [hc]

theorem splitChar_sep_not_mem (sep : Char) (l : List Char) :
    ∀ p ∈ splitChar sep l, sep ∉ p := by
  induction l with
  | nil =>
    intro p hp
    simp [splitChar] at hp
    simp [hp]
  | cons c rest ih =>
    intro p hp
    simp only [splitChar] at hp
    rcases h : splitChar sep rest with _ | ⟨hd, tl⟩
    · exact absurd h (splitChar_ne_nil sep rest)
    · rw [h] at hp
      have ihhd : sep ∉ hd := ih hd (h ▸ List.mem_cons_self hd tl)
      by_cases hc : c = sep
      · simp [hc] at hp
        rcases hp with hp | hp | hp
        · simp [hp]
        · subst hp; exact ihhd
        · exact ih p (h ▸ List.mem_cons_of_mem hd hp)
      · simp [hc] at hp
        rcases hp with hp | hp
        · subst hp
          intro hmem
          rcases List.mem_cons.mp hmem with he | hm
          · exact hc he.symm
          · exact ihhd hm
        · exact ih p (h ▸ List.mem_cons_of_mem hd hp)

theorem splitChar_of_not_mem (sep : Char) (l : List Char) (h : sep ∉ l) :
    splitChar sep l = [l] := by
  induction l with
  | nil => rfl
  | cons c rest ih =>
    have hc : ¬ c = sep := fun he => h (he ▸ List.mem_cons_self c rest)
    have hr : sep ∉ rest := fun hm => h (List.mem_cons_of_mem c hm)
    simp only [splitChar, ih hr]
    simp [hc]

theorem splitChar_append_sep (sep : Char) (x r : List Char) (hx : sep ∉ x) :
    splitChar sep (x ++ sep :: r) = x :: splitChar sep r := by
  induction x with
  | nil =>
    simp only [List.nil_append, splitChar]
    rcases h : splitChar sep r with _ | ⟨hd, tl⟩
    · exact absurd h (splitChar_ne_nil sep r)
    · simp
  | cons c x' ih =>
    have hc : ¬ c = sep := fun he => hx (he ▸ List.mem_cons_self c x')
    have hx' : sep ∉ x' := fun hm => hx (List.mem_cons_of_mem c hm)
    simp only [List.cons_append, splitChar, List.append_eq]
    rw [ih hx']
    simp [hc]

theorem splitChar_joinChar (sep : Char) (parts : List (List Char))
    (hne : parts ≠ []) (hfree : ∀ p ∈ parts, sep ∉ p) :
    splitChar sep (joinChar sep parts) = parts := by
  induction parts with
  | nil => exact absurd rfl hne
  | cons x parts' ih =>
    rcases parts' with _ | ⟨y, t⟩
    · simp only [joinChar]
      exact splitChar_of_not_mem sep x (hfree x (List.mem_cons_self x []))
    · simp only [joinChar]
      rw [splitChar_append_sep sep x (joinChar sep (y :: t))
        (hfree x (List.mem_cons_self x (y :: t)))]
      rw [ih (by simp) (fun p hp => hfree p (List.mem_cons_of_mem x hp))]

theorem joinChar_ne_nil_of_head_ne_nil (sep : Char) (x : List Char)
    (parts : List (List Char)) (hx : x ≠ []) : joinChar sep (x :: parts) ≠ [] := by
  rcases parts with _ | ⟨y, t⟩
  · simpa [joinChar] using hx
  · simp [joinChar]

theorem joinChar_ne_nil_of_two (sep : Char) (x y : List Char)
    (parts : List (List Char)) : joinChar sep (x :: y :: parts) ≠ [] := by
  simp [joinChar]

theorem pySplit_pyJoin (sep : Char) (parts : List String) (hne : parts ≠ [])
    (hfree : ∀ p ∈ parts, sep ∉ p.data) :
    pySplit (pyJoin sep parts) sep = parts := by
  unfold pySplit pyJoin
  rw [show (String.mk (joinChar sep (parts.map String.data))).data
      = joinChar sep (parts.map String.data) from rfl]
  rw [splitChar_joinChar sep (parts.map String.data)
    (by simpa using hne)
    (by intro p hp
        rcases List.mem_map.mp hp with ⟨q, hq, rfl⟩
        exact hfree q hq)]
  rw [List.map_map]
  exact List.map_congr_left (fun a _ => rfl) |>.trans (List.map_id parts)

theorem startsWithStr_fill_append (c : String) :
    startsWithStr ("fill:" ++ c) "fill:" = true := by
  unfold startsWithStr
  rw [String.data_append]
  exact listStartsWith_append _ _

theorem splitChar_head_or_two (sep : Char) (l : List Char) (h : l ≠ []) :
    (∃ x, splitChar sep l = [x] ∧ x ≠ []) ∨
    (∃ x y t, splitChar sep l = x :: y :: t) := by
  rcases l with _ | ⟨c, rest⟩
  · exact absurd rfl h
  · simp only [splitChar]
    rcases hr : splitChar sep rest with _ | ⟨hd, tl⟩
    · exact absurd hr (splitChar_ne_nil sep rest)
    · by_cases hc : c = sep
      · right; exact ⟨[], hd, tl, by simp [hc]⟩
      · rcases tl with _ | ⟨y, t⟩
        · left; exact ⟨c :: hd, by simp [hc], by simp⟩
        · right; exact ⟨c :: hd, y, t, by simp [hc]⟩

theorem String_ne_empty_iff_data (s : String) : s ≠ "" ↔ s.data ≠ [] := by
  rw [ne_eq, ne_eq, String.ext_iff]

theorem mem_pySplit_sep_not_mem (s : String) (sep : Char) (q : String)
    (hq : q ∈ pySplit s sep) : sep ∉ q.data := by
  unfold pySplit at hq
  rcases List.mem_map.mp hq with ⟨p, hp, rfl⟩
  exact splitChar_sep_not_mem sep s.data p hp

theorem pyJoin_ne_empty (sep : Char) (parts : List String)
    (h : (∃ x, parts = [x] ∧ x ≠ "") ∨ (∃ x y t, parts = x :: y :: t)) :
    pyJoin sep parts ≠ "" := by
  rw [String_ne_empty_iff_data]
  unfold pyJoin
  rcases h with ⟨x, rfl, hx⟩ | ⟨x, y, t, rfl⟩
  · simpa [joinChar] using (String_ne_empty_iff_data x).mp hx
  · simp [joinChar]

theorem processStyle_ne_empty (s c : String) (h : s ≠ "") : processStyle s c ≠ "" := by
  unfold processStyle
  apply pyJoin_ne_empty
  rcases splitChar_head_or_two ';' s.data ((String_ne_empty_iff_data s).mp h) with
    ⟨x, hx, hxne⟩ | ⟨x, y, t, hxyt⟩
  · left
    refine ⟨if startsWithStr (String.mk x) "fill:" then "fill:" ++ c else String.mk x,
      by simp [pySplit, hx], ?_⟩
    by_cases hf : startsWithStr (String.mk x) "fill:"
    · simp only [hf, if_true]
      rw [String_ne_empty_iff_data, String.data_append]
      simp
    · simp only [hf, if_false]
      rw [String_ne_empty_iff_data]
      exact hxne
  · right
    refine ⟨(if startsWithStr (String.mk x) "fill:" then "fill:" ++ c else String.mk x),
      (if startsWithStr (String.mk y) "fill:" then "fill:" ++ c else String.mk y),
      ((t.map (fun l => String.mk l)).map
        (fun e => if startsWithStr e "fill:" then "fill:" ++ c else e)), ?_⟩
    simp [pySplit, hxyt]

theorem processStyle_idem (s c : String) (hc : ';' ∉ c.data) :
    processStyle (processStyle s c) c = processStyle s c := by
  unfold processStyle
  have h1 : pySplit (pyJoin ';' ((pySplit s ';').map
      (fun e => if startsWithStr e "fill:" then "fill:" ++ c else e))) ';'
      = (pySplit s ';').map (fun e => if startsWithStr e "fill:" then "fill:" ++ c else e) := by
    apply pySplit_pyJoin
    · have := splitChar_ne_nil ';' s.data
      simp [pySplit]
      intro hcon
      exact this hcon
    · intro p hp
      rcases List.mem_map.mp hp with ⟨q, hq, rfl⟩
      by_cases hf : startsWithStr q "fill:"
      · simp only [hf, if_true]
        rw [String.data_append]
        intro hmem
        rcases List.mem_append.mp hmem with hm | hm
        · revert hm; decide
        · exact hc hm
      · simp only [hf, if_false]
        exact mem_pySplit_sep_not_mem s ';' q hq
  rw [h1, List.map_map]
  congr 1
  apply List.map_congr_left
  intro a _
  by_cases hf : startsWithStr a "fill:"
  · simp [Function.comp, hf, startsWithStr_fill_append]
  · simp [Function.comp, hf]

theorem dictGet?_dictSet_self {α : Type} (l : List (String × α)) (k : String) (v : α) :
    dictGet? (dictSet l k v) k = some v := by
  induction l with
  | nil => simp [dictGet?, dictSet]
  | cons e rest ih =>
    rcases e with ⟨k0, v0⟩
    by_cases h : k0 = k
    · simp [dictGet?, dictSet, h]
    · simp [dictGet?, dictSet, h, ih]

theorem dictGet?_dictSet_ne {α : Type} (l : List (String × α)) (k k' : String) (v : α)
    (h : k' ≠ k) : dictGet? (dictSet l k v) k' = dictGet? l k' := by
  induction l with
  | nil =>
    simp [dictGet?, dictSet]
    exact fun he => h he.symm
  | cons e rest ih =>
    rcases e with ⟨k0, v0⟩
    by_cases h0 : k0 = k
    · subst h0
      have hne : ¬ k0 = k' := fun he => h he.symm
      simp [dictGet?, dictSet, hne]
    · simp [dictGet?, dictSet, h0, ih]

theorem dictSet_eq_self {α : Type} (l : List (String × α)) (k : String) (v : α)
    (h : dictGet? l k = some v) : dictSet l k v = l := by
  induction l with
  | nil => simp [dictGet?] at h
  | cons e rest ih =>
    rcases e with ⟨k0, v0⟩
    by_cases h0 : k0 = k
    · subst h0
      simp [dictGet?] at h
      simp [dictSet, h]
    · simp [dictGet?, h0] at h
      simp [dictSet, h0, ih h]

theorem dictSet_dictSet {α : Type} (l : List (String × α)) (k : String) (v w : α) :
    dictSet (dictSet l k v) k w = dictSet l k w := by
  induction l with
  | nil => simp [dictSet]
  | cons e rest ih =>
    rcases e with ⟨k0, v0⟩
    by_cases h0 : k0 = k
    · simp [dictSet, h0]
    · simp [dictSet, h0, ih]

theorem mapE_ok_length {α β : Type} (g : α → Except PyErr β) (l : List α)
    (l' : List β) (h : mapE g l = .ok l') : l'.length = l.length := by
  induction l generalizing l' with
  | nil => simp [mapE] at h; simp [← h]
  | cons x xs ih =>
    simp only [mapE] at h
    rcases hg : g x with e | y <;> rw [hg] at h
    · exact absurd h (by simp)
    · rcases hm : mapE g xs with e | ys <;> rw [hm] at h
      · exact absurd h (by simp)
      · simp at h
        subst h
        simp [ih ys hm]

theorem mapE_ok_get? {α β : Type} (g : α → Except PyErr β) (l : List α)
    (l' : List β) (n : Nat) (x : α) (h : mapE g l = .ok l')
    (hx : l.get? n = some x) : ∃ y, l'.get? n = some y ∧ g x = .ok y := by
  induction l generalizing l' n with
  | nil => simp at hx
  | cons a xs ih =>
    simp only [mapE] at h
    rcases hg : g a with e | y <;> rw [hg] at h
    · exact absurd h (by simp)
    · rcases hm : mapE g xs with e | ys <;> rw [hm] at h
      · exact absurd h (by simp)
      · simp at h
        subst h
        rcases n with _ | n
        · have hax : a = x := by simpa using hx
          subst hax
          exact ⟨y, rfl, hg⟩
        · have hx2 : xs.get? n = some x := by simpa using hx
          rcases ih ys n hm hx2 with ⟨y', hy1, hy2⟩
          exact ⟨y', by simpa using hy1, hy2⟩

theorem mapE_ok_of_id {α : Type} (g : α → Except PyErr α) (l : List α)
    (h : ∀ x ∈ l, g x = .ok x) : mapE g l = .ok l := by
  induction l with
  | nil => rfl
  | cons x xs ih =>
    have h1 := h x (List.mem_cons_self x xs)
    have h2 := ih (fun a ha => h a (List.mem_cons_of_mem x ha))
    simp [mapE, h1, h2]

theorem mapE_ok_idem {α : Type} (g : α → Except PyErr α) (l l' : List α)
    (h : mapE g l = .ok l') (hg : ∀ x y, g x = .ok y → g y = .ok y) :
    mapE g l' = .ok l' := by
  induction l generalizing l' with
  | nil =>
    simp only [mapE] at h
    cases h
    rfl
  | cons x xs ih =>
    simp only [mapE] at h
    rcases hgx : g x with e | y <;> rw [hgx] at h
    · exact absurd h (by simp)
    · rcases hm : mapE g xs with e | ys <;> rw [hm] at h
      · exact absurd h (by simp)
      · simp at h
        subst h
        simp only [mapE, hg x y hgx, ih ys hm]

theorem processElement_ok_dict (c : String) (el el' : XVal)
    (h : processElement c el = .ok el') : ∃ es, el' = .dict es := by
  rcases el with _ | s | entries | vs <;> simp [processElement] at h
  rcases hst : (dictGet? entries "@style").getD XVal.null with _ | s | es | vs <;>
    rw [hst] at h <;> simp [truthy] at h
  · exact ⟨entries, h.symm⟩
  · by_cases hs : s = ""
    · simp [hs] at h
      exact ⟨entries, h.symm⟩
    · simp [hs] at h
      exact ⟨_, h.symm⟩
  · rcases hes : es.isEmpty <;> simp [hes] at h
    exact ⟨entries, h.symm⟩
  · rcases hvs : vs.isEmpty <;> simp [hvs] at h
    exact ⟨entries, h.symm⟩

theorem processElement_no_style (c : String) (entries : List (String × XVal))
    (h : dictGet? entries "@style" = none) :
    processElement c (.dict entries) = .ok (.dict entries) := by
  simp [processElement, h, truthy]

theorem processStyle_empty (c : String) : processStyle "" c = "" := rfl

theorem processElement_with_style (c : String) (entries : List (String × XVal))
    (s : String) (h : dictGet? entries "@style" = some (.str s)) :
    processElement c (.dict entries) =
      .ok (.dict (dictSet entries "@style" (.str (processStyle s c)))) := by
  by_cases hs : s = ""
  · subst hs
    rw [dictSet_eq_self entries "@style" (XVal.str (processStyle "" c))
      (by rw [processStyle_empty]; exact h)]
    simp [processElement, h, truthy]
  · have hb : (s == "") = false := by
      rcases hbe : s == "" with _ | _
      · rfl
      · exact absurd (by simpa using hbe) hs
    simp [processElement, h, truthy, hb]

theorem processElement_idem (c : String) (el el' : XVal)
    (hc : ';' ∉ c.data) (h : processElement c el = .ok el') :
    processElement c el' = .ok el' := by
  rcases el with _ | s | entries | vs
  · simp [processElement] at h
  · simp [processElement] at h
  · rcases hst : dictGet? entries "@style" with _ | sv
    · rw [processElement_no_style c entries hst] at h
      simp at h
      subst h
      exact processElement_no_style c entries hst
    · rcases sv with _ | s | es | vs2
      · simp [processElement, hst, truthy] at h
        subst h
        simp [processElement, hst, truthy]
      · rw [processElement_with_style c entries s hst] at h
        simp at h
        subst h
        rw [processElement_with_style c _ (processStyle s c)
          (dictGet?_dictSet_self entries "@style" (XVal.str (processStyle s c)))]
        rw [processStyle_idem s c hc, dictSet_dictSet]
      · rcases hes : es.isEmpty
        · simp [processElement, hst, truthy, hes] at h
        · simp [processElement, hst, truthy, hes] at h
          subst h
          simp [processElement, hst, truthy, hes]
      · rcases hvs : vs2.isEmpty
        · simp [processElement, hst, truthy, hvs] at h
        · simp [processElement, hst, truthy, hvs] at h
          subst h
          simp [processElement, hst, truthy, hvs]
  · simp [processElement] at h

theorem processEntry_marker_id (c : String) (e : String × XVal)
    (h : (startsWithStr e.1 "@" || startsWithStr e.1 "#") = true) :
    processEntry c e = .ok e := by
  simp only [processEntry, h, if_true]

theorem processEntry_fst (c : String) (e e' : String × XVal)
    (h : processEntry c e = .ok e') : e'.1 = e.1 := by
  rcases e with ⟨k, v⟩
  by_cases hg : (startsWithStr k "@" || startsWithStr k "#") = true
  · rw [processEntry_marker_id c (k, v) hg] at h
    simp at h
    simp [← h]
  · rcases v with _ | s | entries | items
    · simp [processEntry, hg] at h
      rcases hpe : processElement c XVal.null with err | x2 <;> rw [hpe] at h <;> simp at h
      subst h
      rfl
    · simp [processEntry, hg] at h
      rcases hpe : processElement c (XVal.str s) with err | x2 <;> rw [hpe] at h <;> simp at h
      subst h
      rfl
    · simp [processEntry, hg] at h
      rcases hpe : processElement c (XVal.dict entries) with err | x2 <;> rw [hpe] at h <;>
        simp at h
      subst h
      rfl
    · simp [processEntry, hg] at h
      rcases hpe : mapE (processElement c) items with err | items2 <;> rw [hpe] at h <;>
        simp at h
      subst h
      rfl

theorem processEntry_idem (c : String) (e e' : String × XVal)
    (hc : ';' ∉ c.data) (h : processEntry c e = .ok e') :
    processEntry c e' = .ok e' := by
  rcases e with ⟨k, v⟩
  by_cases hg : (startsWithStr k "@" || startsWithStr k "#") = true
  · rw [processEntry_marker_id c (k, v) hg] at h
    simp at h
    subst h
    exact processEntry_marker_id c (k, v) hg
  · rcases v with _ | s | entries | items
    · simp [processEntry, hg] at h
      rcases hpe : processElement c XVal.null with err | x2 <;> rw [hpe] at h <;> simp at h
      simp [processElement] at hpe
    · simp [processEntry, hg] at h
      rcases hpe : processElement c (XVal.str s) with err | x2 <;> rw [hpe] at h <;> simp at h
      simp [processElement] at hpe
    · simp [processEntry, hg] at h
      rcases hpe : processElement c (XVal.dict entries) with err | x2 <;> rw [hpe] at h <;>
        simp at h
      subst h
      rcases processElement_ok_dict c _ _ hpe with ⟨es2, rfl⟩
      simp [processEntry, hg]
      rw [processElement_idem c _ _ hc hpe]
    · simp [processEntry, hg] at h
      rcases hpe : mapE (processElement c) items with err | items2 <;> rw [hpe] at h <;>
        simp at h
      subst h
      simp [processEntry, hg]
      rw [mapE_ok_idem (processElement c) items items2 hpe
        (fun x y hxy => processElement_idem c x y hc hxy)]

theorem mapE_entries_marker_get (c : String) (l l' : List (String × XVal))
    (h : mapE (processEntry c) l = .ok l') (k : String)
    (hk : (startsWithStr k "@" || startsWithStr k "#") = true) :
    dictGet? l' k = dictGet? l k := by
  induction l generalizing l' with
  | nil =>
    simp only [mapE] at h
    cases h
    rfl
  | cons e rest ih =>
    simp only [mapE] at h
    rcases hpe : processEntry c e with err | e1 <;> rw [hpe] at h
    · exact absurd h (by simp)
    · rcases hm : mapE (processEntry c) rest with err | rest1 <;> rw [hm] at h
      · exact absurd h (by simp)
      · simp at h
        subst h
        rcases e with ⟨k0, v0⟩
        by_cases hkk : k0 = k
        · subst hkk
          rw [processEntry_marker_id c (k0, v0) hk] at hpe
          simp at hpe
          subst hpe
          simp [dictGet?]
        · have hfst := processEntry_fst c (k0, v0) e1 hpe
          rcases e1 with ⟨k1, v1⟩
          simp at hfst
          subst hfst
          simp [dictGet?, hkk, ih rest1 hm]

theorem isColorLayer_preserved (c : String) (l l' : List (String × XVal))
    (h : mapE (processEntry c) l = .ok l') :
    isColorLayer l' = isColorLayer l := by
  unfold isColorLayer
  rw [mapE_entries_marker_get c l l' h "@inkscape:label" (by decide),
    mapE_entries_marker_get c l l' h "@inkscape:groupmode" (by decide)]

theorem processLayer_nonmatch (c : String) (layer : XVal)
    (h : isLayerMatch layer = false) : processLayer c layer = .ok layer := by
  rcases layer with _ | s | entries | vs
  · rfl
  · rfl
  · simp [isLayerMatch] at h
    simp [processLayer, h]
  · rfl

theorem processLayer_idem (c : String) (layer layer' : XVal)
    (hc : ';' ∉ c.data) (h : processLayer c layer = .ok layer') :
    processLayer c layer' = .ok layer' := by
  rcases layer with _ | s | entries | vs
  · simp [processLayer] at h
    subst h
    rfl
  · simp [processLayer] at h
    subst h
    rfl
  · rcases hcl : isColorLayer entries
    · simp [processLayer, hcl] at h
      subst h
      simp [processLayer, hcl]
    · simp [processLayer, hcl] at h
      rcases hm : mapE (processEntry c) entries with err | entries2 <;> rw [hm] at h <;>
        simp at h
      subst h
      have hcl2 : isColorLayer entries2 = true := by
        rw [isColorLayer_preserved c entries entries2 hm]
        exact hcl
      simp [processLayer, hcl2]
      rw [mapE_ok_idem (processEntry c) entries entries2 hm
        (fun x y hxy => processEntry_idem c x y hc hxy)]
  · simp [processLayer] at h
    subst h
    rfl

theorem processLayer_ok_dict (c : String) (entries : List (String × XVal)) (L' : XVal)
    (h : processLayer c (.dict entries) = .ok L') : ∃ es, L' = .dict es := by
  rcases hcl : isColorLayer entries
  · simp [processLayer, hcl] at h
    exact ⟨entries, h.symm⟩
  · simp [processLayer, hcl] at h
    rcases hm : mapE (processEntry c) entries with err | entries2 <;> rw [hm] at h <;> simp at h
    exact ⟨entries2, h.symm⟩

theorem setFillsStructure_idem (c : String) (st st' : XVal)
    (hc : ';' ∉ c.data) (h : setFillsStructure c st = .ok st') :
    setFillsStructure c st' = .ok st' := by
  rcases st with _ | s | se | vs
  · simp [setFillsStructure] at h
  · simp [setFillsStructure] at h
  · rcases hsvg : dictGet? se "svg" with _ | svgv
    · simp [setFillsStructure, hsvg] at h
    · rcases svgv with _ | s | ge | vs2
      · simp [setFillsStructure, hsvg] at h
      · simp [setFillsStructure, hsvg] at h
      · rcases hg : dictGet? ge "g" with _ | g0
        · simp [setFillsStructure, hsvg, hg] at h
        · rcases g0 with _ | s | le | ls
          · simp [setFillsStructure, hsvg, hg] at h
            rcases hpl : processLayer c XVal.null with err | x2 <;> rw [hpl] at h <;> simp at h
            simp [processLayer] at hpl
            subst hpl
            subst h
            simp [setFillsStructure, dictGet?_dictSet_self, processLayer, dictSet_dictSet]
          · simp [setFillsStructure, hsvg, hg] at h
            rcases hpl : processLayer c (XVal.str s) with err | x2 <;> rw [hpl] at h <;> simp at h
            simp [processLayer] at hpl
            subst hpl
            subst h
            simp [setFillsStructure, dictGet?_dictSet_self, processLayer, dictSet_dictSet]
          · simp [setFillsStructure, hsvg, hg] at h
            rcases hpl : processLayer c (XVal.dict le) with err | x2 <;> rw [hpl] at h <;>
              simp at h
            subst h
            rcases processLayer_ok_dict c le x2 hpl with ⟨es, rfl⟩
            have hidem := processLayer_idem c (XVal.dict le) (XVal.dict es) hc hpl
            simp [setFillsStructure, dictGet?_dictSet_self]
            rw [hidem]
            simp [dictSet_dictSet]
          · simp [setFillsStructure, hsvg, hg] at h
            rcases hm : mapE (processLayer c) ls with err | ls2 <;> rw [hm] at h <;> simp at h
            subst h
            have hidem := mapE_ok_idem (processLayer c) ls ls2 hm
              (fun x y hxy => processLayer_idem c x y hc hxy)
            simp [setFillsStructure, dictGet?_dictSet_self]
            rw [hidem]
            simp [dictSet_dictSet]
      · simp [setFillsStructure, hsvg] at h
  · simp [setFillsStructure] at h

theorem setFills_layers (c : String) (se ge : List (String × XVal)) (g0 : XVal)
    (st' : XVal)
    (hsvg : dictGet? se "svg" = some (.dict ge))
    (hg : dictGet? ge "g" = some g0)
    (h : setFillsStructure c (.dict se) = .ok st') :
    ∃ G', st' = .dict (dictSet se "svg" (.dict (dictSet ge "g" G'))) ∧
      (layerListOf G').length = (layerListOf g0).length ∧
      (∀ j L, (layerListOf g0).get? j = some L →
        ∃ L', (layerListOf G').get? j = some L' ∧ processLayer c L = .ok L') := by
  rcases g0 with _ | s | le | ls
  · simp [setFillsStructure, hsvg, hg] at h
    rcases hpl : processLayer c XVal.null with err | x2 <;> rw [hpl] at h <;> simp at h
    subst h
    simp [processLayer] at hpl
    subst hpl
    exact ⟨XVal.null, rfl, rfl, by
      intro j L hj
      rcases j with _ | j
      · simp [layerListOf] at hj
        subst hj
        exact ⟨XVal.null, by simp [layerListOf], rfl⟩
      · simp [layerListOf] at hj⟩
  · simp [setFillsStructure, hsvg, hg] at h
    rcases hpl : processLayer c (XVal.str s) with err | x2 <;> rw [hpl] at h <;> simp at h
    subst h
    simp [processLayer] at hpl
    subst hpl
    exact ⟨XVal.str s, rfl, rfl, by
      intro j L hj
      rcases j with _ | j
      · simp [layerListOf] at hj
        subst hj
        exact ⟨XVal.str s, by simp [layerListOf], rfl⟩
      · simp [layerListOf] at hj⟩
  · simp [setFillsStructure, hsvg, hg] at h
    rcases hpl : processLayer c (XVal.dict le) with err | x2 <;> rw [hpl] at h <;> simp at h
    subst h
    rcases processLayer_ok_dict c le x2 hpl with ⟨es, rfl⟩
    refine ⟨XVal.dict es, rfl, rfl, ?_⟩
    intro j L hj
    rcases j with _ | j
    · simp [layerListOf] at hj
      subst hj
      exact ⟨XVal.dict es, by simp [layerListOf], hpl⟩
    · simp [layerListOf] at hj
  · simp [setFillsStructure, hsvg, hg] at h
    rcases hm : mapE (processLayer c) ls with err | ls2 <;> rw [hm] at h <;> simp at h
    subst h
    refine ⟨XVal.list ls2, rfl, ?_, ?_⟩
    · simp [layerListOf, mapE_ok_length (processLayer c) ls ls2 hm]
    · intro j L hj
      simp only [layerListOf] at hj ⊢
      rcases mapE_ok_get? (processLayer c) ls ls2 j L hm hj with ⟨L', hL1, hL2⟩
      exact ⟨L', hL1, hL2⟩

theorem locate_processed (c : String) (se ge : List (String × XVal)) (g0 : XVal)
    (j p i : Nat) (le : List (String × XVal)) (k : String) (v : XVal) (el : XVal)
    (st' : XVal)
    (hsvg : dictGet? se "svg" = some (.dict ge))
    (hg : dictGet? ge "g" = some g0)
    (hj : (layerListOf g0).get? j = some (.dict le))
    (hcl : isColorLayer le = true)
    (hp : le.get? p = some (k, v))
    (hk : (startsWithStr k "@" || startsWithStr k "#") = false)
    (hi : (childListOf v).get? i = some el)
    (h : setFillsStructure c (.dict se) = .ok st') :
    ∃ le' v' el', layerEntriesAt st' j = some le' ∧ le'.get? p = some (k, v') ∧
      (childListOf v').get? i = some el' ∧ processElement c el = .ok el' := by
  rcases setFills_layers c se ge g0 st' hsvg hg h with ⟨G', rfl, _, hget⟩
  rcases hget j (XVal.dict le) hj with ⟨L', hL1, hL2⟩
  simp [processLayer, hcl] at hL2
  rcases hm : mapE (processEntry c) le with err | le2 <;> rw [hm] at hL2 <;> simp at hL2
  subst hL2
  rcases mapE_ok_get? (processEntry c) le le2 p (k, v) hm hp with ⟨e', he1, he2⟩
  have hfst := processEntry_fst c (k, v) e' he2
  rcases e' with ⟨k1, v'⟩
  simp at hfst
  subst hfst
  have hL1g : (layerListOf G')[j]? = some (XVal.dict le2) := by simpa using hL1
  have hleAt : layerEntriesAt (XVal.dict (dictSet se "svg"
      (XVal.dict (dictSet ge "g" G')))) j = some le2 := by
    simp [layerEntriesAt, dictGet?_dictSet_self, hL1g]
  refine ⟨le2, v', ?_⟩
  rcases v with _ | s | entries | items
  · simp [processEntry, hk] at he2
    rcases hpe : processElement c XVal.null with err | x2 <;> rw [hpe] at he2 <;> simp at he2
    simp [processElement] at hpe
  · simp [processEntry, hk] at he2
    rcases hpe : processElement c (XVal.str s) with err | x2 <;> rw [hpe] at he2 <;> simp at he2
    simp [processElement] at hpe
  · simp [processEntry, hk] at he2
    rcases hpe : processElement c (XVal.dict entries) with err | x2 <;> rw [hpe] at he2 <;>
      simp at he2
    subst he2
    rcases i with _ | i
    · simp [childListOf] at hi
      subst hi
      rcases processElement_ok_dict c _ _ hpe with ⟨es2, rfl⟩
      exact ⟨XVal.dict es2, hleAt, he1, by simp [childListOf], hpe⟩
    · simp [childListOf] at hi
  · simp [processEntry, hk] at he2
    rcases hml : mapE (processElement c) items with err | items2 <;> rw [hml] at he2 <;>
      simp at he2
    subst he2
    simp only [childListOf] at hi
    rcases mapE_ok_get? (processElement c) items items2 i el hml hi with ⟨el', hel1, hel2⟩
    exact ⟨el', hleAt, he1, by simpa [childListOf] using hel1, hel2⟩

theorem setFills_no_match (c : String) (se ge : List (String × XVal)) (g0 : XVal)
    (hsvg : dictGet? se "svg" = some (.dict ge))
    (hg : dictGet? ge "g" = some g0)
    (hnm : ∀ L ∈ layerListOf g0, isLayerMatch L = false) :
    setFillsStructure c (.dict se) = .ok (.dict se) := by
  have hcollapse : dictSet se "svg" (XVal.dict (dictSet ge "g" g0)) = se := by
    rw [dictSet_eq_self ge "g" g0 hg, dictSet_eq_self se "svg" (XVal.dict ge) hsvg]
  rcases g0 with _ | s | le | ls
  · simp [setFillsStructure, hsvg, hg, processLayer, hcollapse]
  · simp [setFillsStructure, hsvg, hg, processLayer, hcollapse]
  · have hl := hnm (XVal.dict le) (by simp [layerListOf])
    simp only [setFillsStructure, hsvg, hg]
    rw [processLayer_nonmatch c (XVal.dict le) hl]
    simp [hcollapse]
  · have hmap : mapE (processLayer c) ls = .ok ls := mapE_ok_of_id (processLayer c) ls
      (fun L hL => processLayer_nonmatch c L (hnm L (by simpa [layerListOf] using hL)))
    simp only [setFillsStructure, hsvg, hg]
    rw [hmap]
    simp [hcollapse]

/-! ## Serialization round trip and canonical parse structure -/

/-! ## Depth of a parse structure and fuel stability of the serializer -/

mutual

/-- Nesting depth of a parse value (strings and empty elements are flat). -/
def xdepth : XVal → Nat
  | .null => 0
  | .str _ => 0
  | .dict es => 1 + xdepthEntries es
  | .list vs => 1 + xdepthList vs

/-- Greatest value depth among a mapping's entries. -/
def xdepthEntries : List (String × XVal) → Nat
  | [] => 0
  | e :: rest => max (xdepth e.2) (xdepthEntries rest)

/-- Greatest depth among sibling values. -/
def xdepthList : List XVal → Nat
  | [] => 0
  | v :: rest => max (xdepth v) (xdepthList rest)

end

theorem xdepth_le_of_mem_entries (es : List (String × XVal)) (e : String × XVal)
    (h : e ∈ es) : xdepth e.2 ≤ xdepthEntries es := by
  induction es with
  | nil => simp at h
  | cons a rest ih =>
    rcases List.mem_cons.mp h with rfl | hm
    · simp [xdepthEntries]
    · exact le_trans (ih hm) (by simp [xdepthEntries])

theorem xdepth_le_of_mem_list (vs : List XVal) (v : XVal) (h : v ∈ vs) :
    xdepth v ≤ xdepthList vs := by
  induction vs with
  | nil => simp at h
  | cons a rest ih =>
    rcases List.mem_cons.mp h with rfl | hm
    · simp [xdepthList]
    · exact le_trans (ih hm) (by simp [xdepthList])

theorem serVal_stable (d : Nat) : ∀ (v : XVal) (tag : String) (fuel1 fuel2 : Nat),
    xdepth v ≤ d → xdepth v < fuel1 → xdepth v < fuel2 →
    serVal fuel1 tag v = serVal fuel2 tag v := by
  induction d with
  | zero =>
    intro v tag fuel1 fuel2 hd h1 h2
    rcases fuel1 with _ | f1
    · omega
    rcases fuel2 with _ | f2
    · omega
    rcases v with _ | s | es | vs
    · rfl
    · rfl
    · simp [xdepth] at hd
    · simp [xdepth] at hd
  | succ d ih =>
    intro v tag fuel1 fuel2 hd h1 h2
    rcases fuel1 with _ | f1
    · omega
    rcases fuel2 with _ | f2
    · omega
    rcases v with _ | s | es | vs
    · rfl
    · rfl
    · simp only [serVal]
      have hmap : List.map (fun e => serVal f1 e.1 e.2)
          (es.filter (fun e => !startsWithStr e.1 "@" && !(e.1 == "#text"))) =
          List.map (fun e => serVal f2 e.1 e.2)
          (es.filter (fun e => !startsWithStr e.1 "@" && !(e.1 == "#text"))) := by
        apply List.map_congr_left
        intro e he
        have hde : xdepth e.2 ≤ xdepthEntries es :=
          xdepth_le_of_mem_entries es e (List.mem_of_mem_filter he)
        have hdd : xdepth (XVal.dict es) = 1 + xdepthEntries es := rfl
        exact ih e.2 e.1 f1 f2 (by omega) (by omega) (by omega)
      rw [hmap]
    · simp only [serVal]
      have hmap : List.map (fun x => serVal f1 tag x) vs =
          List.map (fun x => serVal f2 tag x) vs := by
        apply List.map_congr_left
        intro x hx
        have hdx : xdepth x ≤ xdepthList vs := xdepth_le_of_mem_list vs x hx
        have hdd : xdepth (XVal.list vs) = 1 + xdepthList vs := rfl
        exact ih x tag f1 f2 (by omega) (by omega) (by omega)
      rw [hmap]

theorem parseItems_mono (fuel : Nat) : ∀ (l : List Char) (r : List PItem × List Char),
    parseItems fuel l = some r → parseItems (fuel + 1) l = some r := by
  induction fuel with
  | zero => intro l r h; simp [parseItems] at h
  | succ fuel ih =>
    intro l r h
    obtain ⟨F, hF⟩ : ∃ F, fuel + 1 = F := ⟨fuel + 1, rfl⟩
    have ihF : ∀ (x : List Char) (rr : List PItem × List Char),
        parseItems fuel x = some rr → parseItems F x = some rr := by
      intro x rr hx
      rw [← hF]
      exact ih x rr hx
    rw [show fuel + 1 + 1 = F + 1 from by omega]
    simp only [parseItems] at h ⊢
    split at h
    · exact h
    · exact h
    · rename_i rest hneg
      rcases hn : parseName rest with _ | ⟨name, r1⟩
      · simp only [hn] at h
        exact absurd h (by simp)
      · simp only [hn] at h ⊢
        rcases ha : parseAttrsAux (r1.length + 1) r1 with _ | ⟨attrs, r2⟩
        · simp only [ha] at h
          exact absurd h (by simp)
        · simp only [ha] at h ⊢
          split at h
          · rename_i r3
            rcases hp : parseItems fuel r3 with _ | ⟨items, restOut⟩
            · simp only [hp] at h
              exact absurd h (by simp)
            · simp only [hp, ihF r3 (items, restOut) hp] at h ⊢
              exact h
          · rename_i r3
            rcases hp : parseItems fuel r3 with _ | ⟨inner, r4⟩
            · simp only [hp] at h
              exact absurd h (by simp)
            · simp only [hp, ihF r3 (inner, r4) hp] at h ⊢
              rcases he : expectClose name r4 with _ | r5
              · simp only [he] at h
                exact absurd h (by simp)
              · simp only [he] at h ⊢
                rcases hp2 : parseItems fuel r5 with _ | ⟨items, restOut⟩
                · simp only [hp2] at h
                  exact absurd h (by simp)
                · simp only [hp2, ihF r5 (items, restOut) hp2] at h ⊢
                  exact h
          · exact absurd h (by simp)
    · rcases hp : parseItems fuel (l.dropWhile (fun c => c != '<')) with _ | ⟨items, restOut⟩
      · rcases hu : unescapeChars (l.takeWhile (fun c => c != '<')).length
            (l.takeWhile (fun c => c != '<')) with _ | tu
        · simp only [hu] at h
          exact absurd h (by simp)
        · simp only [hu, hp] at h
          exact absurd h (by simp)
      · rcases hu : unescapeChars (l.takeWhile (fun c => c != '<')).length
            (l.takeWhile (fun c => c != '<')) with _ | tu
        · simp only [hu] at h
          exact absurd h (by simp)
        · simp only [hu, hp, ihF _ (items, restOut) hp] at h ⊢
          exact h

theorem parseItems_mono_le (fuel fuel' : Nat) (l : List Char) (r : List PItem × List Char)
    (hle : fuel ≤ fuel') (h : parseItems fuel l = some r) : parseItems fuel' l = some r := by
  induction fuel' with
  | zero =>
    have : fuel = 0 := by omega
    subst this
    exact h
  | succ f ih =>
    rcases Nat.lt_or_ge fuel (f + 1) with hlt | hge
    · exact parseItems_mono f l r (ih (by omega))
    · have : fuel = f + 1 := by omega
      subst this
      exact h

/-! ## Escaping round trip -/

theorem escapeText_data (s : String) : (escapeText s).data =
    s.data.foldr (fun c acc =>
      if c == '&' then "&amp;".data ++ acc
      else if c == '<' then "&lt;".data ++ acc
      else if c == '>' then "&gt;".data ++ acc
      else c :: acc) [] := rfl

theorem escapeAttr_data (s : String) : (escapeAttr s).data =
    s.data.foldr (fun c acc =>
      if c == '&' then "&amp;".data ++ acc
      else if c == '<' then "&lt;".data ++ acc
      else if c == '>' then "&gt;".data ++ acc
      else if c == '"' then "&quot;".data ++ acc
      else c :: acc) [] := rfl

theorem lt_not_mem_escapeText (s : String) : '<' ∉ (escapeText s).data := by
  rw [escapeText_data]
  induction s.data with
  | nil => simp
  | cons a l ih =>
    simp only [List.foldr_cons]
    by_cases h1 : a = '&'
    · rw [if_pos (by simp [h1])]
      intro hmem
      rcases List.mem_append.mp hmem with hm | hm
      · exact absurd hm (by decide)
      · exact ih hm
    · rw [if_neg (by simp [h1])]
      by_cases h2 : a = '<'
      · rw [if_pos (by simp [h2])]
        intro hmem
        rcases List.mem_append.mp hmem with hm | hm
        · exact absurd hm (by decide)
        · exact ih hm
      · rw [if_neg (by simp [h2])]
        by_cases h3 : a = '>'
        · rw [if_pos (by simp [h3])]
          intro hmem
          rcases List.mem_append.mp hmem with hm | hm
          · exact absurd hm (by decide)
          · exact ih hm
        · rw [if_neg (by simp [h3])]
          intro hmem
          rcases List.mem_cons.mp hmem with hm | hm
          · exact h2 hm.symm
          · exact ih hm

theorem lt_not_mem_escapeAttr (s : String) : '<' ∉ (escapeAttr s).data := by
  rw [escapeAttr_data]
  induction s.data with
  | nil => simp
  | cons a l ih =>
    simp only [List.foldr_cons]
    by_cases h1 : a = '&'
    · rw [if_pos (by simp [h1])]
      intro hmem
      rcases List.mem_append.mp hmem with hm | hm
      · exact absurd hm (by decide)
      · exact ih hm
    · rw [if_neg (by simp [h1])]
      by_cases h2 : a = '<'
      · rw [if_pos (by simp [h2])]
        intro hmem
        rcases List.mem_append.mp hmem with hm | hm
        · exact absurd hm (by decide)
        · exact ih hm
      · rw [if_neg (by simp [h2])]
        by_cases h3 : a = '>'
        · rw [if_pos (by simp [h3])]
          intro hmem
          rcases List.mem_append.mp hmem with hm | hm
          · exact absurd hm (by decide)
          · exact ih hm
        · rw [if_neg (by simp [h3])]
          by_cases h4 : a = '"'
          · rw [if_pos (by simp [h4])]
            intro hmem
            rcases List.mem_append.mp hmem with hm | hm
            · exact absurd hm (by decide)
            · exact ih hm
          · rw [if_neg (by simp [h4])]
            intro hmem
            rcases List.mem_cons.mp hmem with hm | hm
            · exact h2 hm.symm
            · exact ih hm

theorem quot_not_mem_escapeAttr (s : String) : '\"' ∉ (escapeAttr s).data := by
  rw [escapeAttr_data]
  induction s.data with
  | nil => simp
  | cons a l ih =>
    simp only [List.foldr_cons]
    by_cases h1 : a = '&'
    · rw [if_pos (by simp [h1])]
      intro hmem
      rcases List.mem_append.mp hmem with hm | hm
      · exact absurd hm (by decide)
      · exact ih hm
    · rw [if_neg (by simp [h1])]
      by_cases h2 : a = '<'
      · rw [if_pos (by simp [h2])]
        intro hmem
        rcases List.mem_append.mp hmem with hm | hm
        · exact absurd hm (by decide)
        · exact ih hm
      · rw [if_neg (by simp [h2])]
        by_cases h3 : a = '>'
        · rw [if_pos (by simp [h3])]
          intro hmem
          rcases List.mem_append.mp hmem with hm | hm
          · exact absurd hm (by decide)
          · exact ih hm
        · rw [if_neg (by simp [h3])]
          by_cases h4 : a = '"'
          · rw [if_pos (by simp [h4])]
            intro hmem
            rcases List.mem_append.mp hmem with hm | hm
            · exact absurd hm (by decide)
            · exact ih hm
          · rw [if_neg (by simp [h4])]
            intro hmem
            rcases List.mem_cons.mp hmem with hm | hm
            · exact h4 hm.symm
            · exact ih hm

/-- The character-level body of `escapeText`. -/
def escTD (l : List Char) : List Char :=
  l.foldr (fun c acc =>
    if c == '&' then "&amp;".data ++ acc
    else if c == '<' then "&lt;".data ++ acc
    else if c == '>' then "&gt;".data ++ acc
    else c :: acc) []

/-- The character-level body of `escapeAttr`. -/
def escAD (l : List Char) : List Char :=
  l.foldr (fun c acc =>
    if c == '&' then "&amp;".data ++ acc
    else if c == '<' then "&lt;".data ++ acc
    else if c == '>' then "&gt;".data ++ acc
    else if c == '"' then "&quot;".data ++ acc
    else c :: acc) []

theorem escapeText_eq (s : String) : (escapeText s).data = escTD s.data := rfl

theorem escapeAttr_eq (s : String) : (escapeAttr s).data = escAD s.data := rfl

theorem unescape_escTD (l : List Char) : ∀ fuel, (escTD l).length ≤ fuel →
    unescapeChars fuel (escTD l) = some l := by
  induction l with
  | nil =>
    intro fuel _
    rcases fuel with _ | f <;> rfl
  | cons a l' ih =>
    intro fuel hlen
    by_cases h1 : a = '&'
    · rw [show escTD (a :: l') = '&' :: 'a' :: 'm' :: 'p' :: ';' :: escTD l' from by
        simp only [escTD, List.foldr_cons]
        rw [if_pos (by simp [h1])]
        rfl] at hlen ⊢
      rcases fuel with _ | f
      · simp at hlen
      · simp only [unescapeChars]
        rw [if_pos (show listStartsWith "amp;".data
            ('a' :: 'm' :: 'p' :: ';' :: escTD l') = true from
          listStartsWith_append "amp;".data (escTD l'))]
        rw [show ('a' :: 'm' :: 'p' :: ';' :: escTD l').drop 4 = escTD l' from rfl]
        rw [ih f (by simp at hlen; omega)]
        simp [h1]
    · by_cases h2 : a = '<'
      · rw [show escTD (a :: l') = '&' :: 'l' :: 't' :: ';' :: escTD l' from by
          simp only [escTD, List.foldr_cons]
          rw [if_neg (by simp [h1]), if_pos (by simp [h2])]
          rfl] at hlen ⊢
        rcases fuel with _ | f
        · simp at hlen
        · simp only [unescapeChars]
          rw [if_neg (ne_true_of_eq_false (show listStartsWith "amp;".data
              ('l' :: 't' :: ';' :: escTD l') = false from rfl))]
          rw [if_pos (show listStartsWith "lt;".data
              ('l' :: 't' :: ';' :: escTD l') = true from
            listStartsWith_append "lt;".data (escTD l'))]
          rw [show ('l' :: 't' :: ';' :: escTD l').drop 3 = escTD l' from rfl]
          rw [ih f (by simp at hlen; omega)]
          simp [h2]
      · by_cases h3 : a = '>'
        · rw [show escTD (a :: l') = '&' :: 'g' :: 't' :: ';' :: escTD l' from by
            simp only [escTD, List.foldr_cons]
            rw [if_neg (by simp [h1]), if_neg (by simp [h2]), if_pos (by simp [h3])]
            rfl] at hlen ⊢
          rcases fuel with _ | f
          · simp at hlen
          · simp only [unescapeChars]
            rw [if_neg (ne_true_of_eq_false (show listStartsWith "amp;".data
                ('g' :: 't' :: ';' :: escTD l') = false from rfl))]
            rw [if_neg (ne_true_of_eq_false (show listStartsWith "lt;".data
                ('g' :: 't' :: ';' :: escTD l') = false from rfl))]
            rw [if_pos (show listStartsWith "gt;".data
                ('g' :: 't' :: ';' :: escTD l') = true from
              listStartsWith_append "gt;".data (escTD l'))]
            rw [show ('g' :: 't' :: ';' :: escTD l').drop 3 = escTD l' from rfl]
            rw [ih f (by simp at hlen; omega)]
            simp [h3]
        · rw [show escTD (a :: l') = a :: escTD l' from by
            simp only [escTD, List.foldr_cons]
            rw [if_neg (by simp [h1]), if_neg (by simp [h2]), if_neg (by simp [h3])]] at hlen ⊢
          rcases fuel with _ | f
          · simp at hlen
          · simp only [unescapeChars]
            rw [ih f (by simp at hlen; omega)]
            rfl

theorem unescape_escAD (l : List Char) : ∀ fuel, (escAD l).length ≤ fuel →
    unescapeChars fuel (escAD l) = some l := by
  induction l with
  | nil =>
    intro fuel _
    rcases fuel with _ | f <;> rfl
  | cons a l' ih =>
    intro fuel hlen
    by_cases h1 : a = '&'
    · rw [show escAD (a :: l') = '&' :: 'a' :: 'm' :: 'p' :: ';' :: escAD l' from by
        simp only [escAD, List.foldr_cons]
        rw [if_pos (by simp [h1])]
        rfl] at hlen ⊢
      rcases fuel with _ | f
      · simp at hlen
      · simp only [unescapeChars]
        rw [if_pos (show listStartsWith "amp;".data
            ('a' :: 'm' :: 'p' :: ';' :: escAD l') = true from
          listStartsWith_append "amp;".data (escAD l'))]
        rw [show ('a' :: 'm' :: 'p' :: ';' :: escAD l').drop 4 = escAD l' from rfl]
        rw [ih f (by simp at hlen; omega)]
        simp [h1]
    · by_cases h2 : a = '<'
      · rw [show escAD (a :: l') = '&' :: 'l' :: 't' :: ';' :: escAD l' from by
          simp only [escAD, List.foldr_cons]
          rw [if_neg (by simp [h1]), if_pos (by simp [h2])]
          rfl] at hlen ⊢
        rcases fuel with _ | f
        · simp at hlen
        · simp only [unescapeChars]
          rw [if_neg (ne_true_of_eq_false (show listStartsWith "amp;".data
              ('l' :: 't' :: ';' :: escAD l') = false from rfl))]
          rw [if_pos (show listStartsWith "lt;".data
              ('l' :: 't' :: ';' :: escAD l') = true from
            listStartsWith_append "lt;".data (escAD l'))]
          rw [show ('l' :: 't' :: ';' :: escAD l').drop 3 = escAD l' from rfl]
          rw [ih f (by simp at hlen; omega)]
          simp [h2]
      · by_cases h3 : a = '>'
        · rw [show escAD (a :: l') = '&' :: 'g' :: 't' :: ';' :: escAD l' from by
            simp only [escAD, List.foldr_cons]
            rw [if_neg (by simp [h1]), if_neg (by simp [h2]), if_pos (by simp [h3])]
            rfl] at hlen ⊢
          rcases fuel with _ | f
          · simp at hlen
          · simp only [unescapeChars]
            rw [if_neg (ne_true_of_eq_false (show listStartsWith "amp;".data
                ('g' :: 't' :: ';' :: escAD l') = false from rfl))]
            rw [if_neg (ne_true_of_eq_false (show listStartsWith "lt;".data
                ('g' :: 't' :: ';' :: escAD l') = false from rfl))]
            rw [if_pos (show listStartsWith "gt;".data
                ('g' :: 't' :: ';' :: escAD l') = true from
              listStartsWith_append "gt;".data (escAD l'))]
            rw [show ('g' :: 't' :: ';' :: escAD l').drop 3 = escAD l' from rfl]
            rw [ih f (by simp at hlen; omega)]
            simp [h3]
        · by_cases h4 : a = '"'
          · rw [show escAD (a :: l') = '&' :: 'q' :: 'u' :: 'o' :: 't' :: ';' :: escAD l'
                from by
              simp only [escAD, List.foldr_cons]
              rw [if_neg (by simp [h1]), if_neg (by simp [h2]), if_neg (by simp [h3]),
                if_pos (by simp [h4])]
              rfl] at hlen ⊢
            rcases fuel with _ | f
            · simp at hlen
            · simp only [unescapeChars]
              rw [if_neg (ne_true_of_eq_false (show listStartsWith "amp;".data
                  ('q' :: 'u' :: 'o' :: 't' :: ';' :: escAD l') = false from rfl))]
              rw [if_neg (ne_true_of_eq_false (show listStartsWith "lt;".data
                  ('q' :: 'u' :: 'o' :: 't' :: ';' :: escAD l') = false from rfl))]
              rw [if_neg (ne_true_of_eq_false (show listStartsWith "gt;".data
                  ('q' :: 'u' :: 'o' :: 't' :: ';' :: escAD l') = false from rfl))]
              rw [if_pos (show listStartsWith "quot;".data
                  ('q' :: 'u' :: 'o' :: 't' :: ';' :: escAD l') = true from
                listStartsWith_append "quot;".data (escAD l'))]
              rw [show ('q' :: 'u' :: 'o' :: 't' :: ';' :: escAD l').drop 5 = escAD l'
                from rfl]
              rw [ih f (by simp at hlen; omega)]
              simp [h4]
          · rw [show escAD (a :: l') = a :: escAD l' from by
              simp only [escAD, List.foldr_cons]
              rw [if_neg (by simp [h1]), if_neg (by simp [h2]), if_neg (by simp [h3]),
                if_neg (by simp [h4])]] at hlen ⊢
            rcases fuel with _ | f
            · simp at hlen
            · simp only [unescapeChars]
              rw [ih f (by simp at hlen; omega)]
              rfl

/-! ## Parsing back serialized names and attributes -/

/-- A usable tag or attribute name: nonempty, made of name characters. -/
def goodName (s : String) : Prop :=
  s.data ≠ [] ∧ ∀ c ∈ s.data, isNameChar c = true

theorem ws_not_nameChar (c : Char) (h : charIsWs c = true) : isNameChar c = false := by
  simp only [charIsWs, Bool.or_eq_true, beq_iff_eq] at h
  rcases h with ((h | h) | h) | h <;> subst h <;> rfl

theorem nameChar_not_ws (c : Char) (h : isNameChar c = true) : charIsWs c = false := by
  rcases hw : charIsWs c
  · rfl
  · rw [ws_not_nameChar c hw] at h
    cases h

theorem parseName_ser (n : String) (rest : List Char) (hn : goodName n)
    (hrest : ∀ c, rest.head? = some c → isNameChar c = false) :
    parseName (n.data ++ rest) = some (n, rest) := by
  have hrt : rest.takeWhile isNameChar = [] := by
    cases rest with
    | nil => rfl
    | cons c r => simp [List.takeWhile_cons, hrest c rfl]
  have hrd : rest.dropWhile isNameChar = rest := by
    cases rest with
    | nil => rfl
    | cons c r => simp [List.dropWhile_cons, hrest c rfl]
  unfold parseName
  rw [List.takeWhile_append_of_pos hn.2, hrt, List.dropWhile_append_of_pos hn.2, hrd]
  rw [List.append_nil]
  rw [if_neg (by simpa using hn.1)]

/-- The serialized form of an attribute list, as `serVal` emits it. -/
def serAttrsL : List (String × String) → List Char
  | [] => []
  | (n, v) :: rest =>
    ' ' :: (n.data ++ '=' :: '"' :: (escAD v.data ++ '"' :: serAttrsL rest))

theorem parseAttrsAux_ser (pairs : List (String × String)) :
    ∀ (delim : Char) (rest : List Char) (fuel : Nat),
    (delim = '/' ∨ delim = '>') →
    (∀ p ∈ pairs, goodName p.1) →
    pairs.length < fuel →
    parseAttrsAux fuel (serAttrsL pairs ++ delim :: rest) = some (pairs, delim :: rest) := by
  induction pairs with
  | nil =>
    intro delim rest fuel hdelim _ hfuel
    rcases fuel with _ | f
    · omega
    · rcases hdelim with rfl | rfl <;> rfl
  | cons p pairs' ih =>
    intro delim rest fuel hdelim hnames hfuel
    rcases fuel with _ | f
    · omega
    rcases p with ⟨n, v⟩
    have hgn : goodName n := hnames (n, v) (List.mem_cons_self _ _)
    rcases hnd : n.data with _ | ⟨nh, nt⟩
    · exact absurd hnd hgn.1
    have hnh : isNameChar nh = true := by
      apply hgn.2
      rw [hnd]
      exact List.mem_cons_self nh nt
    have hshape : serAttrsL ((n, v) :: pairs') ++ delim :: rest =
        ' ' :: (n.data ++ '=' :: '"' :: (escAD v.data ++ '"' ::
          (serAttrsL pairs' ++ delim :: rest))) := by
      simp [serAttrsL]
    rw [hshape]
    simp only [parseAttrsAux]
    rw [List.dropWhile_cons_of_pos (show charIsWs ' ' = true from rfl)]
    rw [show List.dropWhile charIsWs (n.data ++ '=' :: '"' :: (escAD v.data ++ '"' ::
        (serAttrsL pairs' ++ delim :: rest))) = n.data ++ '=' :: '"' :: (escAD v.data ++ '"' ::
        (serAttrsL pairs' ++ delim :: rest)) from by
      rw [hnd, List.cons_append]
      rw [List.dropWhile_cons_of_neg (by simp [nameChar_not_ws nh hnh])]]
    rw [show n.data ++ '=' :: '"' :: (escAD v.data ++ '"' ::
        (serAttrsL pairs' ++ delim :: rest)) = nh :: (nt ++ '=' :: '"' :: (escAD v.data ++ '"' ::
        (serAttrsL pairs' ++ delim :: rest))) from by rw [hnd, List.cons_append]]
    split
    · rename_i tail heq
      exfalso
      have : nh = '/' := by injection heq
      rw [this] at hnh
      exact absurd hnh (by decide)
    · rename_i tail heq
      exfalso
      have : nh = '>' := by injection heq
      rw [this] at hnh
      exact absurd hnh (by decide)
    · have e1 : nh :: (nt ++ '=' :: '"' :: (escAD v.data ++ '"' ::
          (serAttrsL pairs' ++ delim :: rest))) = n.data ++ '=' :: '"' :: (escAD v.data ++ '"' ::
          (serAttrsL pairs' ++ delim :: rest)) := by rw [hnd, List.cons_append]
      have e2 : parseName (n.data ++ '=' :: '"' :: (escAD v.data ++ '"' ::
          (serAttrsL pairs' ++ delim :: rest))) = some (n, '=' :: '"' :: (escAD v.data ++ '"' ::
          (serAttrsL pairs' ++ delim :: rest))) := by
        apply parseName_ser n _ hgn
        intro c hc
        simp at hc
        rw [← hc]
        rfl
      have e3 : List.dropWhile charIsWs ('=' :: '"' :: (escAD v.data ++ '"' ::
          (serAttrsL pairs' ++ delim :: rest))) = '=' :: '"' :: (escAD v.data ++ '"' ::
          (serAttrsL pairs' ++ delim :: rest)) :=
        List.dropWhile_cons_of_neg (by decide)
      have e4 : List.dropWhile charIsWs ('"' :: (escAD v.data ++ '"' ::
          (serAttrsL pairs' ++ delim :: rest))) = '"' :: (escAD v.data ++ '"' ::
          (serAttrsL pairs' ++ delim :: rest)) :=
        List.dropWhile_cons_of_neg (by decide)
      have hq : ∀ x ∈ escAD v.data, (x != '"') = true := by
        intro x hx
        have : x ≠ '"' := by
          intro hxe
          rw [hxe] at hx
          exact quot_not_mem_escapeAttr v (escapeAttr_eq v ▸ hx)
        simpa using this
      have e5 : List.takeWhile (fun c => c != '"') (escAD v.data ++ '"' ::
          (serAttrsL pairs' ++ delim :: rest)) = escAD v.data := by
        rw [List.takeWhile_append_of_pos hq]
        rw [List.takeWhile_cons_of_neg (by decide)]
        rw [List.append_nil]
      have e6 : (escAD v.data).any (fun c => c == '<') = false := by
        rw [List.any_eq_false]
        intro x hx
        intro hxe
        have : x = '<' := by simpa using hxe
        rw [this] at hx
        exact lt_not_mem_escapeAttr v (escapeAttr_eq v ▸ hx)
      have e7 : List.dropWhile (fun c => c != '"') (escAD v.data ++ '"' ::
          (serAttrsL pairs' ++ delim :: rest)) = '"' ::
          (serAttrsL pairs' ++ delim :: rest) := by
        rw [List.dropWhile_append_of_pos hq]
        rw [List.dropWhile_cons_of_neg (by decide)]
      have e8 : unescapeChars (escAD v.data).length (escAD v.data) = some v.data :=
        unescape_escAD v.data (escAD v.data).length (le_refl _)
      have e9 : parseAttrsAux f (serAttrsL pairs' ++ delim :: rest) =
          some (pairs', delim :: rest) := by
        apply ih delim rest f hdelim
        · intro q hqm
          exact hnames q (List.mem_cons_of_mem _ hqm)
        · simp at hfuel
          omega
      simp only [e1, e2, e3, e4, e5, e6, e7, e8, e9, Bool.false_eq_true, if_false]

/-! ## Canonical (serializable) parse structures -/

/-- Values that are not sibling lists. -/
def notListV : XVal → Prop
  | .list _ => False
  | _ => True

/-- The structures `parseDoc` produces under an element: attributes first
(in pair form), then children with distinct usable tag names, then at most
one stripped nonempty text binding; a text-only or fully empty mapping
never occurs (those collapse to `str`/`null`), sibling lists hold at least
two non-list members. -/
inductive WfVal : XVal → Prop where
  | null : WfVal XVal.null
  | str : ∀ s : String, s.data ≠ [] → stripChars s.data = s.data → WfVal (XVal.str s)
  | dict : ∀ (apairs : List (String × String)) (children textPart : List (String × XVal)),
      (∀ p ∈ apairs, goodName p.1) →
      (∀ e ∈ children, goodName e.1) →
      (∀ e ∈ children, WfVal e.2) →
      (children.map Prod.fst).Nodup →
      (textPart = [] ∨ ∃ t : String, textPart = [("#text", XVal.str t)] ∧
        t.data ≠ [] ∧ stripChars t.data = t.data) →
      (apairs ≠ [] ∨ children ≠ []) →
      WfVal (XVal.dict (apairs.map (fun p => ("@" ++ p.1, XVal.str p.2)) ++
        children ++ textPart))
  | list : ∀ vs : List XVal, 2 ≤ vs.length →
      (∀ v ∈ vs, notListV v) →
      (∀ v ∈ vs, WfVal v) →
      WfVal (XVal.list vs)

/-- A serializable document: one root element with a usable tag. -/
def WfDoc (st : XVal) : Prop :=
  ∃ tag v, st = XVal.dict [(tag, v)] ∧ goodName tag ∧ WfVal v ∧ notListV v

/-- The parse items a child binding re-expands to: a plain value is one
element, a sibling list is a run of elements sharing the tag. -/
def expandEntry (e : String × XVal) : List PItem :=
  match e.2 with
  | .list vs => vs.map (fun v => PItem.elem e.1 v)
  | v => [PItem.elem e.1 v]

/-- The parse items of a whole child section, in order. -/
def expandChildren (children : List (String × XVal)) : List PItem :=
  (children.map expandEntry).flatten

theorem goodName_head_not_marker (k : String) (hk : goodName k) :
    startsWithStr k "@" = false ∧ startsWithStr k "#" = false := by
  rcases hd : k.data with _ | ⟨c, r⟩
  · exact absurd hd hk.1
  · have hc : isNameChar c = true := hk.2 c (hd ▸ List.mem_cons_self c r)
    constructor
    · unfold startsWithStr
      rw [hd]
      show listStartsWith ['@'] (c :: r) = false
      simp only [listStartsWith]
      have hbf : ('@' == c) = false := by
        rcases hb : '@' == c
        · rfl
        · have hce : '@' = c := by simpa using hb
          rw [← hce] at hc
          exact absurd hc (by decide)
      simp [hbf]
    · unfold startsWithStr
      rw [hd]
      show listStartsWith ['#'] (c :: r) = false
      simp only [listStartsWith]
      have hbf : ('#' == c) = false := by
        rcases hb : '#' == c
        · rfl
        · have hce : '#' = c := by simpa using hb
          rw [← hce] at hc
          exact absurd hc (by decide)
      simp [hbf]

theorem attrKey_startsWith (nm : String) : startsWithStr ("@" ++ nm) "@" = true := by
  unfold startsWithStr
  rw [String.data_append]
  exact listStartsWith_append "@".data nm.data

theorem goodName_ne_text (k : String) (hk : goodName k) : ¬ (k = "#text") := by
  intro he
  subst he
  have := hk.2 '#' (by decide)
  exact absurd this (by decide)

theorem attrKey_ne_text (nm : String) : ¬ ("@" ++ nm = "#text") := by
  intro he
  have h2 : ("@" ++ nm).data = "#text".data := congrArg String.data he
  rw [String.data_append] at h2
  have h6 : '@' = '#' := by
    injection (show '@' :: nm.data = '#' :: "text".data from h2)
  exact absurd h6 (by decide)

theorem text_key_not_attr : startsWithStr "#text" "@" = false := rfl

theorem filter_attr_section (apairs : List (String × String))
    (children textPart : List (String × XVal))
    (hch : ∀ e ∈ children, goodName e.1)
    (htp : textPart = [] ∨ ∃ t : String, textPart = [("#text", XVal.str t)]) :
    (apairs.map (fun p => ("@" ++ p.1, XVal.str p.2)) ++ children ++ textPart).filter
      (fun e => startsWithStr e.1 "@") =
      apairs.map (fun p => ("@" ++ p.1, XVal.str p.2)) := by
  rw [List.append_assoc, List.filter_append]
  have h1 : (apairs.map (fun p => ("@" ++ p.1, XVal.str p.2))).filter
      (fun e => startsWithStr e.1 "@") =
      apairs.map (fun p => ("@" ++ p.1, XVal.str p.2)) := by
    apply List.filter_eq_self.mpr
    intro e he
    rcases List.mem_map.mp he with ⟨p, _, rfl⟩
    exact attrKey_startsWith p.1
  have h2 : (children ++ textPart).filter (fun e => startsWithStr e.1 "@") = [] := by
    apply List.filter_eq_nil_iff.mpr
    intro e he
    rcases List.mem_append.mp he with hm | hm
    · simp [(goodName_head_not_marker e.1 (hch e hm)).1]
    · rcases htp with rfl | ⟨t, rfl⟩
      · simp at hm
      · rcases List.mem_singleton.mp hm with rfl
        simp [text_key_not_attr]
  rw [h1, h2, List.append_nil]

theorem filter_child_section (apairs : List (String × String))
    (children textPart : List (String × XVal))
    (hch : ∀ e ∈ children, goodName e.1)
    (htp : textPart = [] ∨ ∃ t : String, textPart = [("#text", XVal.str t)]) :
    (apairs.map (fun p => ("@" ++ p.1, XVal.str p.2)) ++ children ++ textPart).filter
      (fun e => !startsWithStr e.1 "@" && !(e.1 == "#text")) = children := by
  rw [List.append_assoc, List.filter_append, List.filter_append]
  have h1 : (apairs.map (fun p => ("@" ++ p.1, XVal.str p.2))).filter
      (fun e => !startsWithStr e.1 "@" && !(e.1 == "#text")) = [] := by
    apply List.filter_eq_nil_iff.mpr
    intro e he
    rcases List.mem_map.mp he with ⟨p, _, rfl⟩
    simp [attrKey_startsWith p.1]
  have h2 : children.filter
      (fun e => !startsWithStr e.1 "@" && !(e.1 == "#text")) = children := by
    apply List.filter_eq_self.mpr
    intro e he
    have hg := hch e he
    simp [(goodName_head_not_marker e.1 hg).1, goodName_ne_text e.1 hg]
  have h3 : textPart.filter
      (fun e => !startsWithStr e.1 "@" && !(e.1 == "#text")) = [] := by
    apply List.filter_eq_nil_iff.mpr
    intro e he
    rcases htp with rfl | ⟨t, rfl⟩
    · simp at he
    · rcases List.mem_singleton.mp he with rfl
      simp
  rw [h1, h2, h3, List.append_nil, List.nil_append]

theorem dictGet_text_section (apairs : List (String × String))
    (children textPart : List (String × XVal))
    (hch : ∀ e ∈ children, goodName e.1)
    (htp : textPart = [] ∨ ∃ t : String, textPart = [("#text", XVal.str t)]) :
    dictGet? (apairs.map (fun p => ("@" ++ p.1, XVal.str p.2)) ++ children ++ textPart)
      "#text" =
      (match textPart with
       | [("#text", x)] => some x
       | _ => none) := by
  have hskip : ∀ (a b : List (String × XVal)), (∀ e ∈ a, ¬ (e.1 = "#text")) →
      dictGet? (a ++ b) "#text" = dictGet? b "#text" := by
    intro a b ha
    induction a with
    | nil => rfl
    | cons e r ih =>
      rcases e with ⟨k, v⟩
      rw [List.cons_append]
      simp only [dictGet?]
      rw [if_neg (ha (k, v) (List.mem_cons_self _ _))]
      exact ih (fun e he => ha e (List.mem_cons_of_mem _ he))
  rw [List.append_assoc]
  rw [hskip _ _ (by
    intro e he
    rcases List.mem_map.mp he with ⟨p, _, rfl⟩
    exact attrKey_ne_text p.1)]
  rw [hskip _ _ (fun e he => goodName_ne_text e.1 (hch e he))]
  rcases htp with rfl | ⟨t, rfl⟩
  · rfl
  · simp [dictGet?]

theorem dropMarker_attr (nm : String) : dropMarker ("@" ++ nm) = nm := by
  unfold dropMarker
  rw [String.data_append]
  rfl

theorem attrStr_data (apairs : List (String × String)) :
    (String.join ((apairs.map (fun p => ("@" ++ p.1, XVal.str p.2))).map
      (fun e => " " ++ dropMarker e.1 ++ "=\"" ++ escapeAttr (attrValStr e.2) ++ "\""))).data
      = serAttrsL apairs := by
  induction apairs with
  | nil => rfl
  | cons p rest ih =>
    rcases p with ⟨nm, val⟩
    simp only [List.map_cons, String.data_join, List.map_cons, List.flatten_cons]
    rw [show (" " ++ dropMarker ("@" ++ nm, XVal.str val).1 ++ "=\"" ++
        escapeAttr (attrValStr ("@" ++ nm, XVal.str val).2) ++ "\"").data =
        ' ' :: (nm.data ++ '=' :: '"' :: (escAD val.data ++ ['"'])) from by
      show (" " ++ dropMarker ("@" ++ nm) ++ "=\"" ++ escapeAttr val ++ "\"").data = _
      rw [dropMarker_attr]
      simp only [String.data_append, escapeAttr_eq]
      simp]
    rw [show serAttrsL ((nm, val) :: rest) =
        ' ' :: (nm.data ++ '=' :: '"' :: (escAD val.data ++ '"' :: serAttrsL rest)) from rfl]
    simp only [String.data_join] at ih
    rw [ih]
    simp

theorem dictGet?_append_none {α : Type} (a b : List (String × α)) (k : String)
    (h : dictGet? a k = none) : dictGet? (a ++ b) k = dictGet? b k := by
  induction a with
  | nil => rfl
  | cons e r ih =>
    rcases e with ⟨k0, v0⟩
    simp only [dictGet?] at h
    by_cases hk0 : k0 = k
    · rw [if_pos hk0] at h
      cases h
    · rw [if_neg hk0] at h
      rw [List.cons_append]
      simp only [dictGet?]
      rw [if_neg hk0]
      exact ih h

theorem dictSet_append_fresh {α : Type} (acc : List (String × α)) (k : String) (x y : α)
    (h : dictGet? acc k = none) : dictSet (acc ++ [(k, x)]) k y = acc ++ [(k, y)] := by
  induction acc with
  | nil => simp [dictSet]
  | cons e r ih =>
    rcases e with ⟨k0, v0⟩
    simp only [dictGet?] at h
    by_cases hk0 : k0 = k
    · rw [if_pos hk0] at h
      cases h
    · rw [if_neg hk0] at h
      rw [List.cons_append]
      simp only [dictSet]
      rw [if_neg hk0]
      rw [ih h]
      simp

theorem addChild_fresh (acc : List (String × XVal)) (k : String) (v : XVal)
    (h : dictGet? acc k = none) : addChild acc k v = acc ++ [(k, v)] := by
  unfold addChild
  rw [h]

/-- Folding the expansion of one sibling run back through `addChild`
rebuilds the collapsed list binding. -/
theorem foldl_addChild_run (vs : List XVal) (k : String) (acc : List (String × XVal))
    (partAcc : List XVal)
    (hfresh : dictGet? acc k = none) :
    List.foldl (fun acc it => match it with
      | PItem.elem kk v => addChild acc kk v
      | PItem.txt _ => acc) (acc ++ [(k, XVal.list partAcc)]) (vs.map (fun v => PItem.elem k v)) =
      acc ++ [(k, XVal.list (partAcc ++ vs))] := by
  induction vs generalizing partAcc with
  | nil => simp
  | cons v vs' ih =>
    simp only [List.map_cons, List.foldl_cons]
    rw [show addChild (acc ++ [(k, XVal.list partAcc)]) k v =
        acc ++ [(k, XVal.list (partAcc ++ [v]))] from by
      unfold addChild
      rw [dictGet?_append_none acc _ k hfresh]
      simp only [dictGet?, if_pos rfl]
      exact dictSet_append_fresh acc k _ _ hfresh]
    rw [ih (partAcc ++ [v])]
    simp

theorem foldl_addChild_entry (k : String) (v : XVal) (acc : List (String × XVal))
    (hfresh : dictGet? acc k = none)
    (hwf : WfVal v) :
    List.foldl (fun acc it => match it with
      | PItem.elem kk v => addChild acc kk v
      | PItem.txt _ => acc) acc (expandEntry (k, v)) = acc ++ [(k, v)] := by
  rcases v with _ | s | es | vs
  · simp [expandEntry, addChild_fresh acc k _ hfresh]
  · simp [expandEntry, addChild_fresh acc k _ hfresh]
  · simp [expandEntry, addChild_fresh acc k _ hfresh]
  · rcases hwf with _ | _ | _ | ⟨_, hlen, hnl, _⟩
    rcases vs with _ | ⟨v1, vs'⟩
    · simp at hlen
    rcases vs' with _ | ⟨v2, vs''⟩
    · simp at hlen
    simp only [expandEntry, List.map_cons, List.foldl_cons]
    rw [addChild_fresh acc k v1 hfresh]
    rw [show addChild (acc ++ [(k, v1)]) k v2 = acc ++ [(k, XVal.list [v1, v2])] from by
      unfold addChild
      rw [dictGet?_append_none acc _ k hfresh]
      simp only [dictGet?, if_pos rfl]
      have h1 : notListV v1 := hnl v1 (List.mem_cons_self _ _)
      rcases v1 with _ | s | es | vs <;> try exact dictSet_append_fresh acc k _ _ hfresh
      exact absurd h1 (by simp [notListV])]
    rw [foldl_addChild_run vs'' k acc [v1, v2] hfresh]
    simp

theorem foldl_addChild_children (children : List (String × XVal)) :
    ∀ acc : List (String × XVal),
    (∀ e ∈ children, dictGet? acc e.1 = none) →
    (children.map Prod.fst).Nodup →
    (∀ e ∈ children, WfVal e.2) →
    List.foldl (fun acc it => match it with
      | PItem.elem kk v => addChild acc kk v
      | PItem.txt _ => acc) acc (expandChildren children) = acc ++ children := by
  induction children with
  | nil => intro acc _ _ _; simp [expandChildren]
  | cons e ch' ih =>
    intro acc hfresh hnd hwf
    rcases e with ⟨k, v⟩
    simp only [expandChildren, List.map_cons, List.flatten_cons]
    rw [List.foldl_append]
    rw [foldl_addChild_entry k v acc (hfresh (k, v) (List.mem_cons_self _ _))
      (hwf (k, v) (List.mem_cons_self _ _))]
    rw [show (List.map expandEntry ch').flatten = expandChildren ch' from rfl]
    rw [ih (acc ++ [(k, v)]) ?fresh ?nd ?wf]
    · simp
    case fresh =>
      intro e he
      rw [dictGet?_append_none acc _ e.1 (hfresh e (List.mem_cons_of_mem _ he))]
      simp only [dictGet?]
      have hne : ¬ (k = e.1) := by
        intro hke
        simp only [List.map_cons, List.nodup_cons] at hnd
        exact hnd.1 (hke ▸ List.mem_map_of_mem Prod.fst he)
      rw [if_neg hne]
    case nd =>
      simp only [List.map_cons, List.nodup_cons] at hnd
      exact hnd.2
    case wf =>
      intro e he
      exact hwf e (List.mem_cons_of_mem _ he)

theorem expandChildren_all_elem (children : List (String × XVal)) :
    ∀ it ∈ expandChildren children, ∃ k v, it = PItem.elem k v := by
  intro it hit
  rcases List.mem_flatten.mp hit with ⟨run, hrun, hin⟩
  rcases List.mem_map.mp hrun with ⟨e, _, rfl⟩
  rcases e with ⟨k, v⟩
  rcases v with _ | s | es | vs
  · rcases List.mem_singleton.mp hin with rfl; exact ⟨k, _, rfl⟩
  · rcases List.mem_singleton.mp hin with rfl; exact ⟨k, _, rfl⟩
  · rcases List.mem_singleton.mp hin with rfl; exact ⟨k, _, rfl⟩
  · rcases List.mem_map.mp hin with ⟨v0, _, rfl⟩; exact ⟨k, v0, rfl⟩

theorem textFold_elems (items : List PItem)
    (h : ∀ it ∈ items, ∃ k v, it = PItem.elem k v) :
    ∀ acc : List Char,
    List.foldl (fun acc it => match it with
      | PItem.txt s => acc ++ s.data
      | PItem.elem _ _ => acc) acc items = acc := by
  induction items with
  | nil => intro acc; rfl
  | cons it rest ih =>
    intro acc
    rcases h it (List.mem_cons_self _ _) with ⟨k, v, rfl⟩
    simp only [List.foldl_cons]
    exact ih (fun x hx => h x (List.mem_cons_of_mem _ hx)) acc

theorem childFold_txt (t : String) (acc : List (String × XVal)) :
    List.foldl (fun acc it => match it with
      | PItem.elem kk v => addChild acc kk v
      | PItem.txt _ => acc) acc [PItem.txt t] = acc := rfl

/-- Folding the re-expanded items of a canonical element rebuilds exactly
the element's dictionary. -/
theorem foldElem_reconstruct (apairs : List (String × String))
    (children textPart : List (String × XVal)) (textItems : List PItem)
    (_hch : ∀ e ∈ children, goodName e.1)
    (hwf : ∀ e ∈ children, WfVal e.2)
    (hnd : (children.map Prod.fst).Nodup)
    (htp : (textPart = [] ∧ textItems = []) ∨
      ∃ t : String, textPart = [("#text", XVal.str t)] ∧ textItems = [PItem.txt t] ∧
        t.data ≠ [] ∧ stripChars t.data = t.data)
    (hne : apairs ≠ [] ∨ children ≠ []) :
    foldElem apairs (expandChildren children ++ textItems) =
      XVal.dict (apairs.map (fun p => ("@" ++ p.1, XVal.str p.2)) ++ children ++ textPart) := by
  have hchildfold :
      List.foldl (fun acc it => match it with
        | PItem.elem kk v => addChild acc kk v
        | PItem.txt _ => acc) ([] : List (String × XVal))
        (expandChildren children ++ textItems) = children := by
    rw [List.foldl_append]
    rw [foldl_addChild_children children [] (by intro e _; rfl) hnd hwf]
    rcases htp with ⟨_, rfl⟩ | ⟨t, _, rfl, _, _⟩
    · simp
    · rw [childFold_txt]
      simp
  have htextfold :
      List.foldl (fun acc it => match it with
        | PItem.txt s => acc ++ s.data
        | PItem.elem _ _ => acc) ([] : List Char)
        (expandChildren children ++ textItems) =
      (match textItems with
       | [PItem.txt t] => t.data
       | _ => []) := by
    rw [List.foldl_append]
    rw [textFold_elems _ (expandChildren_all_elem children) []]
    rcases htp with ⟨_, rfl⟩ | ⟨t, _, rfl, _, _⟩
    · rfl
    · simp
  unfold foldElem
  rw [hchildfold, htextfold]
  rcases htp with ⟨rfl, rfl⟩ | ⟨t, rfl, rfl, htne, hts⟩
  · have hstrip : stripChars (match ([] : List PItem) with
        | [PItem.txt t] => t.data
        | _ => []) = [] := rfl
    rw [hstrip]
    rcases hne with hne | hne
    · rw [if_neg (by
        intro hcontra
        simp only [Bool.and_eq_true, List.isEmpty_iff, List.map_eq_nil_iff] at hcontra
        exact hne hcontra.1)]
      simp
    · rw [if_neg (by
        intro hcontra
        simp only [Bool.and_eq_true, List.isEmpty_iff] at hcontra
        exact hne hcontra.2)]
      simp
  · have hstrip : stripChars (match [PItem.txt t] with
        | [PItem.txt t] => t.data
        | _ => []) = t.data := hts
    rw [hstrip]
    have htne' : (t.data).isEmpty = false := by
      rcases hd : t.data with _ | ⟨c, r⟩
      · exact absurd hd htne
      · rfl
    rcases hne with hne | hne
    · rw [if_neg (by
        intro hcontra
        simp only [Bool.and_eq_true, List.isEmpty_iff, List.map_eq_nil_iff] at hcontra
        exact hne hcontra.1)]
      rw [show (t.data.isEmpty : Bool) = false from htne']
      simp
    · rw [if_neg (by
        intro hcontra
        simp only [Bool.and_eq_true, List.isEmpty_iff] at hcontra
        exact hne hcontra.2)]
      rw [show (t.data.isEmpty : Bool) = false from htne']
      simp

theorem serAttrsL_length (pairs : List (String × String)) :
    pairs.length ≤ (serAttrsL pairs).length := by
  induction pairs with
  | nil => simp [serAttrsL]
  | cons p rest ih =>
    rcases p with ⟨n, v⟩
    simp only [serAttrsL, List.length_cons, List.length_append]
    omega

theorem escTD_ne_nil (l : List Char) (h : l ≠ []) : escTD l ≠ [] := by
  rcases l with _ | ⟨a, l'⟩
  · exact absurd rfl h
  simp only [escTD, List.foldr_cons]
  by_cases h1 : a = '&'
  · rw [if_pos (by simp [h1])]; simp
  · rw [if_neg (by simp [h1])]
    by_cases h2 : a = '<'
    · rw [if_pos (by simp [h2])]; simp
    · rw [if_neg (by simp [h2])]
      by_cases h3 : a = '>'
      · rw [if_pos (by simp [h3])]; simp
      · rw [if_neg (by simp [h3])]; simp

theorem parseItems_close (F : Nat) (r : List Char) :
    parseItems (F + 1) ('<' :: '/' :: r) = some ([], '<' :: '/' :: r) := rfl

theorem expectClose_ser (tag : String) (rest : List Char) (htag : goodName tag) :
    expectClose tag ('<' :: '/' :: (tag.data ++ '>' :: rest)) = some rest := by
  simp only [expectClose]
  rw [parseName_ser tag ('>' :: rest) htag (by
    intro c hc
    simp at hc
    rw [← hc]
    rfl)]
  simp [List.dropWhile, charIsWs]

theorem expandEntry_notList (k : String) (v : XVal) (h : notListV v) :
    expandEntry (k, v) = [PItem.elem k v] := by
  rcases v with _ | s | es | vs
  · rfl
  · rfl
  · rfl
  · exact absurd h (by simp [notListV])

theorem parseItems_text (t : String) (r : List Char) (FUEL : Nat)
    (htne : t.data ≠ [])
    (hfuel : (escTD t.data).length + 1 ≤ FUEL) :
    parseItems FUEL (escTD t.data ++ '<' :: '/' :: r) =
      some ([PItem.txt t], '<' :: '/' :: r) := by
  have hmem : ∀ x ∈ escTD t.data, (x != '<') = true := by
    intro x hx
    have : x ≠ '<' := by
      intro hxe
      rw [hxe] at hx
      exact lt_not_mem_escapeText t (escapeText_eq t ▸ hx)
    simpa using this
  rcases hesc : escTD t.data with _ | ⟨c, tl⟩
  · exact absurd hesc (escTD_ne_nil t.data htne)
  have hc : (c != '<') = true := hmem c (hesc ▸ List.mem_cons_self c tl)
  have hlen : tl.length + 2 ≤ FUEL := by
    rw [hesc] at hfuel
    simpa using hfuel
  rcases FUEL with _ | F
  · omega
  rw [hesc] at hmem
  rw [List.cons_append]
  simp only [parseItems]
  split
  · rename_i heq
    exfalso
    have : c = '<' := by injection heq
    rw [this] at hc
    exact absurd hc (by decide)
  · rename_i rest0 heq
    exfalso
    have : c = '<' := by injection heq
    rw [this] at hc
    exact absurd hc (by decide)
  · rename_i input0 rest0 hslash heq
    exfalso
    have : c = '<' := by injection heq
    rw [this] at hc
    exact absurd hc (by decide)
  · have htw : List.takeWhile (fun x => x != '<') (c :: (tl ++ '<' :: '/' :: r)) =
        c :: tl := by
      rw [show c :: (tl ++ '<' :: '/' :: r) = (c :: tl) ++ '<' :: '/' :: r from by simp]
      rw [List.takeWhile_append_of_pos hmem]
      rw [List.takeWhile_cons_of_neg (by decide)]
      rw [List.append_nil]
    have hdw : List.dropWhile (fun x => x != '<') (c :: (tl ++ '<' :: '/' :: r)) =
        '<' :: '/' :: r := by
      rw [show c :: (tl ++ '<' :: '/' :: r) = (c :: tl) ++ '<' :: '/' :: r from by simp]
      rw [List.dropWhile_append_of_pos hmem]
      rw [List.dropWhile_cons_of_neg (by decide)]
    rw [htw, hdw]
    rw [show unescapeChars (c :: tl).length (c :: tl) = some t.data from by
      rw [← hesc]
      exact unescape_escTD t.data (escTD t.data).length (le_refl _)]
    rcases F with _ | F2
    · omega
    rw [parseItems_close F2 r]

theorem parseAttrsAux_gt (n : Nat) (Y : List Char) :
    parseAttrsAux (n + 1) ('>' :: Y) = some ([], '>' :: Y) := by
  simp only [parseAttrsAux]
  rw [List.dropWhile_cons_of_neg (by decide)]
  rfl

/-- Reduce one element parse step for an input that starts with a good
tag name followed by a non-name character. -/
theorem parseItems_elem_step (FU : Nat) (tag : String) (Z : List Char) (htag : goodName tag)
    (hz : ∀ c, Z.head? = some c → isNameChar c = false) :
    parseItems (FU + 1) ('<' :: (tag.data ++ Z)) =
      (match parseAttrsAux (Z.length + 1) Z with
       | none => none
       | some (attrs, r2) =>
         match r2 with
         | '/' :: '>' :: r3 =>
           match parseItems FU r3 with
           | none => none
           | some (items, restOut) => some (PItem.elem tag (foldElem attrs []) :: items, restOut)
         | '>' :: r3 =>
           match parseItems FU r3 with
           | none => none
           | some (inner, r4) =>
             match expectClose tag r4 with
             | none => none
             | some r5 =>
               match parseItems FU r5 with
               | none => none
               | some (items, restOut) =>
                 some (PItem.elem tag (foldElem attrs inner) :: items, restOut)
         | _ => none) := by
  simp only [parseItems]
  split
  · rename_i heq
    exact absurd heq (by simp)
  · rename_i tail heq
    exfalso
    have h2 : tag.data ++ Z = '/' :: tail := by injection heq
    rcases hd : tag.data with _ | ⟨c0, t0⟩
    · exact absurd hd htag.1
    · rw [hd, List.cons_append] at h2
      have hc0 : c0 = '/' := by injection h2
      have hnc : isNameChar c0 = true := htag.2 c0 (hd ▸ List.mem_cons_self c0 t0)
      rw [hc0] at hnc
      exact absurd hnc (by decide)
  · rename_i rest1 hne heq
    have hr : rest1 = tag.data ++ Z := by
      have h2 : tag.data ++ Z = rest1 := by injection heq
      exact h2.symm
    subst hr
    rw [parseName_ser tag Z htag hz]
  · rename_i h1 h2 h3
    exact absurd rfl (h3 (tag.data ++ Z))

theorem serVal_parse_null (tag : String) (sf F FUEL : Nat) (rest : List Char)
    (items' : List PItem) (rest' : List Char)
    (htag : goodName tag)
    (hcont : parseItems F rest = some (items', rest'))
    (hfuel : (serVal (sf + 1) tag XVal.null).data.length + F ≤ FUEL) :
    parseItems FUEL ((serVal (sf + 1) tag XVal.null).data ++ rest) =
      some (PItem.elem tag XVal.null :: items', rest') := by
  have hshape : (serVal (sf + 1) tag XVal.null).data ++ rest =
      '<' :: (tag.data ++ ('>' :: '<' :: '/' :: (tag.data ++ '>' :: rest))) := by
    show ("<" ++ tag ++ "></" ++ tag ++ ">").data ++ rest = _
    simp [String.data_append]
  have hL : (serVal (sf + 1) tag XVal.null).data.length = 2 * tag.data.length + 5 := by
    show ("<" ++ tag ++ "></" ++ tag ++ ">").data.length = _
    simp [String.data_append]
    omega
  rw [hL] at hfuel
  rcases FUEL with _ | FU
  · omega
  obtain ⟨FU2, hFU⟩ : ∃ FU2, FU = FU2 + 1 := by
    rcases FU with _ | FU2
    · omega
    · exact ⟨FU2, rfl⟩
  rw [hshape]
  have e0 := parseItems_elem_step FU tag ('>' :: '<' :: '/' :: (tag.data ++ '>' :: rest)) htag
    (by intro c hc; simp at hc; rw [← hc]; rfl)
  have e1 : parseAttrsAux (('>' :: '<' :: '/' :: (tag.data ++ '>' :: rest)).length + 1)
      ('>' :: '<' :: '/' :: (tag.data ++ '>' :: rest)) =
      some ([], '>' :: '<' :: '/' :: (tag.data ++ '>' :: rest)) :=
    parseAttrsAux_gt _ _
  have e2 : parseItems FU ('<' :: '/' :: (tag.data ++ '>' :: rest)) =
      some ([], '<' :: '/' :: (tag.data ++ '>' :: rest)) := by
    rw [hFU]
    exact parseItems_close FU2 _
  have e3 : expectClose tag ('<' :: '/' :: (tag.data ++ '>' :: rest)) = some rest :=
    expectClose_ser tag rest htag
  have e4 : parseItems FU rest = some (items', rest') :=
    parseItems_mono_le F FU rest (items', rest') (by omega) hcont
  rw [e0]
  simp only [e1, e2, e3, e4]
  rfl

theorem foldElem_text_only (s : String) (hne : s.data ≠ [])
    (hst : stripChars s.data = s.data) :
    foldElem [] [PItem.txt s] = XVal.str s := by
  have h0 : foldElem [] [PItem.txt s] =
      if (stripChars s.data).isEmpty then XVal.null
      else XVal.str (String.mk (stripChars s.data)) := rfl
  rw [h0, hst]
  rw [show (s.data.isEmpty : Bool) = false from by
    rcases hd : s.data with _ | ⟨c, r⟩
    · exact absurd hd hne
    · rfl]
  rfl

theorem serVal_parse_str (s tag : String) (sf F FUEL : Nat) (rest : List Char)
    (items' : List PItem) (rest' : List Char)
    (htag : goodName tag)
    (hne : s.data ≠ []) (hst : stripChars s.data = s.data)
    (hcont : parseItems F rest = some (items', rest'))
    (hfuel : (serVal (sf + 1) tag (XVal.str s)).data.length + F ≤ FUEL) :
    parseItems FUEL ((serVal (sf + 1) tag (XVal.str s)).data ++ rest) =
      some (PItem.elem tag (XVal.str s) :: items', rest') := by
  have hshape : (serVal (sf + 1) tag (XVal.str s)).data ++ rest =
      '<' :: (tag.data ++ ('>' :: (escTD s.data ++ '<' :: '/' :: (tag.data ++ '>' :: rest)))) := by
    show ("<" ++ tag ++ ">" ++ escapeText s ++ "</" ++ tag ++ ">").data ++ rest = _
    simp [String.data_append, escapeText_eq]
  have hL : (serVal (sf + 1) tag (XVal.str s)).data.length =
      2 * tag.data.length + (escTD s.data).length + 5 := by
    show ("<" ++ tag ++ ">" ++ escapeText s ++ "</" ++ tag ++ ">").data.length = _
    simp [String.data_append, escapeText_eq]
    omega
  rw [hL] at hfuel
  rcases FUEL with _ | FU
  · omega
  rw [hshape]
  have e0 := parseItems_elem_step FU tag
    ('>' :: (escTD s.data ++ '<' :: '/' :: (tag.data ++ '>' :: rest))) htag
    (by intro c hc; simp at hc; rw [← hc]; rfl)
  have e1 : parseAttrsAux
      (('>' :: (escTD s.data ++ '<' :: '/' :: (tag.data ++ '>' :: rest))).length + 1)
      ('>' :: (escTD s.data ++ '<' :: '/' :: (tag.data ++ '>' :: rest))) =
      some ([], '>' :: (escTD s.data ++ '<' :: '/' :: (tag.data ++ '>' :: rest))) :=
    parseAttrsAux_gt _ _
  have e2 : parseItems FU (escTD s.data ++ '<' :: '/' :: (tag.data ++ '>' :: rest)) =
      some ([PItem.txt s], '<' :: '/' :: (tag.data ++ '>' :: rest)) :=
    parseItems_text s (tag.data ++ '>' :: rest) FU hne (by omega)
  have e3 : expectClose tag ('<' :: '/' :: (tag.data ++ '>' :: rest)) = some rest :=
    expectClose_ser tag rest htag
  have e4 : parseItems FU rest = some (items', rest') :=
    parseItems_mono_le F FU rest (items', rest') (by omega) hcont
  rw [e0]
  simp only [e1, e2, e3, e4]
  rw [foldElem_text_only s hne hst]

/-- Parse back the serialization of one child section, given the
round-trip property at the members' depth. -/
theorem serVal_parse_run (d sf : Nat)
    (ihd : ∀ (v : XVal), xdepth v ≤ d → ∀ (tag : String) (sfuel F FUEL : Nat)
      (rest : List Char) (items' : List PItem) (rest' : List Char),
      WfVal v → goodName tag → xdepth v < sfuel →
      parseItems F rest = some (items', rest') →
      (serVal sfuel tag v).data.length + F ≤ FUEL →
      parseItems FUEL ((serVal sfuel tag v).data ++ rest) =
        some (expandEntry (tag, v) ++ items', rest')) :
    ∀ (ch : List (String × XVal)),
    (∀ e ∈ ch, goodName e.1) →
    (∀ e ∈ ch, WfVal e.2) →
    (∀ e ∈ ch, xdepth e.2 ≤ d) →
    (∀ e ∈ ch, xdepth e.2 < sf) →
    ∀ (F FUEL : Nat) (rest : List Char) (items' : List PItem) (rest' : List Char),
    parseItems F rest = some (items', rest') →
    (String.join (ch.map (fun e => serVal sf e.1 e.2))).data.length + F ≤ FUEL →
    parseItems FUEL ((String.join (ch.map (fun e => serVal sf e.1 e.2))).data ++ rest) =
      some (expandChildren ch ++ items', rest') := by
  intro ch
  induction ch with
  | nil =>
    intro _ _ _ _ F FUEL rest items' rest' hcont hfuel
    have h0 : (String.join (List.map (fun (e : String × XVal) => serVal sf e.1 e.2) [])).data =
        [] := rfl
    rw [h0] at hfuel ⊢
    rw [List.nil_append]
    rw [show expandChildren [] = [] from rfl, List.nil_append]
    exact parseItems_mono_le F FUEL rest (items', rest') (by omega) hcont
  | cons e ch' ih =>
    intro hgn hwf hdep hsf F FUEL rest items' rest' hcont hfuel
    rcases e with ⟨k, v⟩
    have hjoin : (String.join (List.map (fun (e : String × XVal) => serVal sf e.1 e.2)
        ((k, v) :: ch'))).data =
        (serVal sf k v).data ++
          (String.join (List.map (fun (e : String × XVal) => serVal sf e.1 e.2) ch')).data := by
      simp [String.data_join]
    rw [hjoin] at hfuel ⊢
    rw [List.append_assoc]
    have hrun' : parseItems
        ((String.join (List.map (fun (e : String × XVal) => serVal sf e.1 e.2) ch')).data.length
          + F)
        ((String.join (List.map (fun (e : String × XVal) => serVal sf e.1 e.2) ch')).data ++ rest)
        = some (expandChildren ch' ++ items', rest') :=
      ih (fun x hx => hgn x (List.mem_cons_of_mem _ hx))
        (fun x hx => hwf x (List.mem_cons_of_mem _ hx))
        (fun x hx => hdep x (List.mem_cons_of_mem _ hx))
        (fun x hx => hsf x (List.mem_cons_of_mem _ hx))
        F _ rest items' rest' hcont (le_refl _)
    have hstep := ihd v (hdep (k, v) (List.mem_cons_self _ _)) k sf
      ((String.join (List.map (fun (e : String × XVal) => serVal sf e.1 e.2) ch')).data.length
        + F) FUEL
      ((String.join (List.map (fun (e : String × XVal) => serVal sf e.1 e.2) ch')).data ++ rest)
      (expandChildren ch' ++ items') rest'
      (hwf (k, v) (List.mem_cons_self _ _))
      (hgn (k, v) (List.mem_cons_self _ _))
      (hsf (k, v) (List.mem_cons_self _ _))
      hrun'
      (by simp only [List.length_append] at hfuel; omega)
    rw [hstep]
    rw [show expandChildren ((k, v) :: ch') = expandEntry (k, v) ++ expandChildren ch' from by
      simp [expandChildren]]
    simp

/-- Parse back the serialization of one canonical dictionary element,
given the round-trip property at the children's depth. -/
theorem serVal_parse_dict (d sf : Nat)
    (ihd : ∀ (v : XVal), xdepth v ≤ d → ∀ (tag : String) (sfuel F FUEL : Nat)
      (rest : List Char) (items' : List PItem) (rest' : List Char),
      WfVal v → goodName tag → xdepth v < sfuel →
      parseItems F rest = some (items', rest') →
      (serVal sfuel tag v).data.length + F ≤ FUEL →
      parseItems FUEL ((serVal sfuel tag v).data ++ rest) =
        some (expandEntry (tag, v) ++ items', rest'))
    (apairs : List (String × String)) (children textPart : List (String × XVal))
    (tag : String) (F FUEL : Nat) (rest : List Char)
    (items' : List PItem) (rest' : List Char)
    (hap : ∀ p ∈ apairs, goodName p.1)
    (hch : ∀ e ∈ children, goodName e.1)
    (hwfc : ∀ e ∈ children, WfVal e.2)
    (hnd : (children.map Prod.fst).Nodup)
    (htp : textPart = [] ∨ ∃ t : String, textPart = [("#text", XVal.str t)] ∧
      t.data ≠ [] ∧ stripChars t.data = t.data)
    (hnonempty : apairs ≠ [] ∨ children ≠ [])
    (htag : goodName tag)
    (hdep : ∀ e ∈ children, xdepth e.2 ≤ d)
    (hsfm : ∀ e ∈ children, xdepth e.2 < sf)
    (hcont : parseItems F rest = some (items', rest'))
    (hfuel : (serVal (sf + 1) tag (XVal.dict (apairs.map (fun p => ("@" ++ p.1, XVal.str p.2))
      ++ children ++ textPart))).data.length + F ≤ FUEL) :
    parseItems FUEL ((serVal (sf + 1) tag (XVal.dict (apairs.map
        (fun p => ("@" ++ p.1, XVal.str p.2)) ++ children ++ textPart))).data ++ rest) =
      some (PItem.elem tag (XVal.dict (apairs.map (fun p => ("@" ++ p.1, XVal.str p.2)) ++
        children ++ textPart)) :: items', rest') := by
  have htpw : textPart = [] ∨ ∃ t : String, textPart = [("#text", XVal.str t)] := by
    rcases htp with rfl | ⟨t, rfl, _, _⟩
    · exact Or.inl rfl
    · exact Or.inr ⟨t, rfl⟩
  have hz : ∀ (W : List Char) (c : Char),
      (serAttrsL apairs ++ '>' :: W).head? = some c → isNameChar c = false := by
    intro W c hc
    rcases apairs with _ | ⟨p, ap'⟩
    · simp only [serAttrsL, List.nil_append, List.head?_cons, Option.some_inj] at hc
      rw [← hc]
      rfl
    · rcases p with ⟨n, v0⟩
      simp only [serAttrsL, List.cons_append, List.head?_cons, Option.some_inj] at hc
      rw [← hc]
      rfl
  rcases htp with htpnil | ⟨t, htpt, htne, hts⟩
  · subst htpnil
    have hv : serVal (sf + 1) tag (XVal.dict (apairs.map (fun p => ("@" ++ p.1, XVal.str p.2))
        ++ children ++ [])) =
        "<" ++ tag ++ String.join ((apairs.map (fun p => ("@" ++ p.1, XVal.str p.2))).map
          (fun e => " " ++ dropMarker e.1 ++ "=\"" ++ escapeAttr (attrValStr e.2) ++ "\"")) ++
        ">" ++ String.join (children.map (fun e => serVal sf e.1 e.2)) ++
        escapeText "" ++ "</" ++ tag ++ ">" := by
      simp only [serVal]
      rw [filter_attr_section apairs children [] hch htpw]
      rw [filter_child_section apairs children [] hch htpw]
      rw [dictGet_text_section apairs children [] hch htpw]
    have hserdata : (serVal (sf + 1) tag (XVal.dict (apairs.map
        (fun p => ("@" ++ p.1, XVal.str p.2)) ++ children ++ []))).data ++ rest =
        '<' :: (tag.data ++ (serAttrsL apairs ++ '>' ::
          ((String.join (children.map (fun e => serVal sf e.1 e.2))).data ++
            ('<' :: '/' :: (tag.data ++ '>' :: rest))))) := by
      rw [hv]
      simp only [String.data_append]
      rw [attrStr_data]
      simp [escapeText_eq, escTD]
    have hLen := congrArg List.length hserdata
    simp only [List.length_append, List.length_cons] at hLen
    rcases FUEL with _ | FU
    · omega
    rw [hserdata]
    have e0 := parseItems_elem_step FU tag (serAttrsL apairs ++ '>' ::
      ((String.join (children.map (fun e => serVal sf e.1 e.2))).data ++
        ('<' :: '/' :: (tag.data ++ '>' :: rest)))) htag (hz _)
    have e1 : parseAttrsAux ((serAttrsL apairs ++ '>' ::
        ((String.join (children.map (fun e => serVal sf e.1 e.2))).data ++
          ('<' :: '/' :: (tag.data ++ '>' :: rest)))).length + 1)
        (serAttrsL apairs ++ '>' ::
          ((String.join (children.map (fun e => serVal sf e.1 e.2))).data ++
            ('<' :: '/' :: (tag.data ++ '>' :: rest)))) =
        some (apairs, '>' ::
          ((String.join (children.map (fun e => serVal sf e.1 e.2))).data ++
            ('<' :: '/' :: (tag.data ++ '>' :: rest)))) := by
      apply parseAttrsAux_ser apairs '>' _ _ (Or.inr rfl) hap
      have hsl := serAttrsL_length apairs
      simp only [List.length_append, List.length_cons]
      omega
    have e2 : parseItems FU
        ((String.join (children.map (fun e => serVal sf e.1 e.2))).data ++
          ('<' :: '/' :: (tag.data ++ '>' :: rest))) =
        some (expandChildren children ++ [], '<' :: '/' :: (tag.data ++ '>' :: rest)) := by
      apply serVal_parse_run d sf ihd children hch hwfc hdep hsfm 1 FU
        ('<' :: '/' :: (tag.data ++ '>' :: rest)) [] ('<' :: '/' :: (tag.data ++ '>' :: rest))
        (parseItems_close 0 (tag.data ++ '>' :: rest))
      omega
    have e3 := expectClose_ser tag rest htag
    have e4 : parseItems FU rest = some (items', rest') :=
      parseItems_mono_le F FU rest (items', rest') (by omega) hcont
    have e5 : foldElem apairs (expandChildren children ++ []) =
        XVal.dict (apairs.map (fun p => ("@" ++ p.1, XVal.str p.2)) ++ children ++ []) :=
      foldElem_reconstruct apairs children [] [] hch hwfc hnd (Or.inl ⟨rfl, rfl⟩) hnonempty
    rw [e0]
    simp only [e1, e2, e3, e4, e5]
  · subst htpt
    have hv : serVal (sf + 1) tag (XVal.dict (apairs.map (fun p => ("@" ++ p.1, XVal.str p.2))
        ++ children ++ [("#text", XVal.str t)])) =
        "<" ++ tag ++ String.join ((apairs.map (fun p => ("@" ++ p.1, XVal.str p.2))).map
          (fun e => " " ++ dropMarker e.1 ++ "=\"" ++ escapeAttr (attrValStr e.2) ++ "\"")) ++
        ">" ++ String.join (children.map (fun e => serVal sf e.1 e.2)) ++
        escapeText t ++ "</" ++ tag ++ ">" := by
      simp only [serVal]
      rw [filter_attr_section apairs children [("#text", XVal.str t)] hch htpw]
      rw [filter_child_section apairs children [("#text", XVal.str t)] hch htpw]
      rw [dictGet_text_section apairs children [("#text", XVal.str t)] hch htpw]
      rfl
    have hserdata : (serVal (sf + 1) tag (XVal.dict (apairs.map
        (fun p => ("@" ++ p.1, XVal.str p.2)) ++ children ++ [("#text", XVal.str t)]))).data
          ++ rest =
        '<' :: (tag.data ++ (serAttrsL apairs ++ '>' ::
          ((String.join (children.map (fun e => serVal sf e.1 e.2))).data ++
            (escTD t.data ++ '<' :: '/' :: (tag.data ++ '>' :: rest))))) := by
      rw [hv]
      simp only [String.data_append]
      rw [attrStr_data]
      simp [escapeText_eq]
    have hLen := congrArg List.length hserdata
    simp only [List.length_append, List.length_cons] at hLen
    rcases FUEL with _ | FU
    · omega
    rw [hserdata]
    have e0 := parseItems_elem_step FU tag (serAttrsL apairs ++ '>' ::
      ((String.join (children.map (fun e => serVal sf e.1 e.2))).data ++
        (escTD t.data ++ '<' :: '/' :: (tag.data ++ '>' :: rest)))) htag (hz _)
    have e1 : parseAttrsAux ((serAttrsL apairs ++ '>' ::
        ((String.join (children.map (fun e => serVal sf e.1 e.2))).data ++
          (escTD t.data ++ '<' :: '/' :: (tag.data ++ '>' :: rest)))).length + 1)
        (serAttrsL apairs ++ '>' ::
          ((String.join (children.map (fun e => serVal sf e.1 e.2))).data ++
            (escTD t.data ++ '<' :: '/' :: (tag.data ++ '>' :: rest)))) =
        some (apairs, '>' ::
          ((String.join (children.map (fun e => serVal sf e.1 e.2))).data ++
            (escTD t.data ++ '<' :: '/' :: (tag.data ++ '>' :: rest)))) := by
      apply parseAttrsAux_ser apairs '>' _ _ (Or.inr rfl) hap
      have hsl := serAttrsL_length apairs
      simp only [List.length_append, List.length_cons]
      omega
    have e2 : parseItems FU
        ((String.join (children.map (fun e => serVal sf e.1 e.2))).data ++
          (escTD t.data ++ '<' :: '/' :: (tag.data ++ '>' :: rest))) =
        some (expandChildren children ++ [PItem.txt t],
          '<' :: '/' :: (tag.data ++ '>' :: rest)) := by
      apply serVal_parse_run d sf ihd children hch hwfc hdep hsfm
        ((escTD t.data).length + 1) FU
        (escTD t.data ++ '<' :: '/' :: (tag.data ++ '>' :: rest)) [PItem.txt t]
        ('<' :: '/' :: (tag.data ++ '>' :: rest))
        (parseItems_text t (tag.data ++ '>' :: rest) ((escTD t.data).length + 1) htne
          (le_refl _))
      omega
    have e3 := expectClose_ser tag rest htag
    have e4 : parseItems FU rest = some (items', rest') :=
      parseItems_mono_le F FU rest (items', rest') (by omega) hcont
    have e5 : foldElem apairs (expandChildren children ++ [PItem.txt t]) =
        XVal.dict (apairs.map (fun p => ("@" ++ p.1, XVal.str p.2)) ++ children ++
          [("#text", XVal.str t)]) :=
      foldElem_reconstruct apairs children [("#text", XVal.str t)] [PItem.txt t] hch hwfc hnd
        (Or.inr ⟨t, rfl, rfl, htne, hts⟩) hnonempty
    rw [e0]
    simp only [e1, e2, e3, e4, e5]

theorem flatten_singletons {α β : Type} (f : α → β) (l : List α) :
    (l.map (fun x => [f x])).flatten = l.map f := by
  induction l with
  | nil => rfl
  | cons x l' ih => simp [ih]

/-- Parsing inverts serialization for canonical values: the serialized
form of a well-formed value, followed by any parsable continuation,
parses back to the value's item run followed by the continuation. -/
theorem serVal_parse (d : Nat) : ∀ (v : XVal), xdepth v ≤ d →
    ∀ (tag : String) (sfuel F FUEL : Nat) (rest : List Char)
      (items' : List PItem) (rest' : List Char),
    WfVal v → goodName tag → xdepth v < sfuel →
    parseItems F rest = some (items', rest') →
    (serVal sfuel tag v).data.length + F ≤ FUEL →
    parseItems FUEL ((serVal sfuel tag v).data ++ rest) =
      some (expandEntry (tag, v) ++ items', rest') := by
  induction d with
  | zero =>
    intro v hd tag sfuel F FUEL rest items' rest' hwf htag hsf hcont hfuel
    obtain ⟨sf, rfl⟩ : ∃ sf, sfuel = sf + 1 := by
      rcases sfuel with _ | sf
      · omega
      · exact ⟨sf, rfl⟩
    rcases hwf with _ | ⟨s, hne, hst⟩ |
      ⟨apairs, children, textPart, hap, hch2, hwfc, hnd, htp, hnonempty⟩ |
      ⟨vs, hlen, hnl, hwfm⟩
    · exact serVal_parse_null tag sf F FUEL rest items' rest' htag hcont hfuel
    · exact serVal_parse_str s tag sf F FUEL rest items' rest' htag hne hst hcont hfuel
    · exfalso
      simp [xdepth] at hd
    · exfalso
      simp [xdepth] at hd
  | succ d ihd =>
    intro v hd tag sfuel F FUEL rest items' rest' hwf htag hsf hcont hfuel
    obtain ⟨sf, rfl⟩ : ∃ sf, sfuel = sf + 1 := by
      rcases sfuel with _ | sf
      · omega
      · exact ⟨sf, rfl⟩
    rcases hwf with _ | ⟨s, hne, hst⟩ |
      ⟨apairs, children, textPart, hap, hch2, hwfc, hnd, htp, hnonempty⟩ |
      ⟨vs, hlen, hnl, hwfm⟩
    · exact serVal_parse_null tag sf F FUEL rest items' rest' htag hcont hfuel
    · exact serVal_parse_str s tag sf F FUEL rest items' rest' htag hne hst hcont hfuel
    · have hdE : xdepthEntries (apairs.map (fun p => ("@" ++ p.1, XVal.str p.2)) ++
          children ++ textPart) ≤ d := by
        simp only [xdepth] at hd
        omega
      have hsfE : xdepthEntries (apairs.map (fun p => ("@" ++ p.1, XVal.str p.2)) ++
          children ++ textPart) < sf := by
        simp only [xdepth] at hsf
        omega
      have hdep : ∀ e ∈ children, xdepth e.2 ≤ d := by
        intro e he
        refine le_trans (xdepth_le_of_mem_entries _ e ?hm) hdE
        case hm =>
          rw [List.append_assoc]
          exact List.mem_append_right _ (List.mem_append_left _ he)
      have hsfm : ∀ e ∈ children, xdepth e.2 < sf := by
        intro e he
        refine lt_of_le_of_lt (xdepth_le_of_mem_entries _ e ?hm2) hsfE
        case hm2 =>
          rw [List.append_assoc]
          exact List.mem_append_right _ (List.mem_append_left _ he)
      exact serVal_parse_dict d sf ihd apairs children textPart tag F FUEL rest items' rest'
        hap hch2 hwfc hnd htp hnonempty htag hdep hsfm hcont hfuel
    · have hdm : ∀ x ∈ vs, xdepth x ≤ d := by
        intro x hx
        refine le_trans (xdepth_le_of_mem_list vs x hx) ?hdl
        case hdl =>
          simp only [xdepth] at hd
          omega
      have hsfl : ∀ x ∈ vs, xdepth x < sf := by
        intro x hx
        refine lt_of_le_of_lt (xdepth_le_of_mem_list vs x hx) ?hsl
        case hsl =>
          simp only [xdepth] at hsf
          omega
      have hmapeq : (vs.map (fun x => (tag, x))).map
          (fun (e : String × XVal) => serVal sf e.1 e.2) =
          vs.map (fun x => serVal sf tag x) := by
        simp [List.map_map]
      have hexp : expandChildren (vs.map (fun x => (tag, x))) =
          vs.map (fun x => PItem.elem tag x) := by
        unfold expandChildren
        rw [List.map_map]
        rw [List.map_congr_left (fun x hx =>
          show (expandEntry ∘ fun x => (tag, x)) x = [PItem.elem tag x] from
            expandEntry_notList tag x (hnl x hx))]
        exact flatten_singletons (fun x => PItem.elem tag x) vs
      have hr := serVal_parse_run d sf ihd (vs.map (fun x => (tag, x)))
        (by
          intro e he
          rcases List.mem_map.mp he with ⟨x, _, rfl⟩
          exact htag)
        (by
          intro e he
          rcases List.mem_map.mp he with ⟨x, hx, rfl⟩
          exact hwfm x hx)
        (by
          intro e he
          rcases List.mem_map.mp he with ⟨x, hx, rfl⟩
          exact hdm x hx)
        (by
          intro e he
          rcases List.mem_map.mp he with ⟨x, hx, rfl⟩
          exact hsfl x hx)
        F FUEL rest items' rest' hcont
        (by
          rw [hmapeq]
          exact hfuel)
      rw [hmapeq, hexp] at hr
      exact hr

theorem dropDecl_through (pre : List Char) :
    ∀ (suffix : List Char) (fuel : Nat), '?' ∉ pre → pre.length + 1 ≤ fuel →
    dropDecl fuel (pre ++ '?' :: '>' :: suffix) = some suffix := by
  induction pre with
  | nil =>
    intro suffix fuel _ hfuel
    rcases fuel with _ | f
    · omega
    · rfl
  | cons c pre' ih =>
    intro suffix fuel hq hfuel
    have hcq : c ≠ '?' := by
      intro he
      exact hq (he ▸ List.mem_cons_self c pre')
    rcases fuel with _ | f
    · omega
    rw [List.cons_append]
    simp only [dropDecl]
    split
    · rename_i r heq
      exfalso
      have : c = '?' := by injection heq
      exact hcq this
    · rename_i hd0 tl0 hconstr heq
      have hr : tl0 = pre' ++ '?' :: '>' :: suffix := by
        injection heq with h1 h2
        exact h2.symm
      subst hr
      exact ih suffix f (fun hm => hq (List.mem_cons_of_mem _ hm)) (by
        simp only [List.length_cons] at hfuel
        omega)
    · rename_i heq
      exact absurd heq (by simp)

theorem serVal_head (sf : Nat) (tag : String) (v : XVal) (hnl : notListV v) :
    (serVal (sf + 1) tag v).data.head? = some '<' := by
  rcases v with _ | s | es | vs
  · show ("<" ++ tag ++ "></" ++ tag ++ ">").data.head? = some '<'
    simp [String.data_append]
  · show ("<" ++ tag ++ ">" ++ escapeText s ++ "</" ++ tag ++ ">").data.head? = some '<'
    simp [String.data_append]
  · simp only [serVal]
    simp [String.data_append]
  · exact absurd hnl (by simp [notListV])

theorem dropWhile_of_head_lt (l : List Char) (h : l.head? = some '<') :
    l.dropWhile charIsWs = l := by
  rcases l with _ | ⟨c, r⟩
  · simp at h
  · simp only [List.head?_cons, Option.some_inj] at h
    subst h
    exact List.dropWhile_cons_of_neg (by decide)

/-- `xmltodict.parse` inverts `xmltodict.unparse` on canonical documents,
for any serializer fuel above the document's depth. -/
theorem parseDoc_unparse (tag : String) (v : XVal) (sf : Nat)
    (htag : goodName tag) (hwf : WfVal v) (hnl : notListV v)
    (hF : xdepth v < sf + 1) :
    parseDoc (xmlUnparse (sf + 1) (XVal.dict [(tag, v)])) =
      some (XVal.dict [(tag, v)]) := by
  have hdata : (xmlUnparse (sf + 1) (XVal.dict [(tag, v)])).data =
      '<' :: '?' :: ("xml version=\"1.0\" encoding=\"utf-8\"".data ++
        '?' :: '>' :: '\n' :: (serVal (sf + 1) tag v).data) := by
    show ("<?xml version=\"1.0\" encoding=\"utf-8\"?>\n" ++
      String.join ([(tag, v)].map (fun e => serVal (sf + 1) e.1 e.2))).data = _
    simp [String.data_append, String.data_join]
  have hhead := serVal_head sf tag v hnl
  have hp : parseItems ((serVal (sf + 1) tag v).data.length + 1)
      ((serVal (sf + 1) tag v).data ++ []) =
      some (expandEntry (tag, v) ++ [], []) :=
    serVal_parse (xdepth v) v (le_refl _) tag (sf + 1) 1
      ((serVal (sf + 1) tag v).data.length + 1) [] [] []
      hwf htag hF rfl (le_refl _)
  simp only [List.append_nil] at hp
  have hexp : expandEntry (tag, v) = [PItem.elem tag v] := expandEntry_notList tag v hnl
  rw [hexp] at hp
  have e1 : List.dropWhile charIsWs ('<' :: '?' ::
      ("xml version=\"1.0\" encoding=\"utf-8\"".data ++
        '?' :: '>' :: '\n' :: (serVal (sf + 1) tag v).data)) =
      '<' :: '?' :: ("xml version=\"1.0\" encoding=\"utf-8\"".data ++
        '?' :: '>' :: '\n' :: (serVal (sf + 1) tag v).data) :=
    List.dropWhile_cons_of_neg (by decide)
  have e2 : dropDecl (("xml version=\"1.0\" encoding=\"utf-8\"".data ++
      '?' :: '>' :: '\n' :: (serVal (sf + 1) tag v).data).length + 1)
      ("xml version=\"1.0\" encoding=\"utf-8\"".data ++
        '?' :: '>' :: '\n' :: (serVal (sf + 1) tag v).data) =
      some ('\n' :: (serVal (sf + 1) tag v).data) :=
    dropDecl_through _ _ _ (by decide) (by
      simp only [List.length_append, List.length_cons]
      omega)
  have e3 : List.dropWhile charIsWs ('\n' :: (serVal (sf + 1) tag v).data) =
      (serVal (sf + 1) tag v).data := by
    rw [List.dropWhile_cons_of_pos (by decide)]
    exact dropWhile_of_head_lt _ hhead
  simp only [parseDoc, hdata, e1, e2, e3, hp]
  rfl

theorem dropWhile_head_false {α : Type} (p : α → Bool) (l : List α) (a : α)
    (h : (l.dropWhile p).head? = some a) : p a = false := by
  induction l with
  | nil => simp at h
  | cons x l' ih =>
    by_cases hx : p x = true
    · rw [List.dropWhile_cons_of_pos hx] at h
      exact ih h
    · rw [List.dropWhile_cons_of_neg hx] at h
      simp only [List.head?_cons, Option.some_inj] at h
      subst h
      simpa using hx

theorem dropWhile_of_head_false {α : Type} (p : α → Bool) (l : List α) (a : α)
    (hh : l.head? = some a) (hp : p a = false) : l.dropWhile p = l := by
  rcases l with _ | ⟨x, l'⟩
  · simp at hh
  · simp only [List.head?_cons, Option.some_inj] at hh
    subst hh
    exact List.dropWhile_cons_of_neg (by simp [hp])

theorem getLast?_cons_ne {α : Type} (x : α) (l : List α) (h : l ≠ []) :
    (x :: l).getLast? = l.getLast? := by
  rcases l with _ | ⟨y, l'⟩
  · exact absurd rfl h
  · exact List.getLast?_cons_cons

theorem getLast?_dropWhile {α : Type} (p : α → Bool) (l : List α)
    (hne : l.dropWhile p ≠ []) : (l.dropWhile p).getLast? = l.getLast? := by
  induction l with
  | nil => simp at hne
  | cons x l' ih =>
    by_cases hx : p x = true
    · rw [List.dropWhile_cons_of_pos hx] at hne ⊢
      have hl' : l' ≠ [] := by
        intro he
        subst he
        simp at hne
      rw [ih hne]
      exact (getLast?_cons_ne x l' hl').symm
    · rw [List.dropWhile_cons_of_neg hx]

/-- Python `strip` is idempotent. -/
theorem stripChars_idem (l : List Char) : stripChars (stripChars l) = stripChars l := by
  by_cases hS0 : stripChars l = []
  · rw [hS0]
    rfl
  · have hBne : (l.dropWhile charIsWs).reverse.dropWhile charIsWs ≠ [] := by
      intro he
      unfold stripChars at hS0
      rw [he] at hS0
      exact hS0 rfl
    have hAne : l.dropWhile charIsWs ≠ [] := by
      intro he
      rw [he] at hBne
      simp at hBne
    have hheadA : ∃ a, (l.dropWhile charIsWs).head? = some a := by
      rcases hA : l.dropWhile charIsWs with _ | ⟨a, A'⟩
      · exact absurd hA hAne
      · exact ⟨a, by simp⟩
    rcases hheadA with ⟨a, hA⟩
    have hwa : charIsWs a = false := dropWhile_head_false charIsWs l a hA
    have hheadS : (stripChars l).head? = some a := by
      unfold stripChars
      rw [List.head?_reverse]
      rw [getLast?_dropWhile charIsWs _ hBne]
      rw [List.getLast?_reverse]
      exact hA
    have hheadB : ∃ b, ((l.dropWhile charIsWs).reverse.dropWhile charIsWs).head? = some b ∧
        charIsWs b = false := by
      rcases hB : (l.dropWhile charIsWs).reverse.dropWhile charIsWs with _ | ⟨b, B'⟩
      · exact absurd hB hBne
      · exact ⟨b, by simp, dropWhile_head_false charIsWs _ b (by rw [hB]; simp)⟩
    rcases hheadB with ⟨b, hB, hwb⟩
    show (((stripChars l).dropWhile charIsWs).reverse.dropWhile charIsWs).reverse = stripChars l
    rw [dropWhile_of_head_false charIsWs (stripChars l) a hheadS hwa]
    rw [show (stripChars l).reverse = (l.dropWhile charIsWs).reverse.dropWhile charIsWs from by
      show (((l.dropWhile charIsWs).reverse.dropWhile charIsWs).reverse).reverse = _
      rw [List.reverse_reverse]]
    rw [dropWhile_of_head_false charIsWs _ b hB hwb]
    rfl

theorem parseName_goodName (l : List Char) (n : String) (r : List Char)
    (h : parseName l = some (n, r)) : goodName n := by
  unfold parseName at h
  by_cases he : (l.takeWhile isNameChar).isEmpty = true
  · rw [if_pos he] at h
    cases h
  · rw [if_neg he] at h
    simp only [Option.some_inj, Prod.mk.injEq] at h
    rcases h with ⟨h1, h2⟩
    subst h1
    constructor
    · show (l.takeWhile isNameChar) ≠ []
      intro hnil
      rw [hnil] at he
      exact he rfl
    · intro c hc
      exact List.mem_takeWhile_imp hc

theorem parseAttrsAux_names (fuel : Nat) : ∀ l pairs rest,
    parseAttrsAux fuel l = some (pairs, rest) → ∀ p ∈ pairs, goodName p.1 := by
  induction fuel with
  | zero =>
    intro l pairs rest h
    exact absurd h (by simp [parseAttrsAux])
  | succ f ih =>
    intro l pairs rest h
    simp only [parseAttrsAux] at h
    split at h
    · simp only [Option.some_inj, Prod.mk.injEq] at h
      rcases h with ⟨h1, _⟩
      subst h1
      intro p hp
      simp at hp
    · simp only [Option.some_inj, Prod.mk.injEq] at h
      rcases h with ⟨h1, _⟩
      subst h1
      intro p hp
      simp at hp
    · split at h
      · cases h
      · rename_i name r1 heq
        split at h
        · rename_i r2 heq2
          split at h
          · rename_i r3 heq3
            split at h
            · cases h
            · split at h
              · rename_i r4 heq4
                split at h
                · cases h
                · rename_i value hequ
                  split at h
                  · cases h
                  · rename_i attrs rest2 heqrec
                    simp only [Option.some_inj, Prod.mk.injEq] at h
                    rcases h with ⟨h1, h2⟩
                    subst h1
                    intro p hp
                    rcases List.mem_cons.mp hp with rfl | hp2
                    · exact parseName_goodName _ _ _ heq
                    · exact ih _ attrs rest2 heqrec p hp2
              · cases h
          · cases h
        · cases h

theorem dictGet?_some_mem {α : Type} (acc : List (String × α)) (k : String) (w : α)
    (h : dictGet? acc k = some w) : (k, w) ∈ acc := by
  induction acc with
  | nil => cases h
  | cons e r ih =>
    rcases e with ⟨k0, v0⟩
    simp only [dictGet?] at h
    by_cases hk0 : k0 = k
    · rw [if_pos hk0] at h
      subst hk0
      simp only [Option.some_inj] at h
      subst h
      exact List.mem_cons_self _ _
    · rw [if_neg hk0] at h
      exact List.mem_cons_of_mem _ (ih h)

theorem dictGet?_none_not_mem {α : Type} (acc : List (String × α)) (k : String)
    (h : dictGet? acc k = none) : ∀ e ∈ acc, e.1 ≠ k := by
  intro e he hek
  induction acc with
  | nil => simp at he
  | cons e0 r ih =>
    rcases e0 with ⟨k0, v0⟩
    simp only [dictGet?] at h
    by_cases hk0 : k0 = k
    · rw [if_pos hk0] at h
      cases h
    · rw [if_neg hk0] at h
      rcases List.mem_cons.mp he with rfl | hm
      · exact hk0 hek
      · exact ih h hm

theorem dictSet_mem_char {α : Type} (acc : List (String × α)) (k : String) (v : α) :
    ∀ e ∈ dictSet acc k v, e = (k, v) ∨ e ∈ acc := by
  induction acc with
  | nil =>
    intro e he
    simp only [dictSet] at he
    exact Or.inl (List.mem_singleton.mp he)
  | cons e0 r ih =>
    rcases e0 with ⟨k0, v0⟩
    intro e he
    simp only [dictSet] at he
    by_cases hk0 : k0 = k
    · rw [if_pos hk0] at he
      rcases List.mem_cons.mp he with rfl | hm
      · exact Or.inl (by rw [hk0])
      · exact Or.inr (List.mem_cons_of_mem _ hm)
    · rw [if_neg hk0] at he
      rcases List.mem_cons.mp he with rfl | hm
      · exact Or.inr (List.mem_cons_self _ _)
      · rcases ih e hm with h1 | h2
        · exact Or.inl h1
        · exact Or.inr (List.mem_cons_of_mem _ h2)

theorem dictSet_keys_of_present {α : Type} (acc : List (String × α)) (k : String) (v w : α)
    (h : dictGet? acc k = some w) :
    (dictSet acc k v).map Prod.fst = acc.map Prod.fst := by
  induction acc with
  | nil => cases h
  | cons e0 r ih =>
    rcases e0 with ⟨k0, v0⟩
    simp only [dictGet?] at h
    simp only [dictSet]
    by_cases hk0 : k0 = k
    · rw [if_pos hk0]
      simp
    · rw [if_neg hk0] at h ⊢
      simp only [List.map_cons]
      rw [ih h]

/-- The invariant on an element's child accumulator: a usable tag, a
well-formed value, with a sibling list one level deeper than its
(non-list) members. -/
def entryOK (d : Nat) (e : String × XVal) : Prop :=
  goodName e.1 ∧ WfVal e.2 ∧ xdepth e.2 ≤ d + 1 ∧ (notListV e.2 → xdepth e.2 ≤ d)

theorem addChild_OK (d : Nat) (acc : List (String × XVal)) (k : String) (v : XVal)
    (hacc : ∀ e ∈ acc, entryOK d e) (hnd : (acc.map Prod.fst).Nodup)
    (hk : goodName k) (hv : WfVal v) (hnl : notListV v) (hd : xdepth v ≤ d) :
    (∀ e ∈ addChild acc k v, entryOK d e) ∧ ((addChild acc k v).map Prod.fst).Nodup := by
  unfold addChild
  rcases hget : dictGet? acc k with _ | old
  · constructor
    · intro e he
      rcases List.mem_append.mp he with hm | hm
      · exact hacc e hm
      · rcases List.mem_singleton.mp hm with rfl
        exact ⟨hk, hv, le_trans hd (by omega), fun _ => hd⟩
    · rw [List.map_append]
      apply List.Nodup.append hnd (by simp)
      intro a ha hb
      have hak : a = k := by simpa using hb
      rcases List.mem_map.mp ha with ⟨e, hem, he1⟩
      exact dictGet?_none_not_mem acc k hget e hem (he1.trans hak)
  · have hold : (k, old) ∈ acc := dictGet?_some_mem acc k old hget
    have holdOK : entryOK d (k, old) := hacc (k, old) hold
    have hmerged : ∀ w, entryOK d (k, w) → ∀ e ∈ dictSet acc k w, entryOK d e := by
      intro w hw e he
      rcases dictSet_mem_char acc k w e he with rfl | hm
      · exact hw
      · exact hacc e hm
    have hkeys : ∀ w : XVal, ((dictSet acc k w).map Prod.fst).Nodup := by
      intro w
      rw [dictSet_keys_of_present acc k w old hget]
      exact hnd
    rcases old with _ | s | es | ls
    · exact ⟨hmerged _ ⟨hk, WfVal.list [XVal.null, v] (by simp)
        (by
          intro x hx
          rcases List.mem_cons.mp hx with rfl | hx2
          · simp [notListV]
          · rcases List.mem_singleton.mp hx2 with rfl
            exact hnl)
        (by
          intro x hx
          rcases List.mem_cons.mp hx with rfl | hx2
          · exact WfVal.null
          · rcases List.mem_singleton.mp hx2 with rfl
            exact hv),
        by
          simp only [xdepth, xdepthList]
          have h0 : xdepth XVal.null = 0 := rfl
          omega,
        by simp [notListV]⟩, hkeys _⟩
    · refine ⟨hmerged _ ⟨hk, WfVal.list [XVal.str s, v] (by simp)
        (by
          intro x hx
          rcases List.mem_cons.mp hx with rfl | hx2
          · simp [notListV]
          · rcases List.mem_singleton.mp hx2 with rfl
            exact hnl)
        (by
          intro x hx
          rcases List.mem_cons.mp hx with rfl | hx2
          · exact holdOK.2.1
          · rcases List.mem_singleton.mp hx2 with rfl
            exact hv),
        ?d1, by simp [notListV]⟩, hkeys _⟩
      case d1 =>
        have hds : xdepth (XVal.str s) ≤ d := holdOK.2.2.2 (by simp [notListV])
        simp only [xdepth, xdepthList]
        omega
    · refine ⟨hmerged _ ⟨hk, WfVal.list [XVal.dict es, v] (by simp)
        (by
          intro x hx
          rcases List.mem_cons.mp hx with rfl | hx2
          · simp [notListV]
          · rcases List.mem_singleton.mp hx2 with rfl
            exact hnl)
        (by
          intro x hx
          rcases List.mem_cons.mp hx with rfl | hx2
          · exact holdOK.2.1
          · rcases List.mem_singleton.mp hx2 with rfl
            exact hv),
        ?d2, by simp [notListV]⟩, hkeys _⟩
      case d2 =>
        have hds : xdepth (XVal.dict es) ≤ d := holdOK.2.2.2 (by simp [notListV])
        simp only [xdepth, xdepthList] at hds ⊢
        omega
    · have holdwf : WfVal (XVal.list ls) := holdOK.2.1
      rcases holdwf with _ | _ | _ | ⟨_, hlen2, hnl2, hwf2⟩
      refine ⟨hmerged _ ⟨hk, WfVal.list (ls ++ [v]) (by simp; omega)
        (by
          intro x hx
          rcases List.mem_append.mp hx with hm | hm
          · exact hnl2 x hm
          · rcases List.mem_singleton.mp hm with rfl
            exact hnl)
        (by
          intro x hx
          rcases List.mem_append.mp hx with hm | hm
          · exact hwf2 x hm
          · rcases List.mem_singleton.mp hm with rfl
            exact hv),
        ?d3, by simp [notListV]⟩, hkeys _⟩
      case d3 =>
        have hds : xdepth (XVal.list ls) ≤ d + 1 := holdOK.2.2.1
        have hds' : xdepthList ls ≤ d := by
          simp only [xdepth] at hds
          omega
        have hconc : ∀ (a : List XVal) (w : XVal), xdepthList (a ++ [w]) =
            max (xdepthList a) (xdepth w) := by
          intro a w
          induction a with
          | nil => simp [xdepthList]
          | cons y a' iha =>
            rw [List.cons_append]
            simp only [xdepthList]
            rw [iha]
            omega
        show xdepth (XVal.list (ls ++ [v])) ≤ d + 1
        simp only [xdepth]
        rw [hconc]
        omega

theorem xdepthEntries_le_of_all (es : List (String × XVal)) (m : Nat)
    (h : ∀ e ∈ es, xdepth e.2 ≤ m) : xdepthEntries es ≤ m := by
  induction es with
  | nil => simp [xdepthEntries]
  | cons e r ih =>
    simp only [xdepthEntries]
    have h1 := h e (List.mem_cons_self _ _)
    have h2 := ih (fun x hx => h x (List.mem_cons_of_mem _ hx))
    omega

theorem foldChildren_OK (d : Nat) (items : List PItem)
    (hit : ∀ tg w, PItem.elem tg w ∈ items →
      goodName tg ∧ WfVal w ∧ notListV w ∧ xdepth w ≤ d) :
    ∀ acc, (∀ e ∈ acc, entryOK d e) → ((acc.map Prod.fst).Nodup) →
    (∀ e ∈ List.foldl (fun acc it => match it with
      | PItem.elem k v => addChild acc k v
      | PItem.txt _ => acc) acc items, entryOK d e) ∧
    ((List.foldl (fun acc it => match it with
      | PItem.elem k v => addChild acc k v
      | PItem.txt _ => acc) acc items).map Prod.fst).Nodup := by
  induction items with
  | nil =>
    intro acc hacc hnd
    exact ⟨hacc, hnd⟩
  | cons it rest ih =>
    intro acc hacc hnd
    rcases it with ⟨k, v⟩ | s
    · simp only [List.foldl_cons]
      have hkv := hit k v (List.mem_cons_self _ _)
      have hstep := addChild_OK d acc k v hacc hnd hkv.1 hkv.2.1 hkv.2.2.1 hkv.2.2.2
      exact ih (fun tg w hw => hit tg w (List.mem_cons_of_mem _ hw)) _ hstep.1 hstep.2
    · simp only [List.foldl_cons]
      exact ih (fun tg w hw => hit tg w (List.mem_cons_of_mem _ hw)) acc hacc hnd

/-- The folded element of well-formed content is well formed, two levels
at most above its children. -/
theorem foldElem_wf (d : Nat) (attrs : List (String × String)) (items : List PItem)
    (hattrs : ∀ p ∈ attrs, goodName p.1)
    (hit : ∀ tg w, PItem.elem tg w ∈ items →
      goodName tg ∧ WfVal w ∧ notListV w ∧ xdepth w ≤ d) :
    WfVal (foldElem attrs items) ∧ notListV (foldElem attrs items) ∧
      xdepth (foldElem attrs items) ≤ d + 2 := by
  have hCE := foldChildren_OK d items hit [] (by simp) (by simp)
  have hchar : foldElem attrs items =
      (if (attrs.map (fun a => ("@" ++ a.1, XVal.str a.2))).isEmpty &&
          (List.foldl (fun acc it => match it with
            | PItem.elem k v => addChild acc k v
            | PItem.txt _ => acc) [] items).isEmpty then
        (if (stripChars (List.foldl (fun acc it => match it with
            | PItem.txt s => acc ++ s.data
            | PItem.elem _ _ => acc) [] items)).isEmpty then XVal.null
         else XVal.str (String.mk (stripChars (List.foldl (fun acc it => match it with
            | PItem.txt s => acc ++ s.data
            | PItem.elem _ _ => acc) [] items))))
       else XVal.dict ((attrs.map (fun a => ("@" ++ a.1, XVal.str a.2))) ++
          (List.foldl (fun acc it => match it with
            | PItem.elem k v => addChild acc k v
            | PItem.txt _ => acc) [] items) ++
          (if (stripChars (List.foldl (fun acc it => match it with
            | PItem.txt s => acc ++ s.data
            | PItem.elem _ _ => acc) [] items)).isEmpty then []
           else [("#text", XVal.str (String.mk (stripChars (List.foldl
              (fun acc it => match it with
                | PItem.txt s => acc ++ s.data
                | PItem.elem _ _ => acc) [] items))))]))) := rfl
  rw [hchar]
  by_cases hc1 : ((attrs.map (fun a => ("@" ++ a.1, XVal.str a.2))).isEmpty &&
      (List.foldl (fun acc it => match it with
        | PItem.elem k v => addChild acc k v
        | PItem.txt _ => acc) [] items).isEmpty) = true
  · rw [if_pos hc1]
    by_cases ht : (stripChars (List.foldl (fun acc it => match it with
        | PItem.txt s => acc ++ s.data
        | PItem.elem _ _ => acc) [] items)).isEmpty = true
    · rw [if_pos ht]
      exact ⟨WfVal.null, by simp [notListV], by simp [xdepth]⟩
    · rw [if_neg ht]
      refine ⟨WfVal.str _ ?tne ?tidem, by simp [notListV], by simp [xdepth]⟩
      case tne =>
        show stripChars (List.foldl _ [] items) ≠ []
        intro he
        rw [he] at ht
        exact ht rfl
      case tidem =>
        show stripChars (stripChars (List.foldl _ [] items)) =
          stripChars (List.foldl _ [] items)
        exact stripChars_idem _
  · rw [if_neg hc1]
    refine ⟨WfVal.dict attrs _ _ hattrs
      (fun e he => (hCE.1 e he).1)
      (fun e he => (hCE.1 e he).2.1)
      hCE.2 ?tp ?ne, by simp [notListV], ?dep⟩
    case tp =>
      by_cases ht : (stripChars (List.foldl (fun acc it => match it with
          | PItem.txt s => acc ++ s.data
          | PItem.elem _ _ => acc) [] items)).isEmpty = true
      · rw [if_pos ht]
        exact Or.inl rfl
      · rw [if_neg ht]
        refine Or.inr ⟨String.mk (stripChars (List.foldl (fun acc it => match it with
            | PItem.txt s => acc ++ s.data
            | PItem.elem _ _ => acc) [] items)), rfl, ?tne2, ?tid2⟩
        case tne2 =>
          show stripChars (List.foldl _ [] items) ≠ []
          intro he
          rw [he] at ht
          exact ht rfl
        case tid2 =>
          show stripChars (stripChars (List.foldl _ [] items)) =
            stripChars (List.foldl _ [] items)
          exact stripChars_idem _
    case ne =>
      rcases hb : (attrs.map (fun a => ("@" ++ a.1, XVal.str a.2))).isEmpty
      · left
        intro he
        subst he
        simp at hb
      · right
        intro he
        rw [hb] at hc1
        rcases hb2 : (List.foldl (fun acc it => match it with
            | PItem.elem k v => addChild acc k v
            | PItem.txt _ => acc) [] items).isEmpty
        · rw [he] at hb2
          simp at hb2
        · rw [hb2] at hc1
          exact hc1 rfl
    case dep =>
      show xdepth (XVal.dict _) ≤ d + 2
      simp only [xdepth]
      have hall : xdepthEntries ((attrs.map (fun a => ("@" ++ a.1, XVal.str a.2))) ++
          (List.foldl (fun acc it => match it with
            | PItem.elem k v => addChild acc k v
            | PItem.txt _ => acc) [] items) ++
          (if (stripChars (List.foldl (fun acc it => match it with
            | PItem.txt s => acc ++ s.data
            | PItem.elem _ _ => acc) [] items)).isEmpty then []
           else [("#text", XVal.str (String.mk (stripChars (List.foldl
              (fun acc it => match it with
                | PItem.txt s => acc ++ s.data
                | PItem.elem _ _ => acc) [] items))))])) ≤ d + 1 := by
        apply xdepthEntries_le_of_all
        intro e he
        rcases List.mem_append.mp he with he2 | he3
        · rcases List.mem_append.mp he2 with he4 | he5
          · rcases List.mem_map.mp he4 with ⟨p, _, rfl⟩
            simp [xdepth]
          · exact (hCE.1 e he5).2.2.1
        · split at he3
          · simp at he3
          · rcases List.mem_singleton.mp he3 with rfl
            simp [xdepth]
      omega

theorem length_dropWhile_le2 {α : Type} (p : α → Bool) (l : List α) :
    (l.dropWhile p).length ≤ l.length := by
  induction l with
  | nil => simp
  | cons x l' ih =>
    by_cases hx : p x = true
    · rw [List.dropWhile_cons_of_pos hx]
      exact le_trans ih (by simp)
    · rw [List.dropWhile_cons_of_neg hx]

theorem parseName_len (l : List Char) (n : String) (r : List Char)
    (h : parseName l = some (n, r)) : r.length + 1 ≤ l.length := by
  unfold parseName at h
  by_cases he : (l.takeWhile isNameChar).isEmpty = true
  · rw [if_pos he] at h
    cases h
  · rw [if_neg he] at h
    simp only [Option.some_inj, Prod.mk.injEq] at h
    rcases h with ⟨_, h2⟩
    subst h2
    have hsplit := List.takeWhile_append_dropWhile (p := isNameChar) (l := l)
    have hlen := congrArg List.length hsplit
    rw [List.length_append] at hlen
    have hne : (l.takeWhile isNameChar).length ≠ 0 := by
      intro h0
      rw [List.length_eq_zero] at h0
      rw [h0] at he
      exact he rfl
    omega

theorem parseAttrsAux_len (fuel : Nat) : ∀ l pairs rest,
    parseAttrsAux fuel l = some (pairs, rest) → rest.length ≤ l.length := by
  induction fuel with
  | zero =>
    intro l pairs rest h
    exact absurd h (by simp [parseAttrsAux])
  | succ f ih =>
    intro l pairs rest h
    have hdw : (l.dropWhile charIsWs).length ≤ l.length := length_dropWhile_le2 _ _
    simp only [parseAttrsAux] at h
    split at h
    · simp only [Option.some_inj, Prod.mk.injEq] at h
      rcases h with ⟨_, h2⟩
      subst h2
      exact hdw
    · simp only [Option.some_inj, Prod.mk.injEq] at h
      rcases h with ⟨_, h2⟩
      subst h2
      exact hdw
    · split at h
      · cases h
      · rename_i name r1 heq
        have h1 : r1.length + 1 ≤ (l.dropWhile charIsWs).length := parseName_len _ _ _ heq
        split at h
        · rename_i r2 heq2
          have h2 : r2.length + 1 ≤ r1.length := by
            have := congrArg List.length heq2
            simp only [List.length_cons] at this
            have hd2 : (r1.dropWhile charIsWs).length ≤ r1.length :=
              length_dropWhile_le2 _ _
            omega
          split at h
          · rename_i r3 heq3
            have h3 : r3.length + 1 ≤ r2.length := by
              have := congrArg List.length heq3
              simp only [List.length_cons] at this
              have hd3 : (r2.dropWhile charIsWs).length ≤ r2.length :=
                length_dropWhile_le2 _ _
              omega
            split at h
            · cases h
            · split at h
              · rename_i r4 heq4
                have h4 : r4.length + 1 ≤ r3.length := by
                  have := congrArg List.length heq4
                  simp only [List.length_cons] at this
                  have hd4 : (List.dropWhile (fun c => c != '"') r3).length ≤ r3.length :=
                    length_dropWhile_le2 _ _
                  omega
                split at h
                · cases h
                · split at h
                  · cases h
                  · rename_i attrs rest2 heqrec
                    simp only [Option.some_inj, Prod.mk.injEq] at h
                    rcases h with ⟨_, h2⟩
                    subst h2
                    have h5 := ih _ attrs rest2 heqrec
                    omega
              · cases h
          · cases h
        · cases h

theorem expectClose_len (name : String) (r4 r5 : List Char)
    (h : expectClose name r4 = some r5) : r5.length + 1 ≤ r4.length := by
  unfold expectClose at h
  split at h
  · rename_i l0 r
    split at h
    · rename_i n r2 heq2
      have h1 : r2.length + 1 ≤ r.length := parseName_len _ _ _ heq2
      split at h
      · split at h
        · rename_i r3 heq3
          have h2 : r3.length + 1 ≤ r2.length := by
            have hlen := congrArg List.length heq3
            simp only [List.length_cons] at hlen
            have hd := length_dropWhile_le2 charIsWs r2
            omega
          simp only [Option.some_inj] at h
          subst h
          simp only [List.length_cons]
          omega
        · cases h
      · cases h
    · cases h
  · cases h

/-- Parse items are canonical: tags are usable names, element values are
well formed, never sibling lists, and nested at most as deep as the
consumed input is long. -/
theorem parseItems_wf (fuel : Nat) : ∀ l items rest,
    parseItems fuel l = some (items, rest) →
    rest.length ≤ l.length ∧
    ∀ tg v, PItem.elem tg v ∈ items →
      goodName tg ∧ WfVal v ∧ notListV v ∧ xdepth v + rest.length + 1 ≤ l.length := by
  induction fuel with
  | zero =>
    intro l items rest h
    simp [parseItems] at h
  | succ fuel ih =>
    intro l items rest h
    simp only [parseItems] at h
    split at h
    · simp only [Option.some_inj, Prod.mk.injEq] at h
      rcases h with ⟨h1, h2⟩
      subst h1
      subst h2
      exact ⟨by simp, by intro tg v hv; simp at hv⟩
    · simp only [Option.some_inj, Prod.mk.injEq] at h
      rcases h with ⟨h1, h2⟩
      subst h1
      subst h2
      exact ⟨le_refl _, by intro tg v hv; simp at hv⟩
    · rename_i rest1 hneg
      rcases hn : parseName rest1 with _ | ⟨name, r1⟩
      · simp only [hn] at h
        exact absurd h (by simp)
      · simp only [hn] at h
        have hname : goodName name := parseName_goodName _ _ _ hn
        have hlen1 : r1.length + 1 ≤ rest1.length := parseName_len _ _ _ hn
        rcases ha : parseAttrsAux (r1.length + 1) r1 with _ | ⟨attrs, r2⟩
        · simp only [ha] at h
          exact absurd h (by simp)
        · simp only [ha] at h
          have hattrs : ∀ p ∈ attrs, goodName p.1 := parseAttrsAux_names _ _ _ _ ha
          have hlen2 : r2.length ≤ r1.length := parseAttrsAux_len _ _ _ _ ha
          split at h
          · rename_i r3
            rcases hp : parseItems fuel r3 with _ | ⟨items2, restOut⟩
            · simp only [hp] at h
              exact absurd h (by simp)
            · simp only [hp] at h
              simp only [Option.some_inj, Prod.mk.injEq] at h
              rcases h with ⟨h1, h2⟩
              subst h1
              subst h2
              have hrec := ih r3 items2 restOut hp
              have hfe := foldElem_wf 0 attrs [] hattrs (by
                intro tg w hw
                simp at hw)
              simp only [List.length_cons] at hlen2 ⊢
              refine ⟨by have := hrec.1; omega, ?_⟩
              intro tg v hv
              rcases List.mem_cons.mp hv with heqv | hmem
              · injection heqv with htg hveq
                subst htg
                subst hveq
                refine ⟨hname, hfe.1, hfe.2.1, ?_⟩
                have h1 := hrec.1
                have h3 := hfe.2.2
                omega
              · have hx := hrec.2 tg v hmem
                exact ⟨hx.1, hx.2.1, hx.2.2.1, by have := hx.2.2.2; omega⟩
          · rename_i r3
            rcases hp : parseItems fuel r3 with _ | ⟨inner, r4⟩
            · simp only [hp] at h
              exact absurd h (by simp)
            · simp only [hp] at h
              rcases he : expectClose name r4 with _ | r5
              · simp only [he] at h
                exact absurd h (by simp)
              · simp only [he] at h
                rcases hp2 : parseItems fuel r5 with _ | ⟨items2, restOut⟩
                · simp only [hp2] at h
                  exact absurd h (by simp)
                · simp only [hp2] at h
                  simp only [Option.some_inj, Prod.mk.injEq] at h
                  rcases h with ⟨h1, h2⟩
                  subst h1
                  subst h2
                  have hrec1 := ih r3 inner r4 hp
                  have hrec2 := ih r5 items2 restOut hp2
                  have hcl : r5.length + 1 ≤ r4.length := expectClose_len _ _ _ he
                  have hfe := foldElem_wf (r3.length - r4.length - 1) attrs inner hattrs (by
                    intro tg w hw
                    have hx := hrec1.2 tg w hw
                    exact ⟨hx.1, hx.2.1, hx.2.2.1, by have := hx.2.2.2; omega⟩)
                  simp only [List.length_cons] at hlen2 ⊢
                  refine ⟨by have := hrec2.1; omega, ?_⟩
                  intro tg v hv
                  rcases List.mem_cons.mp hv with heqv | hmem
                  · injection heqv with htg hveq
                    subst htg
                    subst hveq
                    refine ⟨hname, hfe.1, hfe.2.1, ?_⟩
                    have h1 := hrec1.1
                    have h2 := hrec2.1
                    have h3 := hfe.2.2
                    omega
                  · have hx := hrec2.2 tg v hmem
                    refine ⟨hx.1, hx.2.1, hx.2.2.1, ?_⟩
                    have h1 := hrec1.1
                    have h4 := hx.2.2.2
                    omega
          · exact absurd h (by simp)
    · rcases hu : unescapeChars ((l.takeWhile (fun c => c != '<')).length)
          (l.takeWhile (fun c => c != '<')) with _ | tu
      · simp only [hu] at h
        exact absurd h (by simp)
      · simp only [hu] at h
        rcases hp : parseItems fuel (l.dropWhile (fun c => c != '<')) with _ | ⟨items2, restOut⟩
        · simp only [hp] at h
          exact absurd h (by simp)
        · simp only [hp] at h
          simp only [Option.some_inj, Prod.mk.injEq] at h
          rcases h with ⟨h1, h2⟩
          subst h1
          subst h2
          have hrec := ih _ items2 restOut hp
          have hdl : (l.dropWhile (fun c => c != '<')).length ≤ l.length :=
            length_dropWhile_le2 _ _
          refine ⟨by have := hrec.1; omega, ?_⟩
          intro tg v hv
          rcases List.mem_cons.mp hv with heqv | hmem
          · cases heqv
          · have hx := hrec.2 tg v hmem
            exact ⟨hx.1, hx.2.1, hx.2.2.1, by have := hx.2.2.2; omega⟩

theorem dropDecl_len (fuel : Nat) : ∀ l r, dropDecl fuel l = some r → r.length ≤ l.length := by
  induction fuel with
  | zero =>
    intro l r h
    simp [dropDecl] at h
  | succ f ih =>
    intro l r h
    rcases l with _ | ⟨c, l'⟩
    · simp [dropDecl] at h
    · simp only [dropDecl] at h
      split at h
      · rename_i r0 heq
        simp only [Option.some_inj] at h
        subst h
        have hlen := congrArg List.length heq
        simp only [List.length_cons] at hlen ⊢
        omega
      · rename_i hd0 tl0 hconstr heq
        have h1 := ih tl0 r h
        have hlen := congrArg List.length heq
        simp only [List.length_cons] at hlen ⊢
        omega
      · cases h

/-- `xmltodict.parse` only produces canonical one-root documents, nested
no deeper than the input is long. -/
theorem parseDoc_wf (s : String) (st : XVal) (h : parseDoc s = some st) :
    ∃ tag v, st = XVal.dict [(tag, v)] ∧ goodName tag ∧ WfVal v ∧ notListV v ∧
      xdepth v ≤ s.data.length := by
  simp only [parseDoc] at h
  split at h
  · cases h
  · rename_i l1 heq
    have hl1 : l1.length ≤ s.data.length := by
      split at heq
      · rename_i r0 heq0
        have h1 := dropDecl_len _ _ _ heq
        have h2 := congrArg List.length heq0
        have h3 := length_dropWhile_le2 charIsWs s.data
        simp only [List.length_cons] at h2
        omega
      · simp only [Option.some_inj] at heq
        subst heq
        exact length_dropWhile_le2 charIsWs s.data
    rcases hp : parseItems ((List.dropWhile charIsWs l1).length + 1)
        (List.dropWhile charIsWs l1) with _ | ⟨items, rest⟩
    · rw [hp] at h
      cases h
    · rw [hp] at h
      have hwf := parseItems_wf _ _ _ _ hp
      split at h
      · cases h
      · rename_i items2 rest2 hsome
        have hpair : items = items2 ∧ rest = rest2 := by simpa using hsome
        obtain ⟨h1, h2⟩ := hpair
        subst h1
        subst h2
        split at h
        · cases h
        · rename_i hre
          split at h
          · rename_i tag v heqfm
            split at h
            · simp only [Option.some_inj] at h
              subst h
              have hrest : rest = [] := by
                rcases hbe : rest.isEmpty
                · exact absurd (by rw [hbe]; rfl) hre
                · exact List.isEmpty_iff.mp hbe
              subst hrest
              have hmem : PItem.elem tag v ∈ items := by
                have hmem1 : (tag, v) ∈ items.filterMap (fun it => match it with
                    | PItem.elem k v => some (k, v)
                    | PItem.txt _ => none) := by
                  rw [heqfm]
                  exact List.mem_singleton.mpr rfl
                rcases List.mem_filterMap.mp hmem1 with ⟨it, hit, hfit⟩
                rcases it with ⟨k2, v2⟩ | s2
                · simp only [Option.some_inj, Prod.mk.injEq] at hfit
                  rcases hfit with ⟨h1, h2⟩
                  subst h1
                  subst h2
                  exact hit
                · cases hfit
              have hx := hwf.2 tag v hmem
              refine ⟨tag, v, rfl, hx.1, hx.2.1, hx.2.2.1, ?_⟩
              have h1 := hx.2.2.2
              have h2 := length_dropWhile_le2 charIsWs l1
              simp only [List.length_nil] at h1
              omega
            · cases h
          · cases h

theorem xdepthList_le_of_all (vs : List XVal) (m : Nat)
    (h : ∀ v ∈ vs, xdepth v ≤ m) : xdepthList vs ≤ m := by
  induction vs with
  | nil => simp [xdepthList]
  | cons v r ih =>
    simp only [xdepthList]
    have h1 := h v (List.mem_cons_self _ _)
    have h2 := ih (fun x hx => h x (List.mem_cons_of_mem _ hx))
    omega

theorem xdepthEntries_witness (es : List (String × XVal)) :
    xdepthEntries es = 0 ∨ ∃ e ∈ es, xdepth e.2 = xdepthEntries es := by
  induction es with
  | nil => exact Or.inl rfl
  | cons e r ih =>
    simp only [xdepthEntries]
    rcases Nat.le_total (xdepth e.2) (xdepthEntries r) with hle | hge
    · rw [max_eq_right hle]
      rcases ih with h0 | ⟨w, hw, hweq⟩
      · rw [h0]
        exact Or.inl rfl
      · exact Or.inr ⟨w, List.mem_cons_of_mem _ hw, hweq⟩
    · rw [max_eq_left hge]
      exact Or.inr ⟨e, List.mem_cons_self _ _, rfl⟩

theorem xdepthList_witness (vs : List XVal) :
    xdepthList vs = 0 ∨ ∃ v ∈ vs, xdepth v = xdepthList vs := by
  induction vs with
  | nil => exact Or.inl rfl
  | cons v r ih =>
    simp only [xdepthList]
    rcases Nat.le_total (xdepth v) (xdepthList r) with hle | hge
    · rw [max_eq_right hle]
      rcases ih with h0 | ⟨w, hw, hweq⟩
      · rw [h0]
        exact Or.inl rfl
      · exact Or.inr ⟨w, List.mem_cons_of_mem _ hw, hweq⟩
    · rw [max_eq_left hge]
      exact Or.inr ⟨v, List.mem_cons_self _ _, rfl⟩

theorem join_data_length_ge_mem (ss : List String) (s : String) (h : s ∈ ss) :
    s.data.length ≤ (String.join ss).data.length := by
  induction ss with
  | nil => simp at h
  | cons x r ih =>
    have hx : (String.join (x :: r)).data = x.data ++ (String.join r).data := by
      simp [String.data_join]
    rw [hx, List.length_append]
    rcases List.mem_cons.mp h with rfl | hm
    · omega
    · have := ih hm
      omega

theorem dictGet?_eq_none_of_all {α : Type} (l : List (String × α)) (k : String)
    (h : ∀ e ∈ l, ¬ (e.1 = k)) : dictGet? l k = none := by
  induction l with
  | nil => rfl
  | cons e r ih =>
    rcases e with ⟨k0, v0⟩
    simp only [dictGet?]
    rw [if_neg (h (k0, v0) (List.mem_cons_self _ _))]
    exact ih (fun x hx => h x (List.mem_cons_of_mem _ hx))

theorem dictGet?_append_some {α : Type} (a b : List (String × α)) (k : String) (w : α)
    (h : dictGet? a k = some w) : dictGet? (a ++ b) k = some w := by
  induction a with
  | nil => cases h
  | cons e r ih =>
    rcases e with ⟨k0, v0⟩
    simp only [dictGet?] at h ⊢
    by_cases hk0 : k0 = k
    · rw [if_pos hk0] at h ⊢
      exact h
    · rw [if_neg hk0] at h ⊢
      exact ih h

theorem dictSet_append_skip {α : Type} (a b : List (String × α)) (k : String) (x : α)
    (h : ∀ e ∈ a, ¬ (e.1 = k)) : dictSet (a ++ b) k x = a ++ dictSet b k x := by
  induction a with
  | nil => rfl
  | cons e r ih =>
    rcases e with ⟨k0, v0⟩
    rw [List.cons_append]
    simp only [dictSet]
    rw [if_neg (h (k0, v0) (List.mem_cons_self _ _))]
    rw [ih (fun e he => h e (List.mem_cons_of_mem _ he))]
    rfl

theorem dictSet_append_left_of_found {α : Type} (a b : List (String × α)) (k : String)
    (x w : α) (h : dictGet? a k = some w) :
    dictSet (a ++ b) k x = dictSet a k x ++ b := by
  induction a with
  | nil => cases h
  | cons e r ih =>
    rcases e with ⟨k0, v0⟩
    simp only [dictGet?] at h
    rw [List.cons_append]
    simp only [dictSet]
    by_cases hk0 : k0 = k
    · rw [if_pos hk0, if_pos hk0]
      rfl
    · rw [if_neg hk0, if_neg hk0] at *
      rw [ih h]
      rfl

theorem mapE_ok_mem {α β : Type} (g : α → Except PyErr β) (l : List α) (l' : List β)
    (h : mapE g l = .ok l') : ∀ y ∈ l', ∃ x ∈ l, g x = .ok y := by
  induction l generalizing l' with
  | nil =>
    simp only [mapE] at h
    cases h
    intro y hy
    simp at hy
  | cons x xs ih =>
    simp only [mapE] at h
    rcases hg : g x with e | y0 <;> rw [hg] at h
    · cases h
    · rcases hm : mapE g xs with e | ys <;> rw [hm] at h
      · cases h
      · simp only [Except.ok.injEq] at h
        subst h
        intro y hy
        rcases List.mem_cons.mp hy with rfl | hmem
        · exact ⟨x, List.mem_cons_self _ _, hg⟩
        · rcases ih ys hm y hmem with ⟨x2, hx2, hgx2⟩
          exact ⟨x2, List.mem_cons_of_mem _ hx2, hgx2⟩

theorem mapE_append_ok {α β : Type} (g : α → Except PyErr β) (a b : List α)
    (l' : List β) (h : mapE g (a ++ b) = .ok l') :
    ∃ la lb, l' = la ++ lb ∧ mapE g a = .ok la ∧ mapE g b = .ok lb := by
  induction a generalizing l' with
  | nil =>
    exact ⟨[], l', rfl, rfl, by simpa using h⟩
  | cons x xs ih =>
    rw [List.cons_append] at h
    simp only [mapE] at h
    rcases hg : g x with e | y0 <;> rw [hg] at h
    · cases h
    · rcases hm : mapE g (xs ++ b) with e | ys <;> rw [hm] at h
      · cases h
      · simp only [Except.ok.injEq] at h
        subst h
        rcases ih ys hm with ⟨la, lb, rfl, hla, hlb⟩
        exact ⟨y0 :: la, lb, rfl, by simp [mapE, hg, hla], hlb⟩

theorem goodName_ne_style (k : String) (hk : goodName k) : ¬ (k = "@style") := by
  intro he
  subst he
  have := hk.2 '@' (by decide)
  exact absurd this (by decide)

theorem dictGet?_attrs_str (apairs : List (String × String)) (key : String) (w : XVal)
    (h : dictGet? (apairs.map (fun p => ("@" ++ p.1, XVal.str p.2))) key = some w) :
    ∃ s : String, w = XVal.str s := by
  induction apairs with
  | nil => cases h
  | cons p ap' ih =>
    simp only [List.map_cons, dictGet?] at h
    by_cases hk0 : "@" ++ p.1 = key
    · rw [if_pos hk0] at h
      simp only [Option.some_inj] at h
      exact ⟨p.2, h.symm⟩
    · rw [if_neg hk0] at h
      exact ih h

theorem dictSet_attr_section (apairs : List (String × String)) (rest2 : List (String × XVal))
    (key : String) (x : String) (w : XVal)
    (hfound : dictGet? (apairs.map (fun p => ("@" ++ p.1, XVal.str p.2))) key = some w) :
    ∃ apairs2 : List (String × String),
      dictSet (apairs.map (fun p => ("@" ++ p.1, XVal.str p.2)) ++ rest2) key (XVal.str x) =
        apairs2.map (fun p => ("@" ++ p.1, XVal.str p.2)) ++ rest2 ∧
      (∀ p2 ∈ apairs2, ∃ p ∈ apairs, p2.1 = p.1) ∧
      apairs2.length = apairs.length := by
  induction apairs with
  | nil => cases hfound
  | cons p ap' ih =>
    simp only [List.map_cons, dictGet?] at hfound
    by_cases hk0 : "@" ++ p.1 = key
    · refine ⟨(p.1, x) :: ap', ?_, ?_, by simp⟩
      · simp only [List.map_cons, List.cons_append, dictSet]
        rw [if_pos hk0]
        simp [List.append_eq]
      · intro p2 hp2
        rcases List.mem_cons.mp hp2 with hpe | hm
        · exact ⟨p, List.mem_cons_self _ _, by rw [hpe]⟩
        · exact ⟨p2, List.mem_cons_of_mem _ hm, rfl⟩
    · rw [if_neg hk0] at hfound
      rcases ih hfound with ⟨ap2', heq, hkeys, hlen⟩
      refine ⟨p :: ap2', ?_, ?_, by simp [hlen]⟩
      · simp only [List.map_cons, List.cons_append, dictSet]
        rw [if_neg hk0]
        simp only [List.append_eq]
        rw [heq]
      · intro p2 hp2
        rcases List.mem_cons.mp hp2 with hpe | hm
        · exact ⟨p, List.mem_cons_self _ _, by rw [hpe]⟩
        · rcases hkeys p2 hm with ⟨p3, hp3, hk3⟩
          exact ⟨p3, List.mem_cons_of_mem _ hp3, hk3⟩

/-- The style rewrite keeps an element well formed and no deeper. -/
theorem processElement_preserves (c : String) (v v' : XVal)
    (hwf : WfVal v) (h : processElement c v = .ok v') :
    WfVal v' ∧ notListV v' ∧ xdepth v' ≤ xdepth v := by
  rcases hwf with _ | ⟨s0, hne0, hst0⟩ |
    ⟨apairs, children, textPart, hap, hch, hwfc, hnd, htp, hnonempty⟩ |
    ⟨vs, hlen, hnlm, hwfm⟩
  · simp [processElement] at h
  · simp [processElement] at h
  · have hkeys_ne : ∀ e ∈ children ++ textPart, ¬ (e.1 = "@style") := by
      intro e he
      rcases List.mem_append.mp he with hm | hm
      · exact goodName_ne_style e.1 (hch e hm)
      · rcases htp with rfl | ⟨t, rfl, _, _⟩
        · simp at hm
        · rcases List.mem_singleton.mp hm with rfl
          intro hcontra
          have hd2 : "#text" = "@style" := hcontra
          exact absurd (congrArg String.data hd2) (by decide)
    rcases hA : dictGet? (apairs.map (fun p => ("@" ++ p.1, XVal.str p.2))) "@style"
        with _ | w
    · have hnone : dictGet? (apairs.map (fun p => ("@" ++ p.1, XVal.str p.2)) ++
          children ++ textPart) "@style" = none := by
        rw [List.append_assoc]
        rw [dictGet?_append_none _ _ _ hA]
        exact dictGet?_eq_none_of_all _ _ hkeys_ne
      rw [processElement_no_style c _ hnone] at h
      simp only [Except.ok.injEq] at h
      subst h
      exact ⟨WfVal.dict apairs children textPart hap hch hwfc hnd htp hnonempty,
        by simp [notListV], le_refl _⟩
    · rcases dictGet?_attrs_str apairs "@style" w hA with ⟨s, rfl⟩
      have hsome : dictGet? (apairs.map (fun p => ("@" ++ p.1, XVal.str p.2)) ++
          children ++ textPart) "@style" = some (XVal.str s) := by
        rw [List.append_assoc]
        exact dictGet?_append_some _ _ _ _ hA
      rw [processElement_with_style c _ s hsome] at h
      simp only [Except.ok.injEq] at h
      subst h
      have hsetshape := dictSet_attr_section apairs (children ++ textPart) "@style"
        (processStyle s c) (XVal.str s) hA
      rcases hsetshape with ⟨apairs2, hseteq, hkeymap, hlenmap⟩
      have hset2 : dictSet (apairs.map (fun p => ("@" ++ p.1, XVal.str p.2)) ++
          children ++ textPart) "@style" (XVal.str (processStyle s c)) =
          apairs2.map (fun p => ("@" ++ p.1, XVal.str p.2)) ++ children ++ textPart := by
        rw [List.append_assoc, hseteq, List.append_assoc]
      rw [hset2]
      have hap2 : ∀ p ∈ apairs2, goodName p.1 := by
        intro p2 hp2
        rcases hkeymap p2 hp2 with ⟨p3, hp3, hk3⟩
        rw [hk3]
        exact hap p3 hp3
      have hne2 : apairs2 ≠ [] ∨ children ≠ [] := by
        rcases hnonempty with hne | hne
        · left
          intro hcontra
          apply hne
          have h0 : apairs.length = 0 := by
            rw [← hlenmap, hcontra]
            rfl
          exact List.length_eq_zero.mp h0
        · exact Or.inr hne
      refine ⟨WfVal.dict apairs2 children textPart hap2 hch hwfc hnd htp hne2,
        by simp [notListV], ?_⟩
      simp only [xdepth]
      have hbound : xdepthEntries (apairs2.map (fun p => ("@" ++ p.1, XVal.str p.2)) ++
          children ++ textPart) ≤
          xdepthEntries (apairs.map (fun p => ("@" ++ p.1, XVal.str p.2)) ++
            children ++ textPart) := by
        apply xdepthEntries_le_of_all
        intro e he
        rcases List.mem_append.mp he with he2 | he3
        · rcases List.mem_append.mp he2 with he4 | he5
          · rcases List.mem_map.mp he4 with ⟨p, _, rfl⟩
            simp [xdepth]
          · exact xdepth_le_of_mem_entries _ e (by
              rw [List.append_assoc]
              exact List.mem_append_right _ (List.mem_append_left _ he5))
        · exact xdepth_le_of_mem_entries _ e (by
            rw [List.append_assoc]
            exact List.mem_append_right _ (List.mem_append_right _ he3))
      omega
  · simp [processElement] at h

theorem mapE_processElement_preserves (c : String) (items items2 : List XVal)
    (h : mapE (processElement c) items = .ok items2)
    (hwf : ∀ x ∈ items, WfVal x) :
    (∀ y ∈ items2, WfVal y ∧ notListV y ∧ xdepth y ≤ xdepthList items) ∧
    items2.length = items.length := by
  constructor
  · intro y hy
    rcases mapE_ok_mem _ _ _ h y hy with ⟨x, hx, hgx⟩
    have hp := processElement_preserves c x y (hwf x hx) hgx
    exact ⟨hp.1, hp.2.1, le_trans hp.2.2 (xdepth_le_of_mem_list _ _ hx)⟩
  · exact mapE_ok_length _ _ _ h

/-- One layer entry keeps its key, stays well formed and gets no deeper. -/
theorem processEntry_preserves (c : String) (e e' : String × XVal)
    (hwf : WfVal e.2) (h : processEntry c e = .ok e') :
    e'.1 = e.1 ∧ WfVal e'.2 ∧ xdepth e'.2 ≤ xdepth e.2 := by
  unfold processEntry at h
  by_cases hmk : (startsWithStr e.1 "@" || startsWithStr e.1 "#") = true
  · rw [if_pos hmk] at h
    simp only [Except.ok.injEq] at h
    subst h
    exact ⟨rfl, hwf, le_refl _⟩
  · rw [if_neg hmk] at h
    split at h
    · rename_i items heq
      rcases hm : mapE (processElement c) items with err | items2 <;> rw [hm] at h
      · cases h
      · simp only [Except.ok.injEq] at h
        subst h
        have hwfl : WfVal (XVal.list items) := heq ▸ hwf
        rcases hwfl with _ | _ | _ | ⟨_, hlen2, hnl2, hwf2⟩
        have hmp := mapE_processElement_preserves c items items2 hm hwf2
        refine ⟨rfl, WfVal.list items2 (by rw [hmp.2]; exact hlen2)
          (fun y hy => (hmp.1 y hy).2.1) (fun y hy => (hmp.1 y hy).1), ?_⟩
        rw [heq]
        simp only [xdepth]
        have hdl : xdepthList items2 ≤ xdepthList items :=
          xdepthList_le_of_all _ _ (fun y hy => (hmp.1 y hy).2.2)
        omega
    · rename_i hconstr
      rcases hpe : processElement c e.2 with err | x2 <;> rw [hpe] at h
      · cases h
      · simp only [Except.ok.injEq] at h
        subst h
        have hp := processElement_preserves c e.2 x2 hwf hpe
        exact ⟨rfl, hp.1, hp.2.2⟩

theorem mapE_processEntry_children (c : String) (ch : List (String × XVal)) :
    ∀ ch2, mapE (processEntry c) ch = .ok ch2 →
    (∀ e ∈ ch, WfVal e.2) →
    ch2.map Prod.fst = ch.map Prod.fst ∧
    (∀ e ∈ ch2, WfVal e.2) ∧ xdepthEntries ch2 ≤ xdepthEntries ch := by
  induction ch with
  | nil =>
    intro ch2 h _
    simp only [mapE, Except.ok.injEq] at h
    subst h
    exact ⟨rfl, by intro e he; simp at he, le_refl _⟩
  | cons e r ih =>
    intro ch2 h hwf
    simp only [mapE] at h
    rcases hg : processEntry c e with err | e1 <;> rw [hg] at h
    · cases h
    · rcases hm : mapE (processEntry c) r with err | r2 <;> rw [hm] at h
      · cases h
      · simp only [Except.ok.injEq] at h
        subst h
        have hpe := processEntry_preserves c e e1 (hwf e (List.mem_cons_self _ _)) hg
        have hr := ih r2 hm (fun x hx => hwf x (List.mem_cons_of_mem _ hx))
        refine ⟨by simp [hpe.1, hr.1], ?_, ?_⟩
        · intro x hx
          rcases List.mem_cons.mp hx with rfl | hm2
          · exact hpe.2.1
          · exact hr.2.1 x hm2
        · simp only [xdepthEntries]
          have h1 := hpe.2.2
          have h2 := hr.2.2
          omega

/-- One processed group stays well formed, keeps its shape class and
gets no deeper. -/
theorem processLayer_preserves (c : String) (L L' : XVal)
    (hwf : WfVal L) (h : processLayer c L = .ok L') :
    WfVal L' ∧ xdepth L' ≤ xdepth L ∧ (notListV L → notListV L') := by
  rcases L with _ | s | entries | vs
  · simp only [processLayer, Except.ok.injEq] at h
    subst h
    exact ⟨hwf, le_refl _, fun h2 => h2⟩
  · simp only [processLayer, Except.ok.injEq] at h
    subst h
    exact ⟨hwf, le_refl _, fun h2 => h2⟩
  · rcases hcl : isColorLayer entries
    · simp only [processLayer, hcl, Bool.false_eq_true, if_false, Except.ok.injEq] at h
      subst h
      exact ⟨hwf, le_refl _, fun h2 => h2⟩
    · simp only [processLayer, hcl, if_true] at h
      rcases hm : mapE (processEntry c) entries with err | entries2 <;> rw [hm] at h
      · cases h
      · simp only [Except.ok.injEq] at h
        subst h
        have hwfd : WfVal (XVal.dict entries) := hwf
        rcases hwfd with _ | _ | ⟨apairs, children, textPart, hap, hch, hwfc, hnd, htp, hne⟩ | _
        rw [List.append_assoc] at hm
        rcases mapE_append_ok _ _ _ _ hm with ⟨la, lrest, heq2, hla, hlrest⟩
        rcases mapE_append_ok _ _ _ _ hlrest with ⟨lch, ltp, heq3, hlch, hltp⟩
        have hlaid : mapE (processEntry c)
            (apairs.map (fun p => ("@" ++ p.1, XVal.str p.2))) =
            .ok (apairs.map (fun p => ("@" ++ p.1, XVal.str p.2))) := by
          apply mapE_ok_of_id
          intro e he
          rcases List.mem_map.mp he with ⟨p, _, rfl⟩
          unfold processEntry
          rw [if_pos (by simp [attrKey_startsWith p.1])]
        have hla2 : la = apairs.map (fun p => ("@" ++ p.1, XVal.str p.2)) := by
          rw [hlaid] at hla
          simpa using hla.symm
        have hltpid : mapE (processEntry c) textPart = .ok textPart := by
          apply mapE_ok_of_id
          intro e he
          rcases htp with rfl | ⟨t, rfl, _, _⟩
          · simp at he
          · rcases List.mem_singleton.mp he with rfl
            unfold processEntry
            rw [if_pos (by simp [show startsWithStr "#text" "#" = true from rfl])]
        have hltp2 : ltp = textPart := by
          rw [hltpid] at hltp
          simpa using hltp.symm
        have hchp := mapE_processEntry_children c children lch hlch hwfc
        subst heq2
        subst heq3
        rw [hla2, hltp2]
        rw [hltp2] at hltp
        have hkeysmem : ∀ e ∈ lch, ∃ e0 ∈ children, e.1 = e0.1 := by
          intro e he
          have hmem1 : e.1 ∈ lch.map Prod.fst := List.mem_map_of_mem Prod.fst he
          rw [hchp.1] at hmem1
          rcases List.mem_map.mp hmem1 with ⟨e0, he0, hk0⟩
          exact ⟨e0, he0, hk0.symm⟩
        refine ⟨?wf, ?dep, fun _ => by simp [notListV]⟩
        case wf =>
          rw [← List.append_assoc]
          apply WfVal.dict apairs lch textPart hap
          · intro e he
            rcases hkeysmem e he with ⟨e0, he0, hk0⟩
            rw [hk0]
            exact hch e0 he0
          · exact hchp.2.1
          · rw [hchp.1]
            exact hnd
          · exact htp
          · rcases hne with hne | hne
            · exact Or.inl hne
            · right
              intro hcontra
              apply hne
              have := congrArg List.length hchp.1
              rw [hcontra] at this
              simp only [List.map_nil, List.length_nil, List.length_map] at this
              exact List.length_eq_zero.mp this.symm
        case dep =>
          simp only [xdepth]
          have hb : xdepthEntries (apairs.map (fun p => ("@" ++ p.1, XVal.str p.2)) ++
              (lch ++ textPart)) ≤
              xdepthEntries (apairs.map (fun p => ("@" ++ p.1, XVal.str p.2)) ++
                children ++ textPart) := by
            apply xdepthEntries_le_of_all
            intro e he
            rcases List.mem_append.mp he with he2 | he3
            · rcases List.mem_map.mp he2 with ⟨p, _, rfl⟩
              simp [xdepth]
            · rcases List.mem_append.mp he3 with he4 | he5
              · have h1 : xdepth e.2 ≤ xdepthEntries lch := xdepth_le_of_mem_entries _ e he4
                have h2 := hchp.2.2
                have h3 : xdepthEntries children ≤
                    xdepthEntries (apairs.map (fun p => ("@" ++ p.1, XVal.str p.2)) ++
                      children ++ textPart) := by
                  apply xdepthEntries_le_of_all
                  intro e0 he0
                  apply xdepth_le_of_mem_entries
                  rw [List.append_assoc]
                  exact List.mem_append_right _ (List.mem_append_left _ he0)
                omega
              · apply xdepth_le_of_mem_entries
                rw [List.append_assoc]
                exact List.mem_append_right _ (List.mem_append_right _ he5)
          omega
  · simp only [processLayer, Except.ok.injEq] at h
    subst h
    exact ⟨hwf, le_refl _, fun h2 => h2⟩

theorem attrKey_ne_goodName (nm k : String) (hk : goodName k) : ¬ ("@" ++ nm = k) := by
  intro he
  have hd := congrArg String.data he
  rw [String.data_append] at hd
  have hmem : '@' ∈ k.data := by
    rw [← hd]
    exact List.mem_append_left _ (by decide)
  have := hk.2 '@' hmem
  exact absurd this (by decide)

theorem dictGet_goodKey_section (apairs : List (String × String))
    (children textPart : List (String × XVal)) (k : String) (hk : goodName k)
    (htp : textPart = [] ∨ ∃ t, textPart = [("#text", XVal.str t)]) :
    dictGet? (apairs.map (fun p => ("@" ++ p.1, XVal.str p.2)) ++ children ++ textPart) k =
      dictGet? children k := by
  rw [List.append_assoc]
  rw [dictGet?_append_none _ _ _ (by
    apply dictGet?_eq_none_of_all
    intro e he
    rcases List.mem_map.mp he with ⟨p, _, rfl⟩
    exact attrKey_ne_goodName p.1 k hk)]
  rcases hc : dictGet? children k with _ | w
  · rw [dictGet?_append_none _ _ _ hc]
    apply dictGet?_eq_none_of_all
    intro e he
    rcases htp with rfl | ⟨t, rfl⟩
    · simp at he
    · rcases List.mem_singleton.mp he with rfl
      intro hcontra
      exact goodName_ne_text k hk hcontra.symm
  · exact dictGet?_append_some _ _ _ _ hc

/-- The whole structure rewrite keeps the document canonical, rooted at
`svg`, and no deeper. -/
theorem setFills_preserves_doc (c : String) (tag : String) (v st2 : XVal)
    (hwf : WfVal v)
    (h : setFillsStructure c (XVal.dict [(tag, v)]) = .ok st2) :
    tag = "svg" ∧ ∃ v2, st2 = XVal.dict [("svg", v2)] ∧ WfVal v2 ∧ notListV v2 ∧
      xdepth v2 ≤ xdepth v := by
  simp only [setFillsStructure] at h
  split at h
  · cases h
  · rename_i svgv heq
    have htagv : tag = "svg" ∧ svgv = v := by
      simp only [dictGet?] at heq
      by_cases htag : tag = "svg"
      · rw [if_pos htag] at heq
        simp only [Option.some_inj] at heq
        exact ⟨htag, heq.symm⟩
      · rw [if_neg htag] at heq
        cases heq
    rcases htagv with ⟨rfl, rfl⟩
    refine ⟨rfl, ?_⟩
    split at h
    · rename_i x0 ge
      rcases hwf with _ | _ |
        ⟨apairs, children, textPart, hap, hch, hwfc, hnd, htp, hne⟩ | _
      have htpw : textPart = [] ∨ ∃ t, textPart = [("#text", XVal.str t)] := by
        rcases htp with rfl | ⟨t, rfl, _, _⟩
        · exact Or.inl rfl
        · exact Or.inr ⟨t, rfl⟩
      split at h
      · cases h
      · rename_i g0 heqg
        have hgNm : goodName "g" := ⟨by decide, by decide⟩
        have hgch : dictGet? children "g" = some g0 := by
          rw [← dictGet_goodKey_section apairs children textPart "g" hgNm htpw]
          exact heqg
        have hg0mem : ("g", g0) ∈ children := dictGet?_some_mem _ _ _ hgch
        have hg0wf : WfVal g0 := hwfc _ hg0mem
        have hg0dep : xdepth g0 ≤ xdepthEntries (apairs.map
            (fun p => ("@" ++ p.1, XVal.str p.2)) ++ children ++ textPart) := by
          apply xdepth_le_of_mem_entries _ ("g", g0)
          rw [List.append_assoc]
          exact List.mem_append_right _ (List.mem_append_left _ hg0mem)
        have hsetshape : ∀ X : XVal,
            dictSet (apairs.map (fun p => ("@" ++ p.1, XVal.str p.2)) ++ children ++
              textPart) "g" X =
            apairs.map (fun p => ("@" ++ p.1, XVal.str p.2)) ++
              dictSet children "g" X ++ textPart := by
          intro X
          rw [List.append_assoc]
          rw [dictSet_append_skip _ _ _ _ (by
            intro e he
            rcases List.mem_map.mp he with ⟨p, _, rfl⟩
            exact attrKey_ne_goodName p.1 "g" hgNm)]
          rw [dictSet_append_left_of_found _ _ _ _ _ hgch]
          rw [List.append_assoc]
        have hrebuild : ∀ X : XVal, WfVal X →
            (∀ ls : List XVal, ¬ (X = XVal.list ls)) ∨
              (∃ ls : List XVal, X = XVal.list ls ∧ 2 ≤ ls.length ∧
                (∀ y ∈ ls, notListV y) ∧ (∀ y ∈ ls, WfVal y)) →
            xdepth X ≤ xdepth g0 →
            WfVal (XVal.dict (dictSet (apairs.map (fun p => ("@" ++ p.1, XVal.str p.2)) ++
              children ++ textPart) "g" X)) ∧
            xdepth (XVal.dict (dictSet (apairs.map (fun p => ("@" ++ p.1, XVal.str p.2)) ++
              children ++ textPart) "g" X)) ≤
              xdepth (XVal.dict (apairs.map (fun p => ("@" ++ p.1, XVal.str p.2)) ++
                children ++ textPart)) := by
          intro X hXwf hXshape hXdep
          rw [hsetshape X]
          have hkeys2 : (dictSet children "g" X).map Prod.fst = children.map Prod.fst :=
            dictSet_keys_of_present _ _ _ _ hgch
          constructor
          · apply WfVal.dict apairs (dictSet children "g" X) textPart hap
            · intro e he
              rcases dictSet_mem_char _ _ _ e he with rfl | hm
              · exact hgNm
              · exact hch e hm
            · intro e he
              rcases dictSet_mem_char _ _ _ e he with rfl | hm
              · exact hXwf
              · exact hwfc e hm
            · rw [hkeys2]
              exact hnd
            · exact htp
            · right
              intro hcontra
              have := congrArg List.length hkeys2
              rw [hcontra] at this
              simp only [List.map_nil, List.length_nil, List.length_map] at this
              have hchnil : children = [] := List.length_eq_zero.mp this.symm
              rw [hchnil] at hg0mem
              simp at hg0mem
          · simp only [xdepth]
            have hb : xdepthEntries (apairs.map (fun p => ("@" ++ p.1, XVal.str p.2)) ++
                dictSet children "g" X ++ textPart) ≤
                xdepthEntries (apairs.map (fun p => ("@" ++ p.1, XVal.str p.2)) ++
                  children ++ textPart) := by
              apply xdepthEntries_le_of_all
              intro e he
              rcases List.mem_append.mp he with he2 | he3
              · rcases List.mem_append.mp he2 with he4 | he5
                · rcases List.mem_map.mp he4 with ⟨p, _, rfl⟩
                  simp [xdepth]
                · rcases dictSet_mem_char _ _ _ e he5 with rfl | hm
                  · exact le_trans hXdep hg0dep
                  · apply xdepth_le_of_mem_entries
                    rw [List.append_assoc]
                    exact List.mem_append_right _ (List.mem_append_left _ hm)
              · apply xdepth_le_of_mem_entries
                rw [List.append_assoc]
                exact List.mem_append_right _ (List.mem_append_right _ he3)
            omega
        split at h
        · rename_i x1 ls
          rcases hm : mapE (processLayer c) ls with err | ls2 <;> rw [hm] at h
          · cases h
          · simp only [Except.ok.injEq] at h
            subst h
            have hg0wfl : WfVal (XVal.list ls) := hg0wf
            rcases hg0wfl with _ | _ | _ | ⟨_, hlen2, hnl2, hwf2⟩
            have hls2 : ∀ y ∈ ls2, WfVal y ∧ notListV y ∧ xdepth y ≤ xdepthList ls := by
              intro y hy
              rcases mapE_ok_mem _ _ _ hm y hy with ⟨x, hx, hgx⟩
              have hp := processLayer_preserves c x y (hwf2 x hx) hgx
              exact ⟨hp.1, hp.2.2 (hnl2 x hx),
                le_trans hp.2.1 (xdepth_le_of_mem_list _ _ hx)⟩
            have hX := hrebuild (XVal.list ls2)
              (WfVal.list ls2 (by rw [mapE_ok_length _ _ _ hm]; exact hlen2)
                (fun y hy => (hls2 y hy).2.1) (fun y hy => (hls2 y hy).1))
              (Or.inr ⟨ls2, rfl, by rw [mapE_ok_length _ _ _ hm]; exact hlen2,
                fun y hy => (hls2 y hy).2.1, fun y hy => (hls2 y hy).1⟩)
              (by
                simp only [xdepth]
                have : xdepthList ls2 ≤ xdepthList ls :=
                  xdepthList_le_of_all _ _ (fun y hy => (hls2 y hy).2.2)
                omega)
            refine ⟨XVal.dict (dictSet (apairs.map (fun p => ("@" ++ p.1, XVal.str p.2)) ++
              children ++ textPart) "g" (XVal.list ls2)), ?_, hX.1, by simp [notListV], hX.2⟩
            rw [show dictSet [("svg", XVal.dict (apairs.map
                (fun p => ("@" ++ p.1, XVal.str p.2)) ++ children ++ textPart))] "svg"
                (XVal.dict (dictSet (apairs.map (fun p => ("@" ++ p.1, XVal.str p.2)) ++
                  children ++ textPart) "g" (XVal.list ls2))) =
                [("svg", XVal.dict (dictSet (apairs.map (fun p => ("@" ++ p.1, XVal.str p.2))
                  ++ children ++ textPart) "g" (XVal.list ls2)))] from by
              simp [dictSet]]
        · rename_i hconstr
          rcases hpl : processLayer c g0 with err | x2 <;> rw [hpl] at h
          · cases h
          · simp only [Except.ok.injEq] at h
            subst h
            have hg0nl : notListV g0 := by
              rcases g0 with _ | s | es | ls
              · simp [notListV]
              · simp [notListV]
              · simp [notListV]
              · exact absurd rfl (hconstr ls)
            have hp := processLayer_preserves c g0 x2 hg0wf hpl
            have hX := hrebuild x2 hp.1
              (Or.inl (by
                intro ls hcontra
                have hnl2 := hp.2.2 hg0nl
                rw [hcontra] at hnl2
                exact absurd hnl2 (by simp [notListV])))
              hp.2.1
            refine ⟨XVal.dict (dictSet (apairs.map (fun p => ("@" ++ p.1, XVal.str p.2)) ++
              children ++ textPart) "g" x2), ?_, hX.1, by simp [notListV], hX.2⟩
            rw [show dictSet [("svg", XVal.dict (apairs.map
                (fun p => ("@" ++ p.1, XVal.str p.2)) ++ children ++ textPart))] "svg"
                (XVal.dict (dictSet (apairs.map (fun p => ("@" ++ p.1, XVal.str p.2)) ++
                  children ++ textPart) "g" x2)) =
                [("svg", XVal.dict (dictSet (apairs.map (fun p => ("@" ++ p.1, XVal.str p.2))
                  ++ children ++ textPart) "g" x2))] from by
              simp [dictSet]]
    · cases h

/-- A well-formed value serializes to at least as many characters as it
is deep, whenever the fuel exceeds the depth. -/
theorem xdepth_le_serLen (d : Nat) : ∀ v, xdepth v ≤ d → WfVal v →
    ∀ (tag : String) (fuel : Nat), xdepth v < fuel →
    (notListV v → xdepth v + 1 ≤ (serVal fuel tag v).data.length) ∧
    xdepth v ≤ (serVal fuel tag v).data.length := by
  induction d with
  | zero =>
    intro v hd hwf tag fuel hfu
    obtain ⟨sf, rfl⟩ : ∃ sf, fuel = sf + 1 := by
      rcases fuel with _ | sf
      · omega
      · exact ⟨sf, rfl⟩
    rcases hwf with _ | ⟨s, hne, hst⟩ | ⟨apairs, children, textPart, _, _, _, _, _, _⟩ |
      ⟨vs, _, _, _⟩
    · constructor
      · intro _
        show 0 + 1 ≤ ("<" ++ tag ++ "></" ++ tag ++ ">").data.length
        simp [String.data_append]
      · simp [xdepth]
    · constructor
      · intro _
        show 0 + 1 ≤ ("<" ++ tag ++ ">" ++ escapeText s ++ "</" ++ tag ++ ">").data.length
        simp [String.data_append]
      · simp [xdepth]
    · exfalso
      simp [xdepth] at hd
    · exfalso
      simp [xdepth] at hd
  | succ d ihd =>
    intro v hd hwf tag fuel hfu
    obtain ⟨sf, rfl⟩ : ∃ sf, fuel = sf + 1 := by
      rcases fuel with _ | sf
      · omega
      · exact ⟨sf, rfl⟩
    rcases hwf with _ | ⟨s, hne, hst⟩ |
      ⟨apairs, children, textPart, hap, hch, hwfc, hnd, htp, hnonempty⟩ |
      ⟨vs, hlen, hnlm, hwfm⟩
    · constructor
      · intro _
        show 0 + 1 ≤ ("<" ++ tag ++ "></" ++ tag ++ ">").data.length
        simp [String.data_append]
      · simp [xdepth]
    · constructor
      · intro _
        show 0 + 1 ≤ ("<" ++ tag ++ ">" ++ escapeText s ++ "</" ++ tag ++ ">").data.length
        simp [String.data_append]
      · simp [xdepth]
    · have htpw : textPart = [] ∨ ∃ t, textPart = [("#text", XVal.str t)] := by
        rcases htp with rfl | ⟨t, rfl, _, _⟩
        · exact Or.inl rfl
        · exact Or.inr ⟨t, rfl⟩
      have hvshape : ∃ TS : String,
          serVal (sf + 1) tag (XVal.dict (apairs.map (fun p => ("@" ++ p.1, XVal.str p.2))
            ++ children ++ textPart)) =
          "<" ++ tag ++ String.join ((apairs.map (fun p => ("@" ++ p.1, XVal.str p.2))).map
            (fun e => " " ++ dropMarker e.1 ++ "=\"" ++ escapeAttr (attrValStr e.2) ++ "\""))
          ++ ">" ++ String.join (children.map (fun e => serVal sf e.1 e.2)) ++
          escapeText TS ++ "</" ++ tag ++ ">" := by
        rcases htpw with htn | ⟨t, htt⟩
        · subst htn
          refine ⟨"", ?_⟩
          simp only [serVal]
          rw [filter_attr_section apairs children [] hch (Or.inl rfl)]
          rw [filter_child_section apairs children [] hch (Or.inl rfl)]
          rw [dictGet_text_section apairs children [] hch (Or.inl rfl)]
        · subst htt
          refine ⟨t, ?_⟩
          simp only [serVal]
          rw [filter_attr_section apairs children _ hch (Or.inr ⟨t, rfl⟩)]
          rw [filter_child_section apairs children _ hch (Or.inr ⟨t, rfl⟩)]
          rw [dictGet_text_section apairs children _ hch (Or.inr ⟨t, rfl⟩)]
          rfl
      rcases hvshape with ⟨TS, hv⟩
      have hLen := congrArg (fun s : String => s.data.length) hv
      simp only [String.data_append, List.length_append, List.length_cons,
        List.length_nil] at hLen
      have hE : xdepthEntries (apairs.map (fun p => ("@" ++ p.1, XVal.str p.2)) ++
          children ++ textPart) ≤ d := by
        simp only [xdepth] at hd
        omega
      have hgoal : xdepth (XVal.dict (apairs.map (fun p => ("@" ++ p.1, XVal.str p.2)) ++
          children ++ textPart)) + 1 ≤
          (serVal (sf + 1) tag (XVal.dict (apairs.map (fun p => ("@" ++ p.1, XVal.str p.2))
            ++ children ++ textPart))).data.length := by
        simp only [xdepth]
        rcases xdepthEntries_witness (apairs.map (fun p => ("@" ++ p.1, XVal.str p.2)) ++
            children ++ textPart) with h0 | ⟨e, hemem, heqE⟩
        · rw [h0]
          omega
        · by_cases hz : xdepthEntries (apairs.map (fun p => ("@" ++ p.1, XVal.str p.2)) ++
              children ++ textPart) = 0
          · rw [hz]
            omega
          · have hech : e ∈ children := by
              rcases List.mem_append.mp hemem with he2 | he3
              · rcases List.mem_append.mp he2 with he4 | he5
                · rcases List.mem_map.mp he4 with ⟨p, _, rfl⟩
                  exfalso
                  apply hz
                  rw [← heqE]
                  rfl
                · exact he5
              · exfalso
                rcases htp with rfl | ⟨t, rfl, _, _⟩
                · simp at he3
                · rcases List.mem_singleton.mp he3 with rfl
                  apply hz
                  rw [← heqE]
                  rfl
            have hwfe : WfVal e.2 := hwfc e hech
            have hdepe : xdepth e.2 ≤ d := by
              rw [heqE] at *
              exact hE
            have hfue : xdepth e.2 < sf := by
              simp only [xdepth] at hfu
              omega
            have hmem2 : serVal sf e.1 e.2 ∈ children.map (fun e => serVal sf e.1 e.2) :=
              List.mem_map_of_mem _ hech
            have hjoin := join_data_length_ge_mem _ _ hmem2
            have hih := ihd e.2 hdepe hwfe e.1 sf hfue
            rcases he2shape : e.2 with _ | s2 | es2 | vs2
            · rw [he2shape] at heqE
              exfalso
              apply hz
              rw [← heqE]
              rfl
            · rw [he2shape] at heqE
              exfalso
              apply hz
              rw [← heqE]
              rfl
            · have h1 : xdepth e.2 + 1 ≤ (serVal sf e.1 e.2).data.length :=
                hih.1 (by rw [he2shape]; simp [notListV])
              rw [heqE] at h1
              omega
            · have h1 : xdepth e.2 ≤ (serVal sf e.1 e.2).data.length := hih.2
              rw [heqE] at h1
              omega
      exact ⟨fun _ => hgoal, by omega⟩
    · have hM : xdepthList vs ≤ d := by
        simp only [xdepth] at hd
        omega
      have hjoineq : serVal (sf + 1) tag (XVal.list vs) =
          String.join (vs.map (fun x => serVal sf tag x)) := rfl
      have hgoal : xdepth (XVal.list vs) ≤
          (serVal (sf + 1) tag (XVal.list vs)).data.length := by
        rw [hjoineq]
        simp only [xdepth]
        rcases xdepthList_witness vs with h0 | ⟨w, hwm, hweq⟩
        · rw [h0]
          rcases vs with _ | ⟨v1, vs'⟩
          · simp at hlen
          · have hwf1 : WfVal v1 := hwfm v1 (List.mem_cons_self _ _)
            have hnl1 : notListV v1 := hnlm v1 (List.mem_cons_self _ _)
            have hd1 : xdepth v1 ≤ d := by
              have := xdepth_le_of_mem_list (v1 :: vs') v1 (List.mem_cons_self _ _)
              omega
            have hfu1 : xdepth v1 < sf := by
              have := xdepth_le_of_mem_list (v1 :: vs') v1 (List.mem_cons_self _ _)
              simp only [xdepth] at hfu
              omega
            have hih := (ihd v1 hd1 hwf1 tag sf hfu1).1 hnl1
            have hmem2 : serVal sf tag v1 ∈ (v1 :: vs').map (fun x => serVal sf tag x) :=
              List.mem_map_of_mem _ (List.mem_cons_self _ _)
            have hjoin := join_data_length_ge_mem _ _ hmem2
            omega
        · have hwfw : WfVal w := hwfm w hwm
          have hnlw : notListV w := hnlm w hwm
          have hdw : xdepth w ≤ d := by
            have := xdepth_le_of_mem_list vs w hwm
            omega
          have hfuw : xdepth w < sf := by
            have := xdepth_le_of_mem_list vs w hwm
            simp only [xdepth] at hfu
            omega
          have hih := (ihd w hdw hwfw tag sf hfuw).1 hnlw
          have hmem2 : serVal sf tag w ∈ vs.map (fun x => serVal sf tag x) :=
            List.mem_map_of_mem _ hwm
          have hjoin := join_data_length_ge_mem _ _ hmem2
          omega
      exact ⟨fun hc => absurd hc (by simp [notListV]), hgoal⟩

theorem xmlUnparse_single_data (F : Nat) (tag : String) (v : XVal) :
    (xmlUnparse F (XVal.dict [(tag, v)])).data =
      "<?xml version=\"1.0\" encoding=\"utf-8\"?>\n".data ++ (serVal F tag v).data := by
  show ("<?xml version=\"1.0\" encoding=\"utf-8\"?>\n" ++
    String.join ([(tag, v)].map (fun e => serVal F e.1 e.2))).data = _
  simp [String.data_append, String.data_join]


/-! ## Claim theorems -/

/-- C1: In recolor with a non-null color, for every nested element of a
matching color-layer group that carries a style attribute, the style value
is split on the semicolon and every resulting segment that begins with the
fill key is replaced by the fill key followed by the requested color, while
all other segments are kept unchanged in place; the segments are rejoined
with the semicolon and written back to the style attribute. -/
theorem C1_recolor_rewrites_fill_segments
    (doc c : String) (se ge : List (String × XVal)) (g0 : XVal)
    (j p i : Nat) (le : List (String × XVal)) (k : String) (v : XVal)
    (ee : List (String × XVal)) (s : String) (stOut : XVal)
    (hparse : xmlParse doc = .ok (.dict se))
    (hsvg : dictGet? se "svg" = some (.dict ge))
    (hg : dictGet? ge "g" = some g0)
    (hj : (layerListOf g0).get? j = some (.dict le))
    (hlab : dictGet? le "@inkscape:label" = some (.str "color"))
    (hmode : dictGet? le "@inkscape:groupmode" = some (.str "layer"))
    (hp : le.get? p = some (k, v))
    (hk : (startsWithStr k "@" || startsWithStr k "#") = false)
    (hi : (childListOf v).get? i = some (.dict ee))
    (hs : dictGet? ee "@style" = some (.str s))
    (hrun : setFillsStructure c (.dict se) = .ok stOut) :
    set_fills_in_color_layer doc (some c) =
      .ok (xmlUnparse (doc.data.length + 1) stOut) ∧
    ∃ le' v', layerEntriesAt stOut j = some le' ∧ le'.get? p = some (k, v') ∧
      (childListOf v').get? i = some (XVal.dict (dictSet ee "@style" (XVal.str
        (pyJoin ';' ((pySplit s ';').map
          (fun seg => if startsWithStr seg "fill:" then "fill:" ++ c else seg)))))) ∧
      (∀ seg ∈ pySplit s ';', startsWithStr seg "fill:" = true →
        (if startsWithStr seg "fill:" then "fill:" ++ c else seg) = "fill:" ++ c) ∧
      (∀ seg ∈ pySplit s ';', startsWithStr seg "fill:" = false →
        (if startsWithStr seg "fill:" then "fill:" ++ c else seg) = seg) := by
  have hmatch : isColorLayer le = true := by simp [isColorLayer, hlab, hmode]
  constructor
  · simp [set_fills_in_color_layer, hparse, hrun]
  · rcases locate_processed c se ge g0 j p i le k v (XVal.dict ee) stOut hsvg hg hj
      hmatch hp hk hi hrun with ⟨le', v', el', h1, h2, h3, h4⟩
    rw [processElement_with_style c ee s hs] at h4
    simp at h4
    subst h4
    refine ⟨le', v', h1, h2, by simpa [processStyle] using h3, ?_, ?_⟩
    · intro seg _ hf
      simp [hf]
    · intro seg _ hf
      simp [hf]

/-- The template of the spec's C1 test: one rectangle with a fill and a
fill-opacity inside a color layer. -/
def docC1 : String :=
  "<svg><g inkscape:label=\"color\" inkscape:groupmode=\"layer\"><rect style=\"fill:#ff0000;fill-opacity:1\" /></g></svg>"

/-- The rectangle's attribute entries in the parse of `docC1`. -/
def eeC1 : List (String × XVal) := [("@style", XVal.str "fill:#ff0000;fill-opacity:1")]

/-- The color-layer entries in the parse of `docC1`. -/
def leC1 : List (String × XVal) :=
  [("@inkscape:label", XVal.str "color"), ("@inkscape:groupmode", XVal.str "layer"),
   ("rect", XVal.dict eeC1)]

/-- The root element's entries in the parse of `docC1`. -/
def geC1 : List (String × XVal) := [("g", XVal.dict leC1)]

/-- The parse dictionary of `docC1`. -/
def seC1 : List (String × XVal) := [("svg", XVal.dict geC1)]

/-- The structure after recoloring `docC1` with the green color: the fill
segment is rewritten, the fill-opacity segment is untouched. -/
def stOutC1 : XVal :=
  XVal.dict [("svg", XVal.dict [("g", XVal.dict
    [("@inkscape:label", XVal.str "color"), ("@inkscape:groupmode", XVal.str "layer"),
     ("rect", XVal.dict [("@style", XVal.str "fill:#00ff00;fill-opacity:1")])])])]

theorem C1_witness :
    set_fills_in_color_layer docC1 (some "#00ff00") =
      .ok (xmlUnparse (docC1.data.length + 1) stOutC1) ∧
    ∃ le' v', layerEntriesAt stOutC1 0 = some le' ∧ le'.get? 2 = some ("rect", v') ∧
      (childListOf v').get? 0 = some (XVal.dict (dictSet eeC1 "@style" (XVal.str
        (pyJoin ';' ((pySplit "fill:#ff0000;fill-opacity:1" ';').map
          (fun seg => if startsWithStr seg "fill:" then "fill:" ++ "#00ff00" else seg)))))) ∧
      (∀ seg ∈ pySplit "fill:#ff0000;fill-opacity:1" ';', startsWithStr seg "fill:" = true →
        (if startsWithStr seg "fill:" then "fill:" ++ "#00ff00" else seg) = "fill:" ++ "#00ff00") ∧
      (∀ seg ∈ pySplit "fill:#ff0000;fill-opacity:1" ';', startsWithStr seg "fill:" = false →
        (if startsWithStr seg "fill:" then "fill:" ++ "#00ff00" else seg) = seg) :=
  C1_recolor_rewrites_fill_segments docC1 "#00ff00" seC1 geC1 (XVal.dict leC1) 0 2 0
    leC1 "rect" (XVal.dict eeC1) eeC1 "fill:#ff0000;fill-opacity:1" stOutC1
    rfl rfl rfl rfl rfl rfl rfl rfl rfl rfl rfl

/-- C2: For every document text, recolor called with an absent color returns
the input text byte-identical (no parse is consulted), and consequently
rendering a registered type with a null color returns the stored content
unchanged. -/
theorem C2_null_color_returns_input (store : Store) (i : Instruction)
    (C doc : String)
    (hstore : dictGet? store i.type = some C) (hcolor : i.color = none) :
    set_fills_in_color_layer doc i.color = .ok doc ∧
    instruction_to_svg store i = .ok C := by
  constructor
  · rw [hcolor]
    rfl
  · simp [instruction_to_svg, hstore, hcolor, set_fills_in_color_layer]

theorem C2_witness :
    set_fills_in_color_layer "<<not-xml" none = .ok "<<not-xml" ∧
    instruction_to_svg [("knit", "<svg>ok</svg>")] ⟨"knit", none⟩ = .ok "<svg>ok</svg>" :=
  C2_null_color_returns_input [("knit", "<svg>ok</svg>")] ⟨"knit", none⟩
    "<svg>ok</svg>" "<<not-xml" rfl rfl

/-- C3 counterexample: the one-element document is well-formed XML (its parse
succeeds and yields a root mapping), yet recolor with a non-null color raises
a TypeError - subscripting the empty root's `None` value - instead of
returning the text unchanged. -/
theorem C3_counterexample :
    xmlParse "<svg/>" = .ok (XVal.dict [("svg", XVal.null)]) ∧
    set_fills_in_color_layer "<svg/>" (some "#000000") = .error PyErr.typeError :=
  ⟨rfl, rfl⟩

/-- C3 (amended): recolor with a non-null color can raise beyond
MalformedDocument when the root is not an `svg` mapping with a direct `g`
child; but a well-formed document whose root `svg` does have direct `g`
groups, none of which matches the color-layer labels, is re-serialized with
its content unchanged, not rejected. -/
theorem C3_no_match_returns_unchanged (doc c : String)
    (se ge : List (String × XVal)) (g0 : XVal)
    (hparse : xmlParse doc = .ok (.dict se))
    (hsvg : dictGet? se "svg" = some (.dict ge))
    (hg : dictGet? ge "g" = some g0)
    (hnm : ∀ L ∈ layerListOf g0, isLayerMatch L = false) :
    set_fills_in_color_layer doc (some c) =
      .ok (xmlUnparse (doc.data.length + 1) (.dict se)) := by
  simp [set_fills_in_color_layer, hparse, setFills_no_match c se ge g0 hsvg hg hnm]

/-- A document with one non-matching group. -/
def docC3 : String := "<svg><g id=\"a\" /></svg>"

theorem C3_witness :
    set_fills_in_color_layer docC3 (some "#00ff00") =
      .ok (xmlUnparse (docC3.data.length + 1)
        (XVal.dict [("svg", XVal.dict [("g", XVal.dict [("@id", XVal.str "a")])])])) :=
  C3_no_match_returns_unchanged docC3 "#00ff00"
    [("svg", XVal.dict [("g", XVal.dict [("@id", XVal.str "a")])])]
    [("g", XVal.dict [("@id", XVal.str "a")])]
    (XVal.dict [("@id", XVal.str "a")])
    rfl rfl rfl (by decide)

/-- A color layer holding a bare element: xmltodict collapses `rect` to
`None`, and `None.get` raises AttributeError. -/
def docC4 : String :=
  "<svg><g inkscape:label=\"color\" inkscape:groupmode=\"layer\"><rect /></g></svg>"

/-- C4 counterexample: the bare rectangle carries no style attribute, yet
recolor raises an AttributeError on its account, because the element
collapses to `None` in the parse and has no `get`. -/
theorem C4_counterexample :
    xmlParse docC4 = .ok (XVal.dict [("svg", XVal.dict [("g", XVal.dict
      [("@inkscape:label", XVal.str "color"), ("@inkscape:groupmode", XVal.str "layer"),
       ("rect", XVal.null)])])]) ∧
    set_fills_in_color_layer docC4 (some "#00ff00") = .error PyErr.attributeError :=
  ⟨rfl, rfl⟩

/-- C4 (amended): within a matching color-layer group, every nested element
that is represented as an attribute mapping and does not carry a style
attribute is left untouched when recoloring completes; an element collapsed
to `None` or to bare text (no attributes and no children) instead raises
AttributeError. -/
theorem C4_no_style_left_untouched (doc c : String)
    (se ge : List (String × XVal)) (g0 : XVal)
    (j p i : Nat) (le : List (String × XVal)) (k : String) (v : XVal)
    (ee : List (String × XVal)) (stOut : XVal)
    (hparse : xmlParse doc = .ok (.dict se))
    (hsvg : dictGet? se "svg" = some (.dict ge))
    (hg : dictGet? ge "g" = some g0)
    (hj : (layerListOf g0).get? j = some (.dict le))
    (hlab : dictGet? le "@inkscape:label" = some (.str "color"))
    (hmode : dictGet? le "@inkscape:groupmode" = some (.str "layer"))
    (hp : le.get? p = some (k, v))
    (hk : (startsWithStr k "@" || startsWithStr k "#") = false)
    (hi : (childListOf v).get? i = some (.dict ee))
    (hs : dictGet? ee "@style" = none)
    (hrun : setFillsStructure c (.dict se) = .ok stOut) :
    set_fills_in_color_layer doc (some c) =
      .ok (xmlUnparse (doc.data.length + 1) stOut) ∧
    ∃ le' v', layerEntriesAt stOut j = some le' ∧ le'.get? p = some (k, v') ∧
      (childListOf v').get? i = some (XVal.dict ee) := by
  have hmatch : isColorLayer le = true := by simp [isColorLayer, hlab, hmode]
  constructor
  · simp [set_fills_in_color_layer, hparse, hrun]
  · rcases locate_processed c se ge g0 j p i le k v (XVal.dict ee) stOut hsvg hg hj
      hmatch hp hk hi hrun with ⟨le', v', el', h1, h2, h3, h4⟩
    rw [processElement_no_style c ee hs] at h4
    simp at h4
    subst h4
    exact ⟨le', v', h1, h2, h3⟩

/-- A color layer whose rectangle has a width but no style. -/
def docC4w : String :=
  "<svg><g inkscape:label=\"color\" inkscape:groupmode=\"layer\"><rect width=\"10\" /></g></svg>"

/-- The parse of `docC4w`, which recoloring leaves unchanged. -/
def stC4w : XVal :=
  XVal.dict [("svg", XVal.dict [("g", XVal.dict
    [("@inkscape:label", XVal.str "color"), ("@inkscape:groupmode", XVal.str "layer"),
     ("rect", XVal.dict [("@width", XVal.str "10")])])])]

theorem C4_witness :
    set_fills_in_color_layer docC4w (some "#00ff00") =
      .ok (xmlUnparse (docC4w.data.length + 1) stC4w) ∧
    ∃ le' v', layerEntriesAt stC4w 0 = some le' ∧ le'.get? 2 = some ("rect", v') ∧
      (childListOf v').get? 0 = some (XVal.dict [("@width", XVal.str "10")]) :=
  C4_no_style_left_untouched docC4w "#00ff00"
    [("svg", XVal.dict [("g", XVal.dict
      [("@inkscape:label", XVal.str "color"), ("@inkscape:groupmode", XVal.str "layer"),
       ("rect", XVal.dict [("@width", XVal.str "10")])])])]
    [("g", XVal.dict
      [("@inkscape:label", XVal.str "color"), ("@inkscape:groupmode", XVal.str "layer"),
       ("rect", XVal.dict [("@width", XVal.str "10")])])]
    (XVal.dict
      [("@inkscape:label", XVal.str "color"), ("@inkscape:groupmode", XVal.str "layer"),
       ("rect", XVal.dict [("@width", XVal.str "10")])])
    0 2 0
    [("@inkscape:label", XVal.str "color"), ("@inkscape:groupmode", XVal.str "layer"),
     ("rect", XVal.dict [("@width", XVal.str "10")])]
    "rect" (XVal.dict [("@width", XVal.str "10")])
    [("@width", XVal.str "10")] stC4w
    rfl rfl rfl rfl rfl rfl rfl rfl rfl rfl rfl

/-- C5: For an instruction whose type has no registered template, when no
"default" entry exists in the store, rendering returns the empty string and
raises no error. -/
theorem C5_missing_template_and_default_empty (store : Store) (i : Instruction)
    (h1 : dictGet? store i.type = none) (h2 : dictGet? store "default" = none) :
    instruction_to_svg store i = .ok "" ∧
    default_instruction_to_svg store i = .ok "" := by
  simp [instruction_to_svg, default_instruction_to_svg, h1, h2]

theorem C5_witness :
    instruction_to_svg [("purl", "<svg />")] ⟨"knit", some "#123456"⟩ = .ok "" ∧
    default_instruction_to_svg [("purl", "<svg />")] ⟨"knit", some "#123456"⟩ = .ok "" :=
  C5_missing_template_and_default_empty [("purl", "<svg />")] ⟨"knit", some "#123456"⟩
    rfl rfl

/-- C6: For an instruction whose type has no registered template, when a
"default" entry exists, the result is the "default" text with every literal
occurrence of the placeholder replaced by the instruction type, then
recolored with the instruction color - substitution first, recoloring
second. -/
theorem C6_default_substituted_then_recolored (store : Store) (i : Instruction)
    (d : String)
    (h1 : dictGet? store i.type = none) (h2 : dictGet? store "default" = some d) :
    instruction_to_svg store i =
      set_fills_in_color_layer (pyReplace d rep_str i.type) i.color ∧
    default_instruction_to_svg store i =
      set_fills_in_color_layer (pyReplace d rep_str i.type) i.color := by
  simp [instruction_to_svg, default_instruction_to_svg, h1, h2]

/-- The spec's example default template. -/
def dfltC6 : String := "<svg><text>\x7binstruction.type\x7d</text></svg>"

theorem C6_witness :
    (instruction_to_svg [("default", dfltC6)] ⟨"knit", none⟩ =
      set_fills_in_color_layer (pyReplace dfltC6 rep_str "knit") none ∧
    default_instruction_to_svg [("default", dfltC6)] ⟨"knit", none⟩ =
      set_fills_in_color_layer (pyReplace dfltC6 rep_str "knit") none) ∧
    pyReplace dfltC6 rep_str "knit" = "<svg><text>knit</text></svg>" :=
  ⟨C6_default_substituted_then_recolored [("default", dfltC6)] ⟨"knit", none⟩ dfltC6
    rfl rfl, rfl⟩

/-- A color layer with one fill segment, recolored below with a color that
itself contains a semicolon and a second fill property. -/
def docC7 : String :=
  "<svg><g inkscape:label=\"color\" inkscape:groupmode=\"layer\"><rect style=\"fill:x\" /></g></svg>"

/-- The result of recoloring `docC7` once with the color `a;fill:b`. -/
def outC7a : String :=
  "<?xml version=\"1.0\" encoding=\"utf-8\"?>\n<svg><g inkscape:label=\"color\" inkscape:groupmode=\"layer\"><rect style=\"fill:a;fill:b\"></rect></g></svg>"

/-- The result of recoloring `outC7a` again with the same color. -/
def outC7b : String :=
  "<?xml version=\"1.0\" encoding=\"utf-8\"?>\n<svg><g inkscape:label=\"color\" inkscape:groupmode=\"layer\"><rect style=\"fill:a;fill:b;fill:a;fill:b\"></rect></g></svg>"

/-- C7 counterexample: with the color `a;fill:b` (a legal string input),
recoloring twice does not preserve the fill values of the style attribute:
one application yields the fill segments `fill:a` and `fill:b`, a second
application doubles them, because the injected semicolon creates new
segments that the second pass rewrites again. -/
theorem C7_counterexample :
    set_fills_in_color_layer docC7 (some "a;fill:b") = .ok outC7a ∧
    set_fills_in_color_layer outC7a (some "a;fill:b") = .ok outC7b ∧
    docFillValues outC7a = some ["fill:a", "fill:b"] ∧
    docFillValues outC7b = some ["fill:a", "fill:b", "fill:a", "fill:b"] ∧
    outC7a ≠ outC7b :=
  ⟨rfl, rfl, rfl, rfl, by decide⟩

/-- C7 (amended): recoloring is idempotent for every color that does not
contain a semicolon: when one call of recolor on a document text succeeds,
a second call of recolor on the returned text - parse, fill rewrite and
serialize included - succeeds and returns that text unchanged. -/
theorem C7_recolor_idempotent_semicolon_free (doc c out : String)
    (hc : ';' ∉ c.data)
    (h : set_fills_in_color_layer doc (some c) = .ok out) :
    set_fills_in_color_layer out (some c) = .ok out := by
  simp only [set_fills_in_color_layer] at h
  rcases hxp : xmlParse doc with err | st
  · rw [hxp] at h
    cases h
  · simp only [hxp] at h
    rcases hsf : setFillsStructure c st with err | st2
    · simp only [hsf] at h
      cases h
    · simp only [hsf] at h
      simp only [Except.ok.injEq] at h
      have hpd : parseDoc doc = some st := by
        unfold xmlParse at hxp
        rcases hpd0 : parseDoc doc with _ | st0 <;> rw [hpd0] at hxp
        · cases hxp
        · simp only [Except.ok.injEq] at hxp
          rw [hxp]
      rcases parseDoc_wf doc st hpd with ⟨tag, v, hst, htag, hwf, hnl, hdep⟩
      subst hst
      rcases setFills_preserves_doc c tag v st2 hwf hsf with
        ⟨htagsvg, v2, hst2, hwf2, hnl2, hdep2⟩
      subst hst2
      have hout : out = xmlUnparse (doc.data.length + 1) (XVal.dict [("svg", v2)]) := h.symm
      have hdataout : out.data = "<?xml version=\"1.0\" encoding=\"utf-8\"?>\n".data ++
          (serVal (doc.data.length + 1) "svg" v2).data := by
        rw [hout]
        exact xmlUnparse_single_data _ _ _
      have hserlen : xdepth v2 ≤ (serVal (doc.data.length + 1) "svg" v2).data.length :=
        (xdepth_le_serLen (xdepth v2) v2 (le_refl _) hwf2 "svg" (doc.data.length + 1)
          (by omega)).2
      have houtlen : xdepth v2 ≤ out.data.length := by
        have hcl := congrArg List.length hdataout
        rw [List.length_append] at hcl
        omega
      have hpdout : parseDoc out = some (XVal.dict [("svg", v2)]) := by
        rw [hout]
        exact parseDoc_unparse "svg" v2 doc.data.length ⟨by decide, by decide⟩ hwf2 hnl2
          (by omega)
      have hxpout : xmlParse out = .ok (XVal.dict [("svg", v2)]) := by
        unfold xmlParse
        rw [hpdout]
      have hsfout : setFillsStructure c (XVal.dict [("svg", v2)]) =
          .ok (XVal.dict [("svg", v2)]) := setFillsStructure_idem c _ _ hc hsf
      have hstable : serVal (out.data.length + 1) "svg" v2 =
          serVal (doc.data.length + 1) "svg" v2 :=
        serVal_stable (xdepth v2) v2 "svg" _ _ (le_refl _) (by omega) (by omega)
      simp only [set_fills_in_color_layer, hxpout, hsfout]
      have hunp : xmlUnparse (out.data.length + 1) (XVal.dict [("svg", v2)]) =
          xmlUnparse (doc.data.length + 1) (XVal.dict [("svg", v2)]) := by
        unfold xmlUnparse
        simp only [List.map_cons, List.map_nil]
        rw [hstable]
      rw [hunp, ← hout]

theorem C7_witness :
    ';' ∉ ("#00ff00" : String).data ∧
    set_fills_in_color_layer docC1 (some "#00ff00") =
      .ok (xmlUnparse (docC1.data.length + 1) stOutC1) ∧
    set_fills_in_color_layer (xmlUnparse (docC1.data.length + 1) stOutC1) (some "#00ff00") =
      .ok (xmlUnparse (docC1.data.length + 1) stOutC1) :=
  ⟨by decide, rfl,
    C7_recolor_idempotent_semicolon_free docC1 "#00ff00"
      (xmlUnparse (docC1.data.length + 1) stOutC1) (by decide) rfl⟩

/-- C8: When the root has several direct child groups, recolor processes
every group at its own position independently: each group is transformed
exactly by the single-layer rewriting step, and every group that fails the
color-layer test - missing either label attribute or not structured as a
key/value mapping - is left untouched. -/
theorem C8_groups_processed_independently (doc c : String)
    (se ge : List (String × XVal)) (g0 : XVal) (stOut : XVal)
    (hparse : xmlParse doc = .ok (.dict se))
    (hsvg : dictGet? se "svg" = some (.dict ge))
    (hg : dictGet? ge "g" = some g0)
    (hrun : setFillsStructure c (.dict se) = .ok stOut) :
    set_fills_in_color_layer doc (some c) =
      .ok (xmlUnparse (doc.data.length + 1) stOut) ∧
    ∃ G', stOut = .dict (dictSet se "svg" (.dict (dictSet ge "g" G'))) ∧
      (layerListOf G').length = (layerListOf g0).length ∧
      ∀ j L, (layerListOf g0).get? j = some L →
        ∃ L', (layerListOf G').get? j = some L' ∧ processLayer c L = .ok L' ∧
          (isLayerMatch L = false → L' = L) := by
  constructor
  · simp [set_fills_in_color_layer, hparse, hrun]
  · rcases setFills_layers c se ge g0 stOut hsvg hg hrun with ⟨G', rfl, hlen, hget⟩
    refine ⟨G', rfl, hlen, ?_⟩
    intro j L hj
    rcases hget j L hj with ⟨L', h1, h2⟩
    refine ⟨L', h1, h2, fun hnm => ?_⟩
    rw [processLayer_nonmatch c L hnm] at h2
    simp at h2
    exact h2.symm

/-- A document with two direct child groups: a matching color layer and a
group that lacks the label attributes. -/
def docC8 : String :=
  "<svg><g inkscape:label=\"color\" inkscape:groupmode=\"layer\"><rect style=\"fill:red\" /></g><g id=\"other\"><rect style=\"fill:red\" /></g></svg>"

/-- The matching first group of `docC8`. -/
def layerC8a : XVal :=
  XVal.dict [("@inkscape:label", XVal.str "color"), ("@inkscape:groupmode", XVal.str "layer"),
    ("rect", XVal.dict [("@style", XVal.str "fill:red")])]

/-- The non-matching second group of `docC8`. -/
def layerC8b : XVal :=
  XVal.dict [("@id", XVal.str "other"), ("rect", XVal.dict [("@style", XVal.str "fill:red")])]

/-- The first group after recoloring with the green color. -/
def layerC8a2 : XVal :=
  XVal.dict [("@inkscape:label", XVal.str "color"), ("@inkscape:groupmode", XVal.str "layer"),
    ("rect", XVal.dict [("@style", XVal.str "fill:#00ff00")])]

/-- The root entries of the parse of `docC8`. -/
def geC8 : List (String × XVal) := [("g", XVal.list [layerC8a, layerC8b])]

/-- The parse dictionary of `docC8`. -/
def seC8 : List (String × XVal) := [("svg", XVal.dict geC8)]

/-- The structure after recoloring `docC8`: the matching group is rewritten,
the unlabeled group is untouched. -/
def stOutC8 : XVal :=
  XVal.dict [("svg", XVal.dict [("g", XVal.list [layerC8a2, layerC8b])])]

theorem C8_witness :
    set_fills_in_color_layer docC8 (some "#00ff00") =
      .ok (xmlUnparse (docC8.data.length + 1) stOutC8) ∧
    ∃ G', stOutC8 = .dict (dictSet seC8 "svg" (.dict (dictSet geC8 "g" G'))) ∧
      (layerListOf G').length = (layerListOf (XVal.list [layerC8a, layerC8b])).length ∧
      ∀ j L, (layerListOf (XVal.list [layerC8a, layerC8b])).get? j = some L →
        ∃ L', (layerListOf G').get? j = some L' ∧ processLayer "#00ff00" L = .ok L' ∧
          (isLayerMatch L = false → L' = L) :=
  C8_groups_processed_independently docC8 "#00ff00" seC8 geC8
    (XVal.list [layerC8a, layerC8b]) stOutC8 rfl rfl rfl rfl

/-- C9: `has_svg_for_instruction` returns true exactly when the store holds
an entry for the instruction's type - it is the store's membership check,
with no fallback consultation of the "default" entry. -/
theorem C9_has_template_iff_store_membership (store : Store) (i : Instruction) :
    has_svg_for_instruction store i = (dictGet? store i.type).isSome ∧
    (has_svg_for_instruction store i = true ↔
      ∃ C, dictGet? store i.type = some C) := by
  refine ⟨rfl, ?_⟩
  simp [has_svg_for_instruction, Option.isSome_iff_exists]

/-- C10: the rendering operations leave the store's type-to-content mapping
exactly as it was; only the loading operation writes to the store. -/
theorem C10_render_ops_preserve_store (store : Store) (op : RenderOp)
    (h : ∀ name content, op ≠ RenderOp.loadObject name content) :
    (runRenderOp store op).1 = store ∧
    ∀ t, dictGet? (runRenderOp store op).1 t = dictGet? store t := by
  rcases op with ⟨n, c⟩ | i | i | i
  · exact absurd rfl (h n c)
  · exact ⟨rfl, fun t => rfl⟩
  · exact ⟨rfl, fun t => rfl⟩
  · exact ⟨rfl, fun t => rfl⟩

theorem C10_witness :
    (runRenderOp [("knit", "<svg></svg>")] (RenderOp.toSvg ⟨"knit", none⟩)).1 =
      [("knit", "<svg></svg>")] ∧
    ∀ t, dictGet? (runRenderOp [("knit", "<svg></svg>")]
      (RenderOp.toSvg ⟨"knit", none⟩)).1 t = dictGet? [("knit", "<svg></svg>")] t :=
  C10_render_ops_preserve_store [("knit", "<svg></svg>")]
    (RenderOp.toSvg ⟨"knit", none⟩)
    (fun _ _ hcon => RenderOp.noConfusion hcon)
